import Mathlib

/-!
# logbro: ring buffer, query filter, live-push filter and level normalisation

A shallow embedding of `internal/models/models.go`, `internal/buffer/ring.go`,
`internal/parser/parser.go` and the hub and filter predicate of
`internal/server/websocket.go`.

Conventions of the embedding

* Go `string` is `String`; the functions of package `strings` that are plain
  sequence algorithms (`Contains`, `HasPrefix`, `TrimSpace`) are written out on
  the list of runes.
* What the Go standard library decides from tables or from a grammar of its own
  (Unicode case mapping and folding, `unicode.IsSpace`, `regexp`,
  `encoding/json`, `time.Parse`) is a field of the structure `Lib`; every
  definition that calls the library takes a `Lib`, and every theorem holds for
  every `Lib`.  `asciiLib` is one concrete library, used to evaluate examples.
* `uint64` is a `Nat` reduced modulo `2 ^ 64` at every increment.  Go `int`
  values that are never negative here (`capacity`, `head`, `count`) are `Nat`;
  `LogFilter.Limit`, which may be negative, is an `Int`.
* A run-time panic (index out of range, integer division by zero) is `none`.
-/

namespace Logbro

/-! ## Data model (`internal/models/models.go`) -/

/-- An instant, as nanoseconds since the Unix epoch (`time.Time` up to its location). -/
structure Time where
  unixNano : Int
deriving DecidableEq, Repr

/-- The zero value of `time.Time`: January 1, year 1, 00:00:00 UTC. -/
def Time.zero : Time := ⟨-62135596800 * 1000000000⟩

/-- A value decoded by `encoding/json` into an `any`: the decoder produces `nil`, `bool`,
`float64`, `string`, `[]any` and `map[string]any`.  A `float64` is kept as the rational it
denotes. -/
inductive JVal where
  | null
  | bool (b : Bool)
  | num (v : ℚ)
  | str (s : String)
  | arr (items : List JVal)
  | obj (members : List (String × JVal))

/-- A Go `map[string]any`, as an association list read through `JMap.get` and `JMap.delete`. -/
abbrev JMap := List (String × JVal)

/-- `ParsedLog` contains extracted fields from structured logs. -/
structure ParsedLog where
  Time : Option Time
  Level : String
  Message : String
  Source : String
  Fields : JMap

/-- `LogEntry` represents a single log line. -/
structure LogEntry where
  ID : Nat
  Timestamp : Time
  Raw : String
  Parsed : Option ParsedLog

/-- The zero value of `LogEntry`, which `make([]models.LogEntry, capacity)` fills the slice with. -/
def LogEntry.zero : LogEntry := ⟨0, Time.zero, "", none⟩

/-- `LogFilter` for querying logs. -/
structure LogFilter where
  Search : String
  Levels : List String
  Regex : Bool
  AfterID : Nat
  Limit : Int

/-- The zero value `models.LogFilter{}`. -/
def LogFilter.zero : LogFilter := ⟨"", [], false, 0, 0⟩

/-- `LogResponse` is the REST API response for log queries. -/
structure LogResponse where
  Logs : List LogEntry
  Total : Nat
  HasMore : Bool

/-- `WSMessage` represents WebSocket messages sent from server to client.  The program builds
three of them: `Type` "log" with a `LogEntry` as `Data`, `Type` "status" with
`map[string]bool{"stdinOpen": ...}` as `Data`, and `Type` "pong" without `Data`. -/
inductive WSMessage where
  | log (entry : LogEntry)
  | status (stdinOpen : Bool)
  | pong

/-! ## The standard library the program calls -/

/-- A compiled `*regexp.Regexp`, as the two methods the program calls on it. -/
structure Regexp where
  matchString : String → Bool
  findString : String → String

/-- The library functions whose result comes from a table or a grammar outside this repository. -/
structure Lib where
  /-- `unicode.IsSpace` -/
  isSpace : Char → Bool
  /-- `unicode.ToUpper` -/
  upper : Char → Char
  /-- `unicode.ToLower` -/
  lower : Char → Char
  /-- Two different runes that `strings.EqualFold` accepts as equal under simple case folding. -/
  foldEq : Char → Char → Bool
  /-- `regexp.Compile`; `none` when it returns an error. -/
  compile : String → Option Regexp
  /-- `regexp.MustCompile` on a pattern that compiles. -/
  mustCompile : String → Regexp
  /-- `json.Unmarshal` into a `map[string]any`; `none` when it returns an error. -/
  unmarshal : String → Option JMap
  /-- `json.Marshal` of a `models.WSMessage`: the bytes written; `none` when it returns an
  error, as it does for a `time.Time` whose year is outside 0..9999. -/
  marshal : WSMessage → Option String
  /-- `time.Parse layout value`; `none` when it returns an error. -/
  parseTime : String → String → Option Time
  /-- `Time.Year` -/
  year : Time → Int
  /-- `t.AddDate(years, 0, 0)` -/
  addYears : Time → Int → Time
  /-- The conversion `int64(v)` of a `float64` outside the range of `int64`, which the language
  leaves to the implementation. -/
  int64OutOfRange : ℚ → Int

/-! ## Package `strings` -/

/-- `strings.ToLower` -/
def toLower (L : Lib) (s : String) : String := String.mk (s.data.map L.lower)

/-- `strings.ToUpper` -/
def toUpper (L : Lib) (s : String) : String := String.mk (s.data.map L.upper)

/-- `strings.HasPrefix` on runes. -/
def hasPrefixList : List Char → List Char → Bool
  | _, [] => true
  | [], _ :: _ => false
  | a :: s, b :: p => a == b && hasPrefixList s p

/-- `strings.HasPrefix` -/
def hasPrefix (s p : String) : Bool := hasPrefixList s.data p.data

/-- `strings.Contains` on runes: some suffix of `s` starts with `sub`. -/
def containsList : List Char → List Char → Bool
  | [], sub => sub.isEmpty
  | a :: s, sub => hasPrefixList (a :: s) sub || containsList s sub

/-- `strings.Contains` -/
def contains (s sub : String) : Bool := containsList s.data sub.data

/-- `strings.TrimSpace`: leading and trailing white space removed. -/
def trimSpace (L : Lib) (s : String) : String :=
  String.mk ((s.data.dropWhile L.isSpace).reverse.dropWhile L.isSpace).reverse

/-- The rune-by-rune loop of `strings.EqualFold`. -/
def equalFoldList (L : Lib) : List Char → List Char → Bool
  | [], [] => true
  | a :: s, b :: t => (a == b || L.foldEq a b) && equalFoldList L s t
  | _, _ => false

/-- `strings.EqualFold` -/
def equalFold (L : Lib) (s t : String) : Bool := equalFoldList L s.data t.data

/-! ## Ring buffer (`internal/buffer/ring.go`) -/

/-- `Ring` is a ring buffer for log entries. -/
structure Ring where
  entries : List LogEntry
  capacity : Nat
  head : Nat
  count : Nat
  totalReceived : Nat

/-- `New` creates a new ring buffer with given capacity. -/
def New (capacity : Nat) : Ring :=
  { entries := List.replicate capacity LogEntry.zero
    capacity := capacity
    head := 0
    count := 0
    totalReceived := 0 }

/-- `Add` inserts a new log entry, overwriting oldest if full, and returns the entry with its
assigned ID.  `none` is a panic: the write index is outside the slice, or the capacity is zero. -/
def Ring.Add (r : Ring) (entry : LogEntry) : Option (Ring × LogEntry) :=
  let totalReceived := (r.totalReceived + 1) % 2 ^ 64
  let entry := { entry with ID := totalReceived }
  if r.head < r.entries.length then
    let entries := r.entries.set r.head entry
    if r.capacity = 0 then none
    else
      let head := (r.head + 1) % r.capacity
      let count := if r.count < r.capacity then r.count + 1 else r.count
      some ({ entries := entries, capacity := r.capacity, head := head, count := count,
              totalReceived := totalReceived }, entry)
  else none

/-- The loop of `GetAll` after `n` iterations: `result[0 .. n)`. -/
def Ring.readLoop (r : Ring) (start : Nat) : Nat → Option (List LogEntry)
  | 0 => some []
  | n + 1 =>
    match r.readLoop start n with
    | none => none
    | some result =>
      if r.capacity = 0 then none
      else
        match r.entries[(start + n) % r.capacity]? with
        | none => none
        | some e => some (result ++ [e])

/-- `GetAll` returns all entries in chronological order. -/
def Ring.GetAll (r : Ring) : Option (List LogEntry) :=
  if r.count = 0 then some []
  else
    let start := if r.count = r.capacity then r.head else 0
    r.readLoop start r.count

/-- `containsLevel` -/
def containsLevel (L : Lib) : List String → String → Bool
  | [], _ => false
  | l :: levels, level => if equalFold L l level then true else containsLevel L levels level

/-- One iteration of the loop of `Query`: `filtered` after looking at `entry`. -/
def Ring.queryStep (L : Lib) (filter : LogFilter) (searchRegex : Option Regexp)
    (searchLower : String) (filtered : List LogEntry) (entry : LogEntry) : List LogEntry :=
  -- Skip entries before afterID
  if filter.AfterID > 0 ∧ entry.ID ≤ filter.AfterID then filtered
  else
    -- Filter by level
    let levelSkip : Bool :=
      if filter.Levels.length > 0 then
        match entry.Parsed with
        | none => true
        | some p => !containsLevel L filter.Levels p.Level
      else false
    if levelSkip then filtered
    else
      -- Filter by search
      let searchSkip : Bool :=
        if filter.Search ≠ "" then
          match searchRegex with
          | some re => !re.matchString entry.Raw
          | none => !contains (toLower L entry.Raw) searchLower
        else false
      if searchSkip then filtered
      else filtered ++ [entry]

/-- `Query` returns filtered entries. -/
def Ring.Query (L : Lib) (r : Ring) (filter : LogFilter) : Option LogResponse :=
  match r.GetAll with
  | none => none
  | some all =>
    let searchRegex : Option Regexp :=
      if filter.Regex = true ∧ filter.Search ≠ "" then L.compile filter.Search else none
    let searchLower := toLower L filter.Search
    let filtered := all.foldl (Ring.queryStep L filter searchRegex searchLower) []
    let total := filtered.length
    let limit : Int := if filter.Limit ≤ 0 then 1000 else filter.Limit
    let hasMore : Bool := decide ((filtered.length : Int) > limit)
    let filtered := if hasMore then filtered.take limit.toNat else filtered
    some { Logs := filtered, Total := total, HasMore := hasMore }

/-- `Stats` returns buffer statistics: capacity, used, totalReceived. -/
def Ring.Stats (r : Ring) : Nat × Nat × Nat := (r.capacity, r.count, r.totalReceived)

/-- `Clear` removes all entries from the buffer; `totalReceived` is not reset. -/
def Ring.Clear (r : Ring) : Ring := { r with head := 0, count := 0 }

/-! ## Runs of the ring buffer -/

/-- A call that changes the ring: `Add(e)` or `Clear()`. -/
inductive Op where
  | add (e : LogEntry)
  | clear

/-- Runs the calls in order from state `r`; the result is the final state and the entries that
the calls to `Add` returned, in order.  `none` when a call panics. -/
def Ring.exec (r : Ring) : List Op → Option (Ring × List LogEntry)
  | [] => some (r, [])
  | Op.add e :: ops =>
    match r.Add e with
    | none => none
    | some (r1, e1) =>
      match r1.exec ops with
      | none => none
      | some (r2, out) => some (r2, e1 :: out)
  | Op.clear :: ops => r.Clear.exec ops

/-- A state of a ring made by `New c` after some calls to `Add` and `Clear`. -/
def Reachable (c : Nat) (r : Ring) : Prop :=
  ∃ ops out, (New c).exec ops = some (r, out)

/-- The number of calls to `Add` in a run. -/
def numAdds : List Op → Nat
  | [] => 0
  | Op.add _ :: ops => numAdds ops + 1
  | Op.clear :: ops => numAdds ops

/-- The entry `e` carrying the ID of the `n`-th `Add` of a ring's life, counted from 1. -/
def stamp (n : Nat) (e : LogEntry) : LogEntry := { e with ID := n % 2 ^ 64 }

/-- The entries the `Add`s of a run are expected to return when `n` entries were added before. -/
def issued (n : Nat) : List Op → List LogEntry
  | [] => []
  | Op.add e :: ops => stamp (n + 1) e :: issued (n + 1) ops
  | Op.clear :: ops => issued n ops

/-- The entries added since the last `Clear`, oldest first, starting from `hist`. -/
def sinceClear (hist : List LogEntry) (n : Nat) : List Op → List LogEntry
  | [] => hist
  | Op.add e :: ops => sinceClear (hist ++ [stamp (n + 1) e]) (n + 1) ops
  | Op.clear :: ops => sinceClear [] n ops

/-- The entries `es` carrying the IDs of the `Add`s number `n + 1`, `n + 2`, ... -/
def stampAll (n : Nat) : List LogEntry → List LogEntry
  | [] => []
  | e :: es => stamp (n + 1) e :: stampAll (n + 1) es

/-- The representation invariant: `hist` are the entries added since the last `Clear`, `n` is the
number of entries ever added, and the slice holds the last `capacity` entries of `hist`. -/
structure RingInv (c : Nat) (r : Ring) (hist : List LogEntry) (n : Nat) : Prop where
  cpos : 0 < c
  cap : r.capacity = c
  len : r.entries.length = c
  head : r.head = hist.length % c
  count : r.count = min hist.length c
  total : r.totalReceived = n % 2 ^ 64
  slots : ∀ j, j < hist.length → hist.length ≤ j + c → r.entries[j % c]? = hist[j]?

/-! ## The reference definition of `Query` -/

/-- The ID-cursor test of a filter: no cursor (`AfterID` zero), or an ID after the cursor. -/
def passesCursor (f : LogFilter) (e : LogEntry) : Bool :=
  decide (f.AfterID = 0) || decide (f.AfterID < e.ID)

/-- The level test of a filter: no level restriction, or a parsed level that equals, ignoring
case, some element of `Levels`. -/
def passesLevel (L : Lib) (f : LogFilter) (e : LogEntry) : Bool :=
  f.Levels.isEmpty ||
    match e.Parsed with
    | none => false
    | some p => f.Levels.any (fun l => equalFold L l p.Level)

/-- The search test of a filter: no search text; or, with `Regex` set and a pattern that
compiles, a match of the pattern in `raw`; or else `raw` containing the text, ignoring case. -/
def passesSearch (L : Lib) (f : LogFilter) (e : LogEntry) : Bool :=
  decide (f.Search = "") ||
    match (if f.Regex = true then L.compile f.Search else none) with
    | some re => re.matchString e.Raw
    | none => contains (toLower L e.Raw) (toLower L f.Search)

/-- The response `Query` is specified to give on the snapshot `all`: with `M` the entries of
`all` passing the three tests and `lim` the limit (1000 unless `Limit` is positive), the first
`min |M| lim` elements of `M`, `Total = |M|`, and `HasMore` iff `|M| > lim`. -/
def queryReference (L : Lib) (all : List LogEntry) (f : LogFilter) : LogResponse :=
  let M := all.filter (fun e => passesCursor f e && passesLevel L f e && passesSearch L f e)
  let lim : Nat := if f.Limit > 0 then f.Limit.toNat else 1000
  { Logs := M.take (min M.length lim), Total := M.length, HasMore := decide (M.length > lim) }

/-- The per-entry test that the loop of `Query` applies for `filter`, the ID cursor ignored:
whether the loop body appends `entry`. -/
def Ring.queryKeeps (L : Lib) (filter : LogFilter) (entry : LogEntry) : Bool :=
  let searchRegex : Option Regexp :=
    if filter.Regex = true ∧ filter.Search ≠ "" then L.compile filter.Search else none
  !(Ring.queryStep L { filter with AfterID := 0 } searchRegex (toLower L filter.Search)
    [] entry).isEmpty

/-! ## The live-push filter (`internal/server/websocket.go`) -/

/-- The loop of `matchesFilter` that sets `found`. -/
def levelFound (L : Lib) : List String → String → Bool
  | [], _ => false
  | l :: levels, level => if equalFold L l level then true else levelFound L levels level

/-- `Hub.matchesFilter` -/
def matchesFilter (L : Lib) (entry : LogEntry) (filter : LogFilter) : Bool :=
  -- If no filter, match all
  if filter.Levels.length = 0 ∧ filter.Search = "" then true
  else
    -- Check level filter
    let levelFails : Bool :=
      if filter.Levels.length > 0 then
        match entry.Parsed with
        | none => true
        | some p => if p.Level = "" then true else !levelFound L filter.Levels p.Level
      else false
    if levelFails then false
    else
      -- Check search filter (simple case-insensitive contains)
      if filter.Search ≠ "" ∧
          contains (toLower L entry.Raw) (toLower L filter.Search) = false then false
      else true

/-! ## Parser (`internal/parser/parser.go`) -/

/-- `data[key]` with its `ok` flag. -/
def JMap.get (data : JMap) (key : String) : Option JVal := List.lookup key data

/-- `delete(data, key)` -/
def JMap.delete (data : JMap) (key : String) : JMap := data.filter (fun kv => kv.1 != key)

/-- Level priority for ordering (higher = more severe). -/
def levelPriority : List (String × Nat) :=
  [("DEBUG", 1), ("INFO", 2), ("WARN", 3), ("ERROR", 4), ("FATAL", 5)]

/-- The fixed vocabulary of levels. -/
def vocabulary : List String := ["DEBUG", "INFO", "WARN", "ERROR", "FATAL"]

/-- Common log level patterns. -/
def levelPatterns (L : Lib) : List (String × Regexp) :=
  [("DEBUG", L.mustCompile "(?i)\\b(DEBUG|DBG)\\b"),
   ("INFO", L.mustCompile "(?i)\\b(INFO|INF)\\b"),
   ("WARN", L.mustCompile "(?i)\\b(WARN|WARNING|WRN)\\b"),
   ("ERROR", L.mustCompile "(?i)\\b(ERROR|ERR)\\b"),
   ("FATAL", L.mustCompile "(?i)\\b(FATAL|CRITICAL|CRIT|PANIC)\\b")]

/-- `time.RFC3339` -/
def layoutRFC3339 : String := "2006-01-02T15:04:05Z07:00"

/-- `time.RFC3339Nano` -/
def layoutRFC3339Nano : String := "2006-01-02T15:04:05.999999999Z07:00"

/-- Common timestamp patterns, each with its layout. -/
def timestampPatterns (L : Lib) : List (Regexp × String) :=
  [(L.mustCompile "\\d{4}-\\d{2}-\\d{2}T\\d{2}:\\d{2}:\\d{2}(\\.\\d+)?(Z|[+-]\\d{2}:\\d{2})?",
      layoutRFC3339),
   (L.mustCompile "\\d{4}-\\d{2}-\\d{2} \\d{2}:\\d{2}:\\d{2}(\\.\\d+)?", "2006-01-02 15:04:05"),
   (L.mustCompile "\\d{2}/\\w{3}/\\d{4}:\\d{2}:\\d{2}:\\d{2}", "02/Jan/2006:15:04:05"),
   (L.mustCompile "\\w{3} +\\d{1,2} \\d{2}:\\d{2}:\\d{2}", "Jan  2 15:04:05")]

/-- `normalizeLevel` -/
def normalizeLevel (L : Lib) (level : String) : String :=
  let level := toUpper L (trimSpace L level)
  if level = "DBG" ∨ level = "TRACE" then "DEBUG"
  else if level = "INF" ∨ level = "INFORMATION" then "INFO"
  else if level = "WRN" ∨ level = "WARNING" then "WARN"
  else if level = "ERR" then "ERROR"
  else if level = "CRIT" ∨ level = "CRITICAL" ∨ level = "PANIC" then "FATAL"
  else
    -- Return as-is if it's a known level
    if (levelPriority.lookup level).isSome then level
    else level

/-- The loops of `parseJSON` over the synonyms of level, message and source: the first key that
is present and holds a string is taken and deleted.  The result is the string and the map
after the deletion. -/
def takeString (data : JMap) : List String → Option (String × JMap)
  | [] => none
  | key :: keys =>
    match data.get key with
    | some (JVal.str s) => some (s, data.delete key)
    | _ => takeString data keys

/-- A 64-bit two's-complement integer from an unbounded one. -/
def wrapInt64 (z : Int) : Int := (z + 2 ^ 63) % 2 ^ 64 - 2 ^ 63

/-- The conversion `int64(tv)` of a `float64`: truncation toward zero when the result fits. -/
def int64OfFloat (L : Lib) (tv : ℚ) : Int :=
  let t := Int.tdiv tv.num tv.den
  if -(2 ^ 63) ≤ t ∧ t < 2 ^ 63 then t else L.int64OutOfRange tv

/-- `time.Unix(sec, nsec)`: the seconds are kept as a 64-bit count from year 1. -/
def timeUnix (sec nsec : Int) : Time :=
  let sec := wrapInt64 (sec + Int.fdiv nsec 1000000000)
  let nsec := Int.fmod nsec 1000000000
  ⟨(wrapInt64 (sec + 62135596800) - 62135596800) * 1000000000 + nsec⟩

/-- `time.UnixMilli(msec)` -/
def timeUnixMilli (msec : Int) : Time :=
  timeUnix (Int.tdiv msec 1000) (Int.tmod msec 1000 * 1000000)

/-- The `switch` of `parseJSON` on the value found under a time key. -/
def timeOfValue (L : Lib) : JVal → Option Time
  | JVal.str tv =>
    match L.parseTime layoutRFC3339 tv with
    | some t => some t
    | none =>
      match L.parseTime layoutRFC3339Nano tv with
      | some t => some t
      | none => none
  | JVal.num tv =>
    -- Unix timestamp (seconds or milliseconds)
    if tv > 1000000000000 then some (timeUnixMilli (int64OfFloat L tv))
    else some (timeUnix (int64OfFloat L tv) 0)
  | _ => none

/-- The loop of `parseJSON` over the synonyms of time: the first key that is present is taken
and deleted, whatever it holds. -/
def takeTime (L : Lib) (data : JMap) : List String → Option Time × JMap
  | [] => (none, data)
  | key :: keys =>
    match data.get key with
    | some v => (timeOfValue L v, data.delete key)
    | none => takeTime L data keys

/-- The part of `parseJSON` after a successful decode. -/
def parseFields (L : Lib) (data : JMap) : ParsedLog :=
  -- Extract known fields (level)
  let (level, data) :=
    match takeString data ["level", "lvl", "severity", "log.level"] with
    | some (s, data) => (normalizeLevel L s, data)
    | none => ("", data)
  -- Extract message
  let (message, data) :=
    match takeString data ["msg", "message", "text", "log"] with
    | some (s, data) => (s, data)
    | none => ("", data)
  -- Extract timestamp
  let (time, data) := takeTime L data ["time", "timestamp", "ts", "@timestamp", "datetime"]
  -- Extract source/logger
  let (source, data) :=
    match takeString data ["logger", "source", "name", "caller", "component"] with
    | some (s, data) => (s, data)
    | none => ("", data)
  -- Store remaining fields
  { Time := time, Level := level, Message := message, Source := source,
    Fields := if data.length > 0 then data else [] }

/-- `Parser.parseJSON`; `none` is the `nil` result. -/
def parseJSON (L : Lib) (line : String) : Option ParsedLog :=
  let line := trimSpace L line
  if hasPrefix line "\x7b" = false then none
  else
    match L.unmarshal line with
    | none => none
    | some data => some (parseFields L data)

/-- The level loop of `parseText` over the pairs of `levelPatterns` in the order `visit` in
which the map is ranged over; the state is `highestPriority` and `parsed.Level`. -/
def scanLevels (line : String) : List (String × Regexp) → Nat × String → Nat × String
  | [], st => st
  | (level, pattern) :: visit, (highestPriority, parsedLevel) =>
    if pattern.matchString line = true then
      let priority := (levelPriority.lookup level).getD 0
      if priority > highestPriority then scanLevels line visit (priority, level)
      else scanLevels line visit (highestPriority, parsedLevel)
    else scanLevels line visit (highestPriority, parsedLevel)

/-- The timestamp loop of `parseText`: the first pattern that matches decides. -/
def scanTimestamps (L : Lib) (now : Time) (line : String) : List (Regexp × String) → Option Time
  | [] => none
  | (pattern, layout) :: rest =>
    let m := pattern.findString line
    if m ≠ "" then
      match L.parseTime layout m with
      | some t =>
        -- Adjust year for syslog format that doesn't include year
        if L.year t = 0 then some (L.addYears t (L.year now)) else some t
      | none => none
    else scanTimestamps L now line rest

/-- `Parser.parseText`; `visit` is the order in which `levelPatterns` is ranged over and `now`
the reading of the clock. -/
def parseText (L : Lib) (visit : List (String × Regexp)) (now : Time) (line : String) :
    ParsedLog :=
  { Time := scanTimestamps L now line (timestampPatterns L)
    Level := (scanLevels line visit (0, "")).2
    Message := line
    Source := ""
    Fields := [] }

/-- `Parser.Parse` analyzes a log line and extracts metadata; `now` and `nowText` are the
readings of the clock in `Parse` and in `parseText`. -/
def Parse (L : Lib) (visit : List (String × Regexp)) (now nowText : Time) (line : String) :
    LogEntry :=
  let entry : LogEntry := { ID := 0, Timestamp := now, Raw := line, Parsed := none }
  -- Try JSON first
  match parseJSON L line with
  | some parsed => { entry with Parsed := some parsed }
  | none =>
    -- Fall back to pattern matching
    { entry with Parsed := some (parseText L visit nowText line) }

/-- The map read `levelPriority[level]`: zero for a level that is not a key. -/
def priorityOf (level : String) : Nat := (levelPriority.lookup level).getD 0

/-! ## Broadcast hub (`internal/server/websocket.go`)

The hub and its clients run in several goroutines.  The embedding is a transition system whose
steps are the atomic actions of the source: one iteration of the loop of `Hub.Run` (a step
function of the value received), and on the side of a client a change of filter, a `ping`, and
a receive by `writePump`.  An iteration that broadcasts touches, for each client, only the
filter and the channel of that client, so the actions of other goroutines on other clients
commute with it and the iteration is taken as one step.  A send on a closed channel and a close
of a closed channel panic: `none`. -/

/-- A `*Client`, as an address. -/
abbrev ClientId := Nat

/-- A `[]byte` on a channel `send`: `data` is the slice, `none` for the nil slice that
`json.Marshal` returns together with an error; `msg` is the message it was marshalled from,
kept beside the bytes to name the payload. -/
structure Payload where
  data : Option String
  msg : WSMessage

/-- `data, _ := json.Marshal(msg)`: the error is discarded and `data` is sent as it is. -/
def marshalled (L : Lib) (msg : WSMessage) : Payload := { data := L.marshal msg, msg := msg }

/-- A `Client`: the buffered channel `send` as the queue of the payloads sent and not yet
received, oldest first, and whether it is closed; the filter; and the payloads `writePump` has
received from `send`, in order. -/
structure Client where
  send : List Payload
  closed : Bool
  filter : LogFilter
  written : List Payload

/-- The capacity of `send`: `make(chan []byte, 256)`. -/
def sendCapacity : Nat := 256

/-- The `Client` that `handleWebSocket` creates. -/
def Client.fresh : Client := { send := [], closed := false, filter := LogFilter.zero, written := [] }

/-- The non-blocking send `select { case client.send <- data: default: }`. -/
def Client.trySend (cl : Client) (data : Payload) : Option Client :=
  if cl.closed = true then none
  else if cl.send.length < sendCapacity then some { cl with send := cl.send ++ [data] }
  else some cl

/-- `close(client.send)` -/
def Client.close (cl : Client) : Option Client :=
  if cl.closed = true then none else some { cl with closed := true }

/-- The `Hub`: the keys of the map `clients`, and the `Client` behind each address. -/
structure Hub where
  clients : ClientId → Bool
  client : ClientId → Client

/-- `NewHub`, with the clients that will connect in the state `handleWebSocket` creates them. -/
def NewHub : Hub := { clients := fun _ => false, client := fun _ => Client.fresh }

/-- The value received by one iteration of the loop of `Hub.Run`; for a broadcast, `visit` is
the order in which the map `clients` is ranged over. -/
inductive HubEvent where
  | register (c : ClientId)
  | unregister (c : ClientId)
  | broadcast (entry : LogEntry) (visit : List ClientId)

/-- The loop `for client := range h.clients` of a broadcast, over the clients `visit`. -/
def broadcastLoop (L : Lib) (entry : LogEntry) :
    List ClientId → (ClientId → Client) → Option (ClientId → Client)
  | [], heap => some heap
  | c :: visit, heap =>
    let filter := (heap c).filter
    if matchesFilter L entry filter = true then
      -- msg := models.WSMessage{Type: "log", Data: entry}; data, _ := json.Marshal(msg)
      match (heap c).trySend (marshalled L (WSMessage.log entry)) with
      | none => none
      | some cl => broadcastLoop L entry visit (Function.update heap c cl)
    else broadcastLoop L entry visit heap

/-- One iteration of the loop of `Hub.Run`. -/
def Hub.step (L : Lib) (h : Hub) : HubEvent → Option Hub
  | HubEvent.register c => some { h with clients := Function.update h.clients c true }
  | HubEvent.unregister c =>
    if h.clients c = true then
      match (h.client c).close with
      | none => none
      | some cl =>
        some { clients := Function.update h.clients c false
               client := Function.update h.client c cl }
    else some h
  | HubEvent.broadcast entry visit =>
    match broadcastLoop L entry visit h.client with
    | none => none
    | some heap => some { h with client := heap }

/-- An atomic action of the system: an iteration of the hub, or an action of the goroutines of
a client. -/
inductive Event where
  | hub (ev : HubEvent)
  | subscribe (c : ClientId) (filter : LogFilter)
  | unsubscribe (c : ClientId)
  | ping (c : ClientId)
  | receive (c : ClientId)

/-- The effect of an action on the hub and its clients. -/
def Hub.apply (L : Lib) (h : Hub) : Event → Option Hub
  | Event.hub ev => h.step L ev
  | Event.subscribe c filter =>
    some { h with client := Function.update h.client c { (h.client c) with filter := filter } }
  | Event.unsubscribe c =>
    some { h with
      client := Function.update h.client c { (h.client c) with filter := LogFilter.zero } }
  | Event.ping c =>
    match (h.client c).trySend (marshalled L WSMessage.pong) with
    | none => none
    | some cl => some { h with client := Function.update h.client c cl }
  | Event.receive c =>
    match (h.client c).send with
    | [] => some h
    | message :: rest =>
      let cl : Client :=
        { (h.client c) with send := rest, written := (h.client c).written ++ [message] }
      some { h with client := Function.update h.client c cl }

/-- The actions in order; `none` when one panics. -/
def Hub.run (L : Lib) (h : Hub) : List Event → Option Hub
  | [] => some h
  | ev :: evs =>
    match h.apply L ev with
    | none => none
    | some h1 => h1.run L evs

/-- The actions the program can take in a state: a client is registered, and pinged, while
its channel is open (it is registered once, when created, and its `readPump` ends before the
hub closes the channel), and a range over the map visits each key once. -/
def Hub.admits (h : Hub) : Event → Prop
  | Event.hub (HubEvent.register c) => (h.client c).closed = false
  | Event.hub (HubEvent.broadcast _ visit) =>
    visit.Nodup ∧ ∀ c, c ∈ visit ↔ h.clients c = true
  | Event.ping c => (h.client c).closed = false
  | _ => True

/-- A sequence of actions each of which the program can take in the state it is taken in. -/
def Hub.Admissible (L : Lib) : Hub → List Event → Prop
  | _, [] => True
  | h, ev :: evs =>
    h.admits ev ∧
      match h.apply L ev with
      | some h1 => Hub.Admissible L h1 evs
      | none => True

/-- The invariant of the hub: the channel of every registered client is open. -/
def Hub.WF (h : Hub) : Prop := ∀ c, h.clients c = true → (h.client c).closed = false

/-- What a broadcast of `entry` is specified to do to a client: the payload marshalled from the
message of the entry is appended to its queue if its filter matches and its queue is not full,
and nothing changes otherwise. -/
def Client.deliver (L : Lib) (entry : LogEntry) (cl : Client) : Client :=
  if matchesFilter L entry cl.filter = true ∧ cl.send.length < sendCapacity then
    { cl with send := cl.send ++ [marshalled L (WSMessage.log entry)] }
  else cl

/-- What a broadcast of `entry` is specified to do to the hub: every registered client is
left as `Client.deliver` specifies, and nothing else changes. -/
def Hub.delivered (L : Lib) (h : Hub) (entry : LogEntry) : Hub :=
  { h with client := fun c =>
      if h.clients c = true then (h.client c).deliver L entry else h.client c }

/-- The log entries among payloads: a payload carries the entry of the log message it was
marshalled from; a nil payload carries none. -/
def logsOf : List Payload → List LogEntry
  | [] => []
  | p :: ps =>
    match p.data, p.msg with
    | some _, WSMessage.log entry => entry :: logsOf ps
    | _, _ => logsOf ps

/-- The log entries ever enqueued on the channel of a client, in order: those received by
`writePump`, then those still queued. -/
def Client.enqueued (cl : Client) : List LogEntry := logsOf (cl.written ++ cl.send)

/-- The entries broadcast by a sequence of actions, in order. -/
def broadcastsOf : List Event → List LogEntry
  | [] => []
  | Event.hub (HubEvent.broadcast entry _) :: evs => entry :: broadcastsOf evs
  | _ :: evs => broadcastsOf evs

/-! ## The keys consumed by `parseJSON` -/

/-- The synonyms of the level field, in priority order. -/
def levelKeys : List String := ["level", "lvl", "severity", "log.level"]

/-- The synonyms of the message field, in priority order. -/
def messageKeys : List String := ["msg", "message", "text", "log"]

/-- The synonyms of the time field, in priority order. -/
def timeKeys : List String := ["time", "timestamp", "ts", "@timestamp", "datetime"]

/-- The synonyms of the source field, in priority order. -/
def sourceKeys : List String := ["logger", "source", "name", "caller", "component"]

/-- Whether a decoded value is a string. -/
def JVal.isStr : JVal → Bool
  | JVal.str _ => true
  | _ => false

/-- The first synonym, in priority order, that is taken for a string field of the map `d`: the
first key that is present and holds a string. -/
def firstString (d : JMap) (keys : List String) : Option String :=
  keys.find? (fun k => match d.get k with
    | some v => v.isStr
    | none => false)

/-- The first synonym, in priority order, that is present in the map `d`. -/
def firstPresent (d : JMap) (keys : List String) : Option String :=
  keys.find? (fun k => (d.get k).isSome)

/-- The keys of `d` that the extraction consumes: for level, message and source the first
synonym taken, for time the first synonym present. -/
def consumedKeys (d : JMap) : List String :=
  (firstString d levelKeys).toList ++ (firstString d messageKeys).toList ++
    (firstPresent d timeKeys).toList ++ (firstString d sourceKeys).toList

/-- The map `d` without the key `key`, if there is one. -/
def dropKey (d : JMap) : Option String → JMap
  | none => d
  | some key => d.delete key

/-- The map that a loop over the synonyms of a string field leaves. -/
def restOf (d : JMap) : Option (String × JMap) → JMap
  | none => d
  | some (_, rest) => rest

/-- The string that a loop over the synonyms of a string field extracts, empty if none. -/
def textOf : Option (String × JMap) → String
  | none => ""
  | some (s, _) => s

/-- A rational truncated to an integer, toward zero. -/
def truncate (v : ℚ) : Int := Int.tdiv v.num v.den

/-! ## A concrete library

`asciiLib` is a small library on which the definitions can be evaluated.  It agrees with the Go
standard library on the inputs of the examples below; it is restricted to ASCII case mapping,
to regular expressions made of literal runes and `.` (besides the patterns of the parser, which
are given as syntax trees), to flat JSON objects of strings and integers, and to timestamps in
the RFC 3339 layouts and in `2006-01-02 15:04:05`.  It writes JSON with every instant in UTC
and numbers that are integers below `10 ^ 21`.  No theorem about the program depends on it. -/

/-- The table `unicode.White_Space`. -/
def whiteSpace (c : Char) : Bool :=
  let n := c.toNat
  (9 ≤ n && n ≤ 13) || n == 32 || n == 0x85 || n == 0xA0 || n == 0x1680 ||
    (0x2000 ≤ n && n ≤ 0x200A) || n == 0x2028 || n == 0x2029 || n == 0x202F || n == 0x205F ||
    n == 0x3000

/-- The class `\w` of `regexp`: ASCII letters, digits and underscore. -/
def isWordChar (c : Char) : Bool := c.isAlphanum || c == '_'

/-- Whether the rune before or after a position is a word rune; no rune is not. -/
def isWordAt : Option Char → Bool
  | none => false
  | some c => isWordChar c

/-- A regular expression over classes of runes. -/
inductive Re where
  | empty
  | rep (p : Char → Bool) (min : Nat) (max : Option Nat)
  | wordBoundary
  | seq (a b : Re)
  | alt (a b : Re)
  | opt (a : Re)

/-- The greedy loop of a repetition: `n + 1` runes are tried first, then fewer, down to `min`.
`prev` is the rune before the repetition and `k` the rest of the match. -/
def tryRep (min : Nat) (prev : Option Char) (s : List Char)
    (k : Option Char → List Char → Option (List Char)) : Nat → Option (List Char)
  | 0 => if min = 0 then k prev s else none
  | n + 1 =>
    match k (s.get? n) (s.drop (n + 1)) with
    | some r => some r
    | none => if min ≤ n then tryRep min prev s k n else none

/-- Backtracking match of `re` at the start of `s`, first alternative and longest repetition
preferred; `k` continues after the match and returns the input left over. -/
def Re.run : Re → Option Char → List Char →
    (Option Char → List Char → Option (List Char)) → Option (List Char)
  | Re.empty, prev, s, k => k prev s
  | Re.rep p min max, prev, s, k =>
    let avail := (s.takeWhile p).length
    let n := match max with
      | some m => Nat.min avail m
      | none => avail
    if n < min then none else tryRep min prev s k n
  | Re.wordBoundary, prev, s, k =>
    if isWordAt prev != isWordAt s.head? then k prev s else none
  | Re.seq a b, prev, s, k => a.run prev s (fun prev1 s1 => b.run prev1 s1 k)
  | Re.alt a b, prev, s, k =>
    match a.run prev s k with
    | some r => some r
    | none => b.run prev s k
  | Re.opt a, prev, s, k =>
    match a.run prev s k with
    | some r => some r
    | none => k prev s

/-- The leftmost match of `re` in `s`, as the matched text. -/
def Re.find (re : Re) : Option Char → List Char → Option (List Char)
  | prev, [] => (re.run prev [] (fun _ r => some r)).map (fun _ => [])
  | prev, c :: s =>
    match re.run prev (c :: s) (fun _ r => some r) with
    | some rest => some ((c :: s).take ((c :: s).length - rest.length))
    | none => re.find (some c) s

/-- The two methods of a compiled expression. -/
def Re.toRegexp (re : Re) : Regexp :=
  { matchString := fun s => (re.find none s.data).isSome
    findString := fun s => String.mk ((re.find none s.data).getD []) }

/-- Concatenation of a list of expressions. -/
def Re.seqs : List Re → Re
  | [] => Re.empty
  | r :: rs => Re.seq r (Re.seqs rs)

/-- Alternation of a non-empty list of expressions. -/
def Re.alts : List Re → Re
  | [] => Re.rep (fun _ => false) 1 none
  | [r] => r
  | r :: rs => Re.alt r (Re.alts rs)

/-- One literal rune. -/
def Re.lit (c : Char) : Re := Re.rep (fun x => x == c) 1 (some 1)

/-- A literal word under `(?i)`: each letter matches in either case. -/
def Re.word (w : String) : Re :=
  Re.seqs (w.data.map (fun c => Re.rep (fun x => x.toUpper == c.toUpper) 1 (some 1)))

/-- The pattern `(?i)\b(w1|w2|...)\b`. -/
def Re.keywords (ws : List String) : Re :=
  Re.seqs [Re.wordBoundary, Re.alts (ws.map Re.word), Re.wordBoundary]

/-- The pattern `\d{n}`. -/
def Re.digits (n : Nat) : Re := Re.rep Char.isDigit n (some n)

/-- The pattern `\d{2}:\d{2}:\d{2}`. -/
def Re.clock : Re :=
  Re.seqs [Re.digits 2, Re.lit ':', Re.digits 2, Re.lit ':', Re.digits 2]

/-- The pattern `(\.\d+)?`. -/
def Re.fraction : Re := Re.opt (Re.seq (Re.lit '.') (Re.rep Char.isDigit 1 none))

/-- The syntax trees of the nine patterns of `parser.go`. -/
def sourcePatterns : List (String × Re) :=
  [("(?i)\\b(DEBUG|DBG)\\b", Re.keywords ["DEBUG", "DBG"]),
   ("(?i)\\b(INFO|INF)\\b", Re.keywords ["INFO", "INF"]),
   ("(?i)\\b(WARN|WARNING|WRN)\\b", Re.keywords ["WARN", "WARNING", "WRN"]),
   ("(?i)\\b(ERROR|ERR)\\b", Re.keywords ["ERROR", "ERR"]),
   ("(?i)\\b(FATAL|CRITICAL|CRIT|PANIC)\\b", Re.keywords ["FATAL", "CRITICAL", "CRIT", "PANIC"]),
   ("\\d{4}-\\d{2}-\\d{2}T\\d{2}:\\d{2}:\\d{2}(\\.\\d+)?(Z|[+-]\\d{2}:\\d{2})?",
     Re.seqs [Re.digits 4, Re.lit '-', Re.digits 2, Re.lit '-', Re.digits 2, Re.lit 'T',
       Re.clock, Re.fraction,
       Re.opt (Re.alt (Re.lit 'Z')
         (Re.seqs [Re.rep (fun x => x == '+' || x == '-') 1 (some 1), Re.digits 2, Re.lit ':',
           Re.digits 2]))]),
   ("\\d{4}-\\d{2}-\\d{2} \\d{2}:\\d{2}:\\d{2}(\\.\\d+)?",
     Re.seqs [Re.digits 4, Re.lit '-', Re.digits 2, Re.lit '-', Re.digits 2, Re.lit ' ',
       Re.clock, Re.fraction]),
   ("\\d{2}/\\w{3}/\\d{4}:\\d{2}:\\d{2}:\\d{2}",
     Re.seqs [Re.digits 2, Re.lit '/', Re.rep isWordChar 3 (some 3), Re.lit '/', Re.digits 4,
       Re.lit ':', Re.clock]),
   ("\\w{3} +\\d{1,2} \\d{2}:\\d{2}:\\d{2}",
     Re.seqs [Re.rep isWordChar 3 (some 3), Re.rep (fun x => x == ' ') 1 none,
       Re.rep Char.isDigit 1 (some 2), Re.lit ' ', Re.clock])]

/-- The operator runes of the pattern syntax other than `.`. -/
def isOperator (c : Char) : Bool := "\\[](){}*+?|^$".data.contains c

/-- A pattern of literal runes and `.`; `none` for a pattern with any other operator. -/
def compileLiteral (pattern : String) : Option Regexp :=
  if pattern.data.any isOperator then none
  else some (Re.seqs (pattern.data.map (fun c =>
    if c == '.' then Re.rep (fun x => x != '\n') 1 (some 1) else Re.lit c))).toRegexp

/-- White space of JSON. -/
def isJsonSpace (c : Char) : Bool := c == ' ' || c == '\t' || c == '\n' || c == '\r'

/-- The rest of a JSON string after its opening quote: the text and what follows the closing
quote.  Escapes are not supported. -/
def readString : List Char → Option (List Char × List Char)
  | [] => none
  | c :: rest =>
    if c == '"' then some ([], rest)
    else if c == '\\' then none
    else
      match readString rest with
      | some (text, after) => some (c :: text, after)
      | none => none

/-- The value of a decimal numeral. -/
def digitsValue (ds : List Char) : Nat := ds.foldl (fun n d => 10 * n + (d.toNat - 48)) 0

/-- A JSON value that is a string or an unsigned integer, and what follows it. -/
def readValue : List Char → Option (JVal × List Char)
  | [] => none
  | c :: rest =>
    if c == '"' then
      match readString rest with
      | some (text, after) => some (JVal.str (String.mk text), after)
      | none => none
    else if c.isDigit then
      some (JVal.num (digitsValue ((c :: rest).takeWhile Char.isDigit)),
        (c :: rest).dropWhile Char.isDigit)
    else none

/-- The members of a JSON object after `{` or `,`; `fuel` bounds the number of members. -/
def readMembers : Nat → List Char → JMap → Option JMap
  | 0, _, _ => none
  | fuel + 1, s, data =>
    match s.dropWhile isJsonSpace with
    | '"' :: s1 =>
      match readString s1 with
      | none => none
      | some (key, s2) =>
        match s2.dropWhile isJsonSpace with
        | ':' :: s3 =>
          match readValue (s3.dropWhile isJsonSpace) with
          | none => none
          | some (v, s4) =>
            let data := JMap.delete data (String.mk key) ++ [(String.mk key, v)]
            match s4.dropWhile isJsonSpace with
            | ',' :: s5 => readMembers fuel s5 data
            | '}' :: s5 => if (s5.dropWhile isJsonSpace).isEmpty then some data else none
            | _ => none
        | _ => none
    | _ => none

/-- Decoding of a flat JSON object. -/
def decodeObject (line : String) : Option JMap :=
  match line.data.dropWhile isJsonSpace with
  | '{' :: s =>
    match s.dropWhile isJsonSpace with
    | '}' :: s1 => if (s1.dropWhile isJsonSpace).isEmpty then some [] else none
    | _ => readMembers line.length s []
  | _ => none

/-- Days from the Unix epoch to a date of the proleptic Gregorian calendar. -/
def daysFromCivil (y m d : Int) : Int :=
  let y := if m ≤ 2 then y - 1 else y
  let era := y / 400
  let yoe := y - era * 400
  let doy := (153 * (if m > 2 then m - 3 else m + 9) + 2) / 5 + d - 1
  let doe := yoe * 365 + yoe / 4 - yoe / 100 + doy
  era * 146097 + doe - 719468

/-- The date, as year, month, day, of a number of days from the Unix epoch. -/
def civilFromDays (z : Int) : Int × Int × Int :=
  let z := z + 719468
  let era := z / 146097
  let doe := z - era * 146097
  let yoe := (doe - doe / 1460 + doe / 36524 - doe / 146096) / 365
  let doy := doe - (365 * yoe + yoe / 4 - yoe / 100)
  let mp := (5 * doy + 2) / 153
  let d := doy - (153 * mp + 2) / 5 + 1
  let m := if mp < 10 then mp + 3 else mp - 9
  (if m ≤ 2 then yoe + era * 400 + 1 else yoe + era * 400, m, d)

/-- The number of days of a month. -/
def daysInMonth (y m : Int) : Int := daysFromCivil y (m + 1) 1 - daysFromCivil y m 1

/-- Nanoseconds in a day. -/
def nanosPerDay : Int := 86400 * 1000000000

/-- The year of an instant, in UTC. -/
def yearOf (t : Time) : Int := (civilFromDays (t.unixNano / nanosPerDay)).1

/-- The instant moved by a number of years, in UTC, a day past the end of its month carried into
the next. -/
def addYearsUTC (t : Time) (years : Int) : Time :=
  let days := t.unixNano / nanosPerDay
  let (y, m, d) := civilFromDays days
  ⟨(daysFromCivil (y + years) m 1 + d - 1) * nanosPerDay + t.unixNano % nanosPerDay⟩

/-- Reads exactly `n` digits. -/
def readDigits (n : Nat) (s : List Char) : Option (Int × List Char) :=
  if (s.take n).length = n ∧ (s.take n).all Char.isDigit then
    some ((digitsValue (s.take n) : Int), s.drop n)
  else none

/-- Reads one given rune. -/
def readChar (c : Char) : List Char → Option (List Char)
  | [] => none
  | x :: s => if x == c then some s else none

/-- Reads `YYYY-MM-DD`, a separator, `HH:MM:SS` and an optional fraction of a second; the result
is the instant in UTC and what follows. -/
def readDateTime (sep : Char) (s : List Char) : Option (Int × List Char) := do
  let (y, s) ← readDigits 4 s
  let s ← readChar '-' s
  let (m, s) ← readDigits 2 s
  let s ← readChar '-' s
  let (d, s) ← readDigits 2 s
  let s ← readChar sep s
  let (hh, s) ← readDigits 2 s
  let s ← readChar ':' s
  let (mm, s) ← readDigits 2 s
  let s ← readChar ':' s
  let (ss, s) ← readDigits 2 s
  if 1 ≤ m ∧ m ≤ 12 ∧ 1 ≤ d ∧ d ≤ daysInMonth y m ∧ hh < 24 ∧ mm < 60 ∧ ss < 60 then
    let secs := daysFromCivil y m d * 86400 + hh * 3600 + mm * 60 + ss
    match s with
    | '.' :: s1 =>
      let frac := s1.takeWhile Char.isDigit
      if frac.isEmpty then none
      else
        some (secs * 1000000000 + (digitsValue ((frac ++ List.replicate 9 '0').take 9) : Int),
          s1.dropWhile Char.isDigit)
    | _ => some (secs * 1000000000, s)
  else none

/-- Reads the zone of RFC 3339, `Z` or `+hh:mm` or `-hh:mm`, as the seconds east of UTC. -/
def readZone : List Char → Option (Int × List Char)
  | 'Z' :: s => some (0, s)
  | c :: s =>
    if c == '+' || c == '-' then do
      let (hh, s) ← readDigits 2 s
      let s ← readChar ':' s
      let (mm, s) ← readDigits 2 s
      if hh < 24 ∧ mm < 60 then
        some ((if c == '-' then -1 else 1) * (hh * 3600 + mm * 60), s)
      else none
    else none
  | [] => none

/-- Parsing of a timestamp in the RFC 3339 layouts and in `2006-01-02 15:04:05`. -/
def parseTimestamp (layout value : String) : Option Time :=
  if layout = layoutRFC3339 ∨ layout = layoutRFC3339Nano then
    match readDateTime 'T' value.data with
    | some (nanos, s) =>
      match readZone s with
      | some (east, []) => some ⟨nanos - east * 1000000000⟩
      | _ => none
    | none => none
  else if layout = "2006-01-02 15:04:05" then
    match readDateTime ' ' value.data with
    | some (nanos, []) => some ⟨nanos⟩
    | _ => none
  else none

/-- Whether the runes `s` come before the runes `t` in the order of their code points. -/
def ltRunes : List Char → List Char → Bool
  | _, [] => false
  | [], _ :: _ => true
  | a :: s, b :: t => a.toNat < b.toNat || (a == b && ltRunes s t)

/-- Inserts a member into members sorted by key. -/
def insertMember (m : String × String) : List (String × String) → List (String × String)
  | [] => [m]
  | x :: xs => if ltRunes m.1.data x.1.data then m :: x :: xs else x :: insertMember m xs

/-- The members sorted by key, as `encoding/json` writes a map. -/
def sortMembers (ms : List (String × String)) : List (String × String) :=
  ms.foldr insertMember []

/-- The decimal digits of `n`, padded with zeros to `width` digits. -/
def padNat (width n : Nat) : String :=
  String.mk (List.replicate (width - (Nat.toDigits 10 n).length) '0' ++ Nat.toDigits 10 n)

/-- One rune inside a JSON string, as `encoding/json` writes it: the quote, the backslash, the
control characters and, for HTML, `<`, `>`, `&`, U+2028 and U+2029 are escaped. -/
def encodeRune (c : Char) : List Char :=
  if c == '"' then ['\\', '"']
  else if c == '\\' then ['\\', '\\']
  else if c == '\n' then ['\\', 'n']
  else if c == '\r' then ['\\', 'r']
  else if c == '\t' then ['\\', 't']
  else if c.toNat < 32 then
    "\\u00".data ++ [Nat.digitChar (c.toNat / 16), Nat.digitChar (c.toNat % 16)]
  else if c == '<' then "\\u003c".data
  else if c == '>' then "\\u003e".data
  else if c == '&' then "\\u0026".data
  else if c.toNat = 0x2028 then "\\u2028".data
  else if c.toNat = 0x2029 then "\\u2029".data
  else [c]

/-- A string between quotes. -/
def encodeString (s : String) : String :=
  "\"" ++ String.mk (s.data.foldr (fun c acc => encodeRune c ++ acc) []) ++ "\""

/-- A `float64` that is an integer below `10 ^ 21`, in decimal digits; other numbers, which Go
writes in the shortest decimal form, are written as a fraction. -/
def encodeNum (v : ℚ) : String :=
  if v.den = 1 ∧ v.num.natAbs < 10 ^ 21 then toString v.num
  else toString v.num ++ "/" ++ toString v.den

/-- An object of members already encoded, sorted by key. -/
def encodeObject (ms : List (String × String)) : String :=
  "\x7b" ++ String.intercalate ","
    ((sortMembers ms).map (fun kv => encodeString kv.1 ++ ":" ++ kv.2)) ++ "\x7d"

mutual
/-- A value held in a `map[string]any`, as `encoding/json` writes it. -/
def encodeVal : JVal → String
  | JVal.null => "null"
  | JVal.bool b => if b then "true" else "false"
  | JVal.num v => encodeNum v
  | JVal.str s => encodeString s
  | JVal.arr items => "[" ++ String.intercalate "," (encodeItems items) ++ "]"
  | JVal.obj members => encodeObject (encodeMembers members)
/-- The items of an array, each encoded. -/
def encodeItems : List JVal → List String
  | [] => []
  | v :: vs => encodeVal v :: encodeItems vs
/-- The members of a map, each value encoded. -/
def encodeMembers : List (String × JVal) → List (String × String)
  | [] => []
  | (k, v) :: ms => (k, encodeVal v) :: encodeMembers ms
end

/-- `Time.MarshalJSON`, in UTC: the instant in the layout RFC3339Nano between quotes; `none`,
an error, when the year is outside 0..9999. -/
def encodeTime (t : Time) : Option String :=
  let date := civilFromDays (t.unixNano / nanosPerDay)
  let rest := t.unixNano % nanosPerDay
  let secs := (rest / 1000000000).toNat
  let nanos := (rest % 1000000000).toNat
  if date.1 < 0 ∨ 9999 < date.1 then none
  else
    let fraction : String :=
      if nanos = 0 then ""
      else "." ++ String.mk (((padNat 9 nanos).data.reverse.dropWhile (fun c => c == '0')).reverse)
    some ("\"" ++ padNat 4 date.1.toNat ++ "-" ++ padNat 2 date.2.1.toNat ++ "-" ++
      padNat 2 date.2.2.toNat ++ "T" ++ padNat 2 (secs / 3600) ++ ":" ++
      padNat 2 (secs % 3600 / 60) ++ ":" ++ padNat 2 (secs % 60) ++ fraction ++ "Z\"")

/-- A `ParsedLog` as `encoding/json` writes it: every field is `omitempty`. -/
def encodeParsed (p : ParsedLog) : Option String :=
  let rest : List String :=
    (if p.Level = "" then [] else ["\"level\":" ++ encodeString p.Level]) ++
    (if p.Message = "" then [] else ["\"message\":" ++ encodeString p.Message]) ++
    (if p.Source = "" then [] else ["\"source\":" ++ encodeString p.Source]) ++
    (if p.Fields.isEmpty then [] else ["\"fields\":" ++ encodeObject (encodeMembers p.Fields)])
  match p.Time with
  | none => some ("\x7b" ++ String.intercalate "," rest ++ "\x7d")
  | some t =>
    match encodeTime t with
    | none => none
    | some time => some ("\x7b" ++ String.intercalate "," (("\"time\":" ++ time) :: rest) ++ "\x7d")

/-- A `LogEntry` as `encoding/json` writes it. -/
def encodeEntry (e : LogEntry) : Option String :=
  match encodeTime e.Timestamp with
  | none => none
  | some timestamp =>
    let head := "\x7b\"id\":" ++ toString e.ID ++ ",\"timestamp\":" ++ timestamp ++
      ",\"raw\":" ++ encodeString e.Raw
    match e.Parsed with
    | none => some (head ++ "\x7d")
    | some p =>
      match encodeParsed p with
      | none => none
      | some parsed => some (head ++ ",\"parsed\":" ++ parsed ++ "\x7d")

/-- `json.Marshal` of a `WSMessage`. -/
def marshalMessage : WSMessage → Option String
  | WSMessage.log entry =>
    match encodeEntry entry with
    | none => none
    | some data => some ("\x7b\"type\":\"log\",\"data\":" ++ data ++ "\x7d")
  | WSMessage.status stdinOpen =>
    some ("\x7b\"type\":\"status\",\"data\":\x7b\"stdinOpen\":" ++
      (if stdinOpen then "true" else "false") ++ "\x7d\x7d")
  | WSMessage.pong => some "\x7b\"type\":\"pong\"\x7d"

/-- A concrete library on which the definitions can be evaluated. -/
def asciiLib : Lib :=
  { isSpace := whiteSpace
    upper := Char.toUpper
    lower := Char.toLower
    foldEq := fun a b => a.toLower == b.toLower
    compile := compileLiteral
    mustCompile := fun pattern =>
      match sourcePatterns.lookup pattern with
      | some re => re.toRegexp
      | none => (Re.alts []).toRegexp
    unmarshal := decodeObject
    marshal := marshalMessage
    parseTime := parseTimestamp
    year := yearOf
    addYears := addYearsUTC
    int64OutOfRange := fun _ => -(2 ^ 63) }

/-! ## Sample data -/

/-- An entry as the parser hands it to `Add`: a line with level INFO. -/
def demoA : LogEntry := ⟨0, ⟨4⟩, "INFO boot", some ⟨none, "INFO", "INFO boot", "", []⟩⟩

/-- A line with level ERROR. -/
def demoB : LogEntry :=
  ⟨0, ⟨5⟩, "ERROR disk full (sda1)", some ⟨none, "ERROR", "ERROR disk full (sda1)", "", []⟩⟩

/-- A line without a level. -/
def demoC : LogEntry :=
  ⟨0, ⟨6⟩, "just some text", some ⟨none, "", "just some text", "", []⟩⟩

/-- Three entries, used to evaluate the definitions. -/
def demoEntries : List LogEntry := [demoA, demoB, demoC]

/-- A filter whose search text is not a regular expression: the group is never closed. -/
def unclosedGroupFilter : LogFilter := ⟨"(SDA", [], true, 0, 0⟩

/-- The ring of capacity 2 after the three entries were added. -/
def demoRing : Ring :=
  { entries := [{ demoC with ID := 3 }, { demoB with ID := 2 }]
    capacity := 2
    head := 1
    count := 2
    totalReceived := 3 }

/-- The structured line `{"level":"err","msg":"disk full","ts":1700000000}`. -/
def demoLine : String := "\x7b\"level\":\"err\",\"msg\":\"disk full\",\"ts\":1700000000\x7d"

/-- A structured line whose first time key holds a string that is no timestamp:
`{"level":"err","time":"yesterday","ts":1700000000,"logger":"db","msg":"disk full"}`. -/
def demoBadTimeLine : String :=
  "\x7b\"level\":\"err\",\"time\":\"yesterday\",\"ts\":1700000000,\"logger\":\"db\"," ++
    "\"msg\":\"disk full\"\x7d"

/-- A hub with the clients 1, 2 and 3 registered: client 1 has no filter, the filter of client
2 is `levels = [ERROR]`, and the queue of client 3, which has no filter, is full. -/
def demoHub : Hub :=
  { clients := fun c => c == 1 || c == 2 || c == 3
    client := fun c =>
      if c = 2 then { Client.fresh with filter := ⟨"", ["ERROR"], false, 0, 0⟩ }
      else if c = 3 then
        { Client.fresh with send := List.replicate 256 (marshalled asciiLib WSMessage.pong) }
      else Client.fresh }

/-- A line of level WARN, as `Add` returns it. -/
def demoWarn : LogEntry :=
  ⟨7, ⟨9⟩, "WARN disk almost full", some ⟨none, "WARN", "WARN disk almost full", "", []⟩⟩

/-- The line `{"level":"warn","ts":1000000000000}`: its time, in seconds, is in the year
33658. -/
def demoFarLine : String := "\x7b\"level\":\"warn\",\"ts\":1000000000000\x7d"

/-- The entry `Parse` makes of that line, with the ID that `Add` gave it. -/
def demoFar : LogEntry :=
  { Parse asciiLib (levelPatterns asciiLib) ⟨9⟩ ⟨9⟩ demoFarLine with ID := 10 }

/-- A run of the hub: client 1 is registered, the WARN entry is broadcast, the client
subscribes to `levels = [ERROR]`, an INFO and an ERROR entry are broadcast, `writePump` receives
a message, and the client is unregistered. -/
def demoEvents : List Event :=
  [Event.hub (HubEvent.register 1),
   Event.hub (HubEvent.broadcast demoWarn [1]),
   Event.subscribe 1 ⟨"", ["ERROR"], false, 0, 0⟩,
   Event.hub (HubEvent.broadcast { demoA with ID := 8 } [1]),
   Event.hub (HubEvent.broadcast { demoB with ID := 9 } [1]),
   Event.receive 1,
   Event.hub (HubEvent.unregister 1)]

/-! ## The invariant -/

theorem ringInv_new (c : Nat) (hc : 0 < c) : RingInv c (New c) [] 0 where
  cpos := hc
  cap := rfl
  len := by simp [New]
  head := by simp [New]
  count := by simp [New]
  total := by simp [New]
  slots := by intro j hj; simp at hj

theorem ringInv_clear {c : Nat} {r : Ring} {hist : List LogEntry} {n : Nat}
    (h : RingInv c r hist n) : RingInv c r.Clear [] n where
  cpos := h.cpos
  cap := h.cap
  len := h.len
  head := by simp [Ring.Clear]
  count := by simp [Ring.Clear]
  total := h.total
  slots := by intro j hj; simp at hj

theorem mod_ne_of_lt_of_lt {c a b : Nat} (hab : a < b) (hb : b < a + c) : a % c ≠ b % c := by
  intro heq
  have h1 : (b - a) % c = 0 := by
    have : b % c = (a + (b - a)) % c := by congr 1; omega
    have h2 := Nat.ModEq.add_left_cancel' a
      (show a + (b - a) ≡ a + 0 [MOD c] by
        unfold Nat.ModEq; rw [Nat.add_zero, ← this, heq])
    simpa [Nat.ModEq] using h2
  have h3 : b - a < c := by omega
  rw [Nat.mod_eq_of_lt h3] at h1
  omega

theorem succ_mod_wrap (n : Nat) : (n % 2 ^ 64 + 1) % 2 ^ 64 = (n + 1) % 2 ^ 64 := by
  omega

theorem ringInv_add {c : Nat} {r : Ring} {hist : List LogEntry} {n : Nat}
    (h : RingInv c r hist n) (e : LogEntry) :
    ∃ r1, r.Add e = some (r1, stamp (n + 1) e) ∧
      RingInv c r1 (hist ++ [stamp (n + 1) e]) (n + 1) := by
  have hc := h.cpos
  have hid : (r.totalReceived + 1) % 2 ^ 64 = (n + 1) % 2 ^ 64 := by
    rw [h.total]; exact succ_mod_wrap n
  have hhead : r.head < r.entries.length := by
    rw [h.head, h.len]; exact Nat.mod_lt _ hc
  have hcap : r.capacity ≠ 0 := by rw [h.cap]; omega
  refine ⟨{ entries := r.entries.set r.head (stamp (n + 1) e), capacity := r.capacity,
             head := (r.head + 1) % r.capacity,
             count := if r.count < r.capacity then r.count + 1 else r.count,
             totalReceived := (n + 1) % 2 ^ 64 }, ?_, ?_⟩
  · simp only [Ring.Add, hhead, hcap, if_true, if_false, hid, stamp]
  · refine ⟨hc, h.cap, ?_, ?_, ?_, rfl, ?_⟩
    · simp [h.len]
    · show (r.head + 1) % r.capacity = _
      rw [h.head, h.cap, List.length_append, List.length_singleton, Nat.add_mod,
        Nat.mod_mod, ← Nat.add_mod]
    · show (if r.count < r.capacity then r.count + 1 else r.count) = _
      rw [h.count, h.cap, List.length_append, List.length_singleton]
      split <;> omega
    · intro j hj hjc
      rw [List.length_append, List.length_singleton] at hj hjc
      show (r.entries.set r.head _)[j % c]? = _
      rcases Nat.lt_or_ge j hist.length with hlt | hge
      · have hne : r.head ≠ j % c := by
          rw [h.head]
          exact fun heq => mod_ne_of_lt_of_lt hlt (by omega) heq.symm
        rw [List.getElem?_set_ne hne, h.slots j hlt (by omega), List.getElem?_append_left hlt]
      · have hje : j = hist.length := by omega
        subst hje
        rw [← h.head, List.getElem?_set_self hhead, List.getElem?_append_right (le_refl _)]
        simp [hid, stamp]

theorem readLoop_eq {c : Nat} {r : Ring} {hist : List LogEntry} {n : Nat}
    (h : RingInv c r hist n) (k : Nat) (hk : k ≤ r.count) :
    r.readLoop (if r.count = r.capacity then r.head else 0) k
      = some ((hist.drop (hist.length - r.count)).take k) := by
  induction k with
  | zero => simp [Ring.readLoop]
  | succ k ih =>
    have hcount := h.count
    have hcap : r.capacity ≠ 0 := by rw [h.cap]; exact Nat.pos_iff_ne_zero.mp h.cpos
    have hj1 : hist.length - r.count + k < hist.length := by omega
    have hj2 : hist.length ≤ hist.length - r.count + k + c := by omega
    have hidx : ((if r.count = r.capacity then r.head else 0) + k) % r.capacity
        = (hist.length - r.count + k) % c := by
      rw [h.cap]
      split
      · rename_i hcc
        rw [h.head, Nat.add_mod, Nat.mod_mod, ← Nat.add_mod]
        have e1 : hist.length + k = (hist.length - r.count + k) + c := by omega
        rw [e1, Nat.add_mod_right]
      · rename_i hcc
        have : r.count = hist.length := by omega
        rw [this]; simp
    simp only [Ring.readLoop, ih (by omega), hcap, if_false, hidx, h.slots _ hj1 hj2]
    rw [List.getElem?_eq_getElem hj1]
    simp only
    rw [List.take_succ, List.getElem?_drop, List.getElem?_eq_getElem hj1]
    rfl

theorem getAll_eq {c : Nat} {r : Ring} {hist : List LogEntry} {n : Nat}
    (h : RingInv c r hist n) : r.GetAll = some (hist.drop (hist.length - c)) := by
  have hcount := h.count
  have hc := h.cpos
  unfold Ring.GetAll
  split
  · rename_i h0
    have : hist.length = 0 := by omega
    rw [List.length_eq_zero] at this
    simp [this]
  · rw [readLoop_eq h r.count (le_refl _)]
    have e1 : hist.length - r.count = hist.length - c := by omega
    rw [e1, List.take_of_length_le]
    rw [List.length_drop]; omega

theorem exec_eq {c : Nat} (ops : List Op) :
    ∀ {r : Ring} {hist : List LogEntry} {n : Nat}, RingInv c r hist n →
      ∃ r1, r.exec ops = some (r1, issued n ops) ∧
        RingInv c r1 (sinceClear hist n ops) (n + numAdds ops) := by
  induction ops with
  | nil => intro r hist n h; exact ⟨r, rfl, h⟩
  | cons op ops ih =>
    intro r hist n h
    cases op with
    | add e =>
      obtain ⟨r1, hadd, hinv1⟩ := ringInv_add h e
      obtain ⟨r2, hex, hinv2⟩ := ih hinv1
      refine ⟨r2, ?_, ?_⟩
      · simp only [Ring.exec, hadd, hex, issued]
      · have e1 : n + numAdds (Op.add e :: ops) = n + 1 + numAdds ops := by
          simp only [numAdds]; omega
        rw [e1]; exact hinv2
    | clear =>
      obtain ⟨r2, hex, hinv2⟩ := ih (ringInv_clear h)
      exact ⟨r2, by simp only [Ring.exec, hex, issued], hinv2⟩

/-- Every reachable state satisfies the invariant for some history. -/
theorem reachable_inv {c : Nat} (hc : 0 < c) {r : Ring} (h : Reachable c r) :
    ∃ hist n, RingInv c r hist n := by
  obtain ⟨ops, out, hex⟩ := h
  obtain ⟨r1, hex1, hinv⟩ := exec_eq ops (ringInv_new c hc)
  rw [hex] at hex1
  have : r = r1 := by injection hex1 with h1; exact (Prod.mk.inj h1).1
  subst this
  exact ⟨_, _, hinv⟩

/-! ## Runs made of `Add` only -/

theorem stampAll_length (es : List LogEntry) : ∀ n, (stampAll n es).length = es.length := by
  induction es with
  | nil => intro n; rfl
  | cons e es ih => intro n; simp [stampAll, ih]

theorem stampAll_getElem? (es : List LogEntry) :
    ∀ n i, (stampAll n es)[i]? = (es[i]?).map (stamp (n + 1 + i)) := by
  induction es with
  | nil => intro n i; simp [stampAll]
  | cons e es ih =>
    intro n i
    cases i with
    | zero => simp [stampAll]
    | succ i =>
      simp only [stampAll, List.getElem?_cons_succ, ih]
      have e1 : n + 1 + 1 + i = n + 1 + (i + 1) := by omega
      rw [e1]

theorem numAdds_map_add (es : List LogEntry) : numAdds (es.map Op.add) = es.length := by
  induction es with
  | nil => rfl
  | cons e es ih => simp [numAdds, ih]

theorem issued_map_add (es : List LogEntry) :
    ∀ n, issued n (es.map Op.add) = stampAll n es := by
  induction es with
  | nil => intro n; rfl
  | cons e es ih => intro n; simp [issued, stampAll, ih]

theorem sinceClear_map_add (es : List LogEntry) :
    ∀ hist n, sinceClear hist n (es.map Op.add) = hist ++ stampAll n es := by
  induction es with
  | nil => intro hist n; simp [sinceClear, stampAll]
  | cons e es ih => intro hist n; simp [sinceClear, stampAll, ih]

/-- After `es` is added to a fresh ring of capacity `c`, `GetAll` returns the last `c` of the
stamped entries. -/
theorem getAll_after_adds (c : Nat) (hc : 0 < c) (es : List LogEntry) :
    ∃ r, (New c).exec (es.map Op.add) = some (r, stampAll 0 es) ∧
      r.count = min es.length c ∧
      r.GetAll = some ((stampAll 0 es).drop (es.length - c)) := by
  obtain ⟨r, hex, hinv⟩ := exec_eq (es.map Op.add) (ringInv_new c hc)
  rw [issued_map_add] at hex
  rw [sinceClear_map_add, List.nil_append] at hinv
  refine ⟨r, hex, ?_, ?_⟩
  · rw [hinv.count, stampAll_length]
  · rw [getAll_eq hinv, stampAll_length]

/-! ## Claims on the ring buffer -/

/-- C1: for every capacity `c ≥ 1` (a Go `int`, so below `2 ^ 63`) and every sequence of
`N ≤ c` calls to `Add` on a fresh `New(c)`, no call panics and `GetAll` returns exactly `N`
entries, the `i`-th being the `i`-th entry added (same raw, timestamp and parsed) with ID
`i + 1`: the IDs are exactly `1, 2, ..., N`. -/
theorem C1_getAll_up_to_capacity (c : Nat) (es : List LogEntry) (hc : 1 ≤ c) (hint : c < 2 ^ 63)
    (hN : es.length ≤ c) :
    ∃ r out l, (New c).exec (es.map Op.add) = some (r, out) ∧ r.GetAll = some l ∧
      l.length = es.length ∧
      ∀ i (hi : i < es.length), l[i]? = some { es[i] with ID := i + 1 } := by
  obtain ⟨r, hex, -, hget⟩ := getAll_after_adds c hc es
  have h0 : es.length - c = 0 := by omega
  rw [h0, List.drop_zero] at hget
  refine ⟨r, _, _, hex, hget, stampAll_length es 0, ?_⟩
  intro i hi
  rw [stampAll_getElem?, List.getElem?_eq_getElem hi]
  have hmod : (0 + 1 + i) % 2 ^ 64 = i + 1 := by omega
  simp only [Option.map_some', stamp, hmod]

/-- C1 at a concrete input: three entries added to a ring of capacity 3 are all returned, with
IDs 1, 2, 3. -/
theorem C1_witness :
    (1 ≤ 3 ∧ 3 < 2 ^ 63 ∧ demoEntries.length ≤ 3) ∧
    (∃ r out l, (New 3).exec (demoEntries.map Op.add) = some (r, out) ∧ r.GetAll = some l ∧
      l.length = demoEntries.length ∧
      ∀ i (hi : i < demoEntries.length), l[i]? = some { demoEntries[i] with ID := i + 1 }) ∧
    ((New 3).exec (demoEntries.map Op.add)).bind (fun p => p.1.GetAll)
      = some [{ demoA with ID := 1 }, { demoB with ID := 2 }, { demoC with ID := 3 }] :=
  ⟨⟨by decide, by norm_num, by decide⟩,
    C1_getAll_up_to_capacity 3 demoEntries (by decide) (by norm_num) (by decide), rfl⟩

/-- A fresh ring of capacity 1 after `N` zero entries were added, `N` a positive multiple of
`2 ^ 64`: the counter has wrapped and the held entry has ID 0. -/
theorem getAll_at_wrap (N : Nat) (hN : 0 < N) (hmod : N % 2 ^ 64 = 0) :
    ∃ r out, (New 1).exec ((List.replicate N LogEntry.zero).map Op.add) = some (r, out) ∧
      r.GetAll = some [LogEntry.zero] := by
  obtain ⟨r, hex, -, hget⟩ := getAll_after_adds 1 Nat.one_pos (List.replicate N LogEntry.zero)
  refine ⟨r, _, hex, ?_⟩
  rw [hget, List.length_replicate]
  congr 1
  apply List.ext_getElem?
  intro i
  rw [List.getElem?_drop, stampAll_getElem?, List.getElem?_replicate]
  cases i with
  | zero =>
    have h1 : N - 1 + 0 < N := by omega
    have h2 : 0 + 1 + (N - 1 + 0) = N := by omega
    rw [if_pos h1, h2]
    simp only [stamp, hmod, Option.map_some', LogEntry.zero, List.getElem?_cons_zero]
  | succ i =>
    have h1 : ¬ (N - 1 + (i + 1) < N) := by omega
    rw [if_neg h1]
    rfl

/-- C2 (as amended): for every capacity `c ≥ 1` and every sequence of `N > c` calls to `Add` on
a fresh `New(c)`, no call panics and `GetAll` returns exactly the last `c` entries added, oldest
first, the `i`-th carrying the ID `(N - c + i + 1) mod 2 ^ 64`; when `N < 2 ^ 64` these IDs are
`N - c + 1, ..., N`.  After every prefix of the sequence the number of held entries
(`Stats` used, length of `GetAll`) is at most `c`. -/
theorem C2_getAll_above_capacity (c : Nat) (es : List LogEntry) (hc : 1 ≤ c)
    (hN : c < es.length) :
    (∃ r out l, (New c).exec (es.map Op.add) = some (r, out) ∧ r.GetAll = some l ∧
      l.length = c ∧
      (∀ i, i < c → l[i]? = (es[es.length - c + i]?).map
        (fun e => { e with ID := (es.length - c + i + 1) % 2 ^ 64 })) ∧
      (es.length < 2 ^ 64 → ∀ i, i < c → l[i]? = (es[es.length - c + i]?).map
        (fun e => { e with ID := es.length - c + i + 1 }))) ∧
    (∀ k, ∃ r out l, (New c).exec ((es.take k).map Op.add) = some (r, out) ∧
      r.GetAll = some l ∧ r.Stats.2.1 ≤ c ∧ l.length ≤ c) := by
  constructor
  · obtain ⟨r, hex, -, hget⟩ := getAll_after_adds c hc es
    have hget1 : ∀ i, ((stampAll 0 es).drop (es.length - c))[i]? = (es[es.length - c + i]?).map
        (fun e => { e with ID := (es.length - c + i + 1) % 2 ^ 64 }) := by
      intro i
      rw [List.getElem?_drop, stampAll_getElem?]
      have e1 : 0 + 1 + (es.length - c + i) = es.length - c + i + 1 := by omega
      rw [e1]
      rfl
    refine ⟨r, _, _, hex, hget, ?_, fun i _ => hget1 i, ?_⟩
    · rw [List.length_drop, stampAll_length]; omega
    · intro hlt i hi
      rw [hget1 i]
      have e2 : (es.length - c + i + 1) % 2 ^ 64 = es.length - c + i + 1 := by omega
      rw [e2]
  · intro k
    obtain ⟨r, hex, hcount, hget⟩ := getAll_after_adds c hc (es.take k)
    refine ⟨r, _, _, hex, hget, ?_, ?_⟩
    · show r.count ≤ c
      rw [hcount]; exact Nat.min_le_right _ _
    · rw [List.length_drop, stampAll_length]; omega

/-- C2 fails as stated once the ID counter wraps: after `N = 2 ^ 64` calls to `Add` on `New(1)`
the entry `GetAll` returns has ID `0`, not `N - c + 1 = 2 ^ 64`. -/
theorem C2_counterexample_id_wraps :
    ∃ r out, (New 1).exec ((List.replicate (2 ^ 64) LogEntry.zero).map Op.add) = some (r, out) ∧
      r.GetAll = some [LogEntry.zero] ∧ LogEntry.zero.ID = 0 ∧
      (List.replicate (2 ^ 64) LogEntry.zero).length - 1 + 1 = 2 ^ 64 := by
  obtain ⟨r, out, hex, hget⟩ := getAll_at_wrap (2 ^ 64) (by norm_num) (by norm_num)
  exact ⟨r, out, hex, hget, rfl, by rw [List.length_replicate]; norm_num⟩

/-- C2 at a concrete input: three entries added to a ring of capacity 2 leave the last two,
with IDs 2 and 3. -/
theorem C2_witness :
    (1 ≤ 2 ∧ 2 < demoEntries.length) ∧
    ((∃ r out l, (New 2).exec (demoEntries.map Op.add) = some (r, out) ∧ r.GetAll = some l ∧
      l.length = 2 ∧
      (∀ i, i < 2 → l[i]? = (demoEntries[demoEntries.length - 2 + i]?).map
        (fun e => { e with ID := (demoEntries.length - 2 + i + 1) % 2 ^ 64 })) ∧
      (demoEntries.length < 2 ^ 64 → ∀ i, i < 2 →
        l[i]? = (demoEntries[demoEntries.length - 2 + i]?).map
          (fun e => { e with ID := demoEntries.length - 2 + i + 1 }))) ∧
    (∀ k, ∃ r out l, (New 2).exec ((demoEntries.take k).map Op.add) = some (r, out) ∧
      r.GetAll = some l ∧ r.Stats.2.1 ≤ 2 ∧ l.length ≤ 2)) ∧
    ((New 2).exec (demoEntries.map Op.add)).bind (fun p => p.1.GetAll)
      = some [{ demoB with ID := 2 }, { demoC with ID := 3 }] :=
  ⟨⟨by decide, by decide⟩, C2_getAll_above_capacity 2 demoEntries (by decide) (by decide), rfl⟩

theorem issued_ids (ops : List Op) :
    ∀ n, n + numAdds ops < 2 ^ 64 →
      (issued n ops).map (fun x => x.ID) = List.range' (n + 1) (numAdds ops) := by
  induction ops with
  | nil => intro n _; rfl
  | cons op ops ih =>
    intro n hn
    cases op with
    | add e =>
      simp only [numAdds] at hn ⊢
      have hmod : (n + 1) % 2 ^ 64 = n + 1 := by omega
      rw [List.range'_succ]
      simp only [issued, List.map_cons, stamp, hmod]
      rw [ih (n + 1) (by omega)]
    | clear =>
      simp only [numAdds] at hn ⊢
      simp only [issued]
      exact ih n hn

/-- C3: for every capacity `c ≥ 1` and every interleaving `ops` of `Add` and `Clear` on a fresh
`New(c)` with fewer than `2 ^ 64` `Add`s in total (the final one included), no call panics, the
IDs returned by the successive `Add`s are strictly increasing whatever `Clear`s lie in between,
and a `Clear` followed by an `Add` returns an entry whose ID is strictly greater than every ID
returned by an earlier `Add`. -/
theorem C3_ids_never_reused (c : Nat) (ops : List Op) (e : LogEntry) (hc : 1 ≤ c)
    (hN : numAdds ops + 1 < 2 ^ 64) :
    ∃ r out, (New c).exec ops = some (r, out) ∧
      (out.map (fun x => x.ID)).Pairwise (fun a b => a < b) ∧
      ∃ r1 e1, r.Clear.Add e = some (r1, e1) ∧ ∀ x ∈ out, x.ID < e1.ID := by
  obtain ⟨r, hex, hinv⟩ := exec_eq ops (ringInv_new c hc)
  obtain ⟨r1, hadd, -⟩ := ringInv_add (ringInv_clear hinv) e
  have hids := issued_ids ops 0 (by omega)
  refine ⟨r, _, hex, ?_, r1, _, hadd, ?_⟩
  · rw [hids]; exact List.pairwise_lt_range' _ _
  · intro x hx
    have hmem : x.ID ∈ (issued 0 ops).map (fun x => x.ID) := List.mem_map_of_mem _ hx
    rw [hids, List.mem_range'_1] at hmem
    have hmod : (0 + numAdds ops + 1) % 2 ^ 64 = 0 + numAdds ops + 1 := by omega
    show x.ID < (0 + numAdds ops + 1) % 2 ^ 64
    rw [hmod]; omega

/-- C3 at a concrete input: add, add, clear, add on a ring of capacity 2 returns the IDs 1, 2, 3,
and a further clear and add returns ID 4. -/
theorem C3_witness :
    (1 ≤ 2 ∧ numAdds [Op.add LogEntry.zero, Op.add LogEntry.zero, Op.clear,
        Op.add LogEntry.zero] + 1 < 2 ^ 64) ∧
    (∃ r out, (New 2).exec [Op.add LogEntry.zero, Op.add LogEntry.zero, Op.clear,
        Op.add LogEntry.zero] = some (r, out) ∧
      (out.map (fun x => x.ID)).Pairwise (fun a b => a < b) ∧
      ∃ r1 e1, r.Clear.Add LogEntry.zero = some (r1, e1) ∧ ∀ x ∈ out, x.ID < e1.ID) ∧
    ((New 2).exec [Op.add LogEntry.zero, Op.add LogEntry.zero, Op.clear,
        Op.add LogEntry.zero]).map (fun p => p.2.map (fun x => x.ID)) = some [1, 2, 3] ∧
    (((New 2).exec [Op.add LogEntry.zero, Op.add LogEntry.zero, Op.clear,
        Op.add LogEntry.zero]).bind (fun p => p.1.Clear.Add LogEntry.zero)).map
          (fun p => p.2.ID) = some 4 :=
  ⟨⟨by decide, by norm_num [numAdds]⟩,
    C3_ids_never_reused 2 _ LogEntry.zero (by decide) (by norm_num [numAdds]), rfl, rfl⟩

/-! ## `Query` against its reference definition -/

theorem containsLevel_eq_any (L : Lib) (levels : List String) (level : String) :
    containsLevel L levels level = levels.any (fun l => equalFold L l level) := by
  induction levels with
  | nil => rfl
  | cons l ls ih =>
    simp only [containsLevel, List.any_cons, ih]
    cases equalFold L l level <;> simp

theorem ite_eq_false_swap {α : Type} (b : Bool) (x y : α) :
    (if b = false then x else y) = if b = true then y else x := by
  cases b <;> rfl

/-- The body of the loop of `Query` appends the entry exactly when it passes the three tests. -/
theorem queryStep_eq (L : Lib) (f : LogFilter) (acc : List LogEntry) (e : LogEntry) :
    Ring.queryStep L f (if f.Regex = true ∧ f.Search ≠ "" then L.compile f.Search else none)
        (toLower L f.Search) acc e
      = if (passesCursor f e && passesLevel L f e && passesSearch L f e) = true
        then acc ++ [e] else acc := by
  unfold Ring.queryStep passesCursor passesLevel passesSearch
  by_cases hcur : f.AfterID > 0 ∧ e.ID ≤ f.AfterID
  · have h1 : ¬ f.AfterID = 0 := by omega
    have h2 : ¬ f.AfterID < e.ID := by omega
    simp [hcur, h1, h2]
  · have h3 : f.AfterID = 0 ∨ f.AfterID < e.ID := by omega
    have h4 : (decide (f.AfterID = 0) || decide (f.AfterID < e.ID)) = true := by
      simpa using h3
    rw [if_neg hcur, h4, Bool.true_and]
    by_cases hlv : f.Levels = []
    · by_cases hs : f.Search = ""
      · simp [hlv, hs]
      · cases hre : f.Regex <;> cases hcomp : L.compile f.Search <;>
          simp [hlv, hs, hre, hcomp, ite_eq_false_swap]
    · have hlen : f.Levels.length > 0 := List.length_pos.mpr hlv
      have hemp : f.Levels.isEmpty = false := by
        cases hl : f.Levels with
        | nil => exact absurd hl hlv
        | cons a b => rfl
      cases hp : e.Parsed with
      | none => simp [hlen, hemp]
      | some p =>
        simp only [hlen, hemp, if_true, Bool.false_or, containsLevel_eq_any]
        cases hany : f.Levels.any (fun l => equalFold L l p.Level)
        · simp
        · by_cases hs : f.Search = ""
          · simp [hs]
          · cases hre : f.Regex <;> cases hcomp : L.compile f.Search <;>
              simp [hs, hre, hcomp, ite_eq_false_swap]

theorem foldl_queryStep (L : Lib) (f : LogFilter) (all : List LogEntry) :
    ∀ acc, all.foldl (Ring.queryStep L f
        (if f.Regex = true ∧ f.Search ≠ "" then L.compile f.Search else none)
        (toLower L f.Search)) acc
      = acc ++ all.filter
          (fun e => passesCursor f e && passesLevel L f e && passesSearch L f e) := by
  induction all with
  | nil => intro acc; simp
  | cons e es ih =>
    intro acc
    rw [List.foldl_cons, queryStep_eq, ih]
    by_cases hp : (passesCursor f e && passesLevel L f e && passesSearch L f e) = true
    · rw [if_pos hp, List.filter_cons, if_pos hp, List.append_assoc, List.singleton_append]
    · rw [if_neg hp, List.filter_cons, if_neg hp]

/-- `Query` is its reference definition applied to the snapshot, in every state. -/
theorem query_eq_reference (L : Lib) (r : Ring) (f : LogFilter) :
    r.Query L f = (r.GetAll).map (fun all => queryReference L all f) := by
  unfold Ring.Query
  cases hget : r.GetAll with
  | none => rfl
  | some all =>
    simp only [Option.map_some', foldl_queryStep, List.nil_append, queryReference]
    congr 1
    generalize all.filter
      (fun e => passesCursor f e && passesLevel L f e && passesSearch L f e) = M
    by_cases hlim : f.Limit ≤ 0
    · have h1 : ¬ f.Limit > 0 := by omega
      simp only [hlim, h1, if_true, if_false]
      by_cases hm : M.length > 1000
      · have h2 : ((M.length : Int) > 1000) := by omega
        have h3 : min M.length 1000 = 1000 := by omega
        simp [hm, h2, h3]
      · have h2 : ¬ ((M.length : Int) > 1000) := by omega
        have h3 : min M.length 1000 = M.length := by omega
        simp [hm, h2, h3]
    · have h1 : f.Limit > 0 := by omega
      simp only [hlim, h1, if_true, if_false]
      by_cases hm : M.length > f.Limit.toNat
      · have h2 : ((M.length : Int) > f.Limit) := by omega
        have h3 : min M.length f.Limit.toNat = f.Limit.toNat := by omega
        simp [hm, h2, h3]
      · have h2 : ¬ ((M.length : Int) > f.Limit) := by omega
        have h3 : min M.length f.Limit.toNat = M.length := by omega
        simp [hm, h2, h3]

/-- In a reachable state `GetAll` does not panic. -/
theorem reachable_getAll {c : Nat} (hc : 0 < c) {r : Ring} (h : Reachable c r) :
    ∃ all, r.GetAll = some all := by
  obtain ⟨hist, n, hinv⟩ := reachable_inv hc h
  exact ⟨_, getAll_eq hinv⟩

theorem demoRing_reachable : Reachable 2 demoRing :=
  ⟨demoEntries.map Op.add, _, rfl⟩

/-- C4: for every ring state reachable by `Add` and `Clear` and every filter `f`, `GetAll`
returns a snapshot `all` and `Query(f)` returns the reference response on it: with `M` the
sublist of `all`, in the same order, of the entries passing the ID-cursor, level and search tests
of `f`, and `lim = f.Limit` if `f.Limit > 0` else 1000, `Logs` is the first `min(|M|, lim)`
elements of `M`, `Total = |M|` and `HasMore` holds iff `|M| > lim`. -/
theorem C4_query_is_reference (L : Lib) (c : Nat) (r : Ring) (f : LogFilter) (hc : 1 ≤ c)
    (hr : Reachable c r) :
    ∃ all, r.GetAll = some all ∧ r.Query L f = some (queryReference L all f) := by
  obtain ⟨all, hget⟩ := reachable_getAll hc hr
  exact ⟨all, hget, by rw [query_eq_reference, hget]; rfl⟩

/-- C4 at a concrete input: a query for `disk` at level `error` after ID 1 with limit 1 on the
demo ring returns the ERROR entry. -/
theorem C4_witness :
    (1 ≤ 2 ∧ Reachable 2 demoRing) ∧
    (∃ all, demoRing.GetAll = some all ∧
      demoRing.Query asciiLib ⟨"disk", ["error"], false, 1, 1⟩
        = some (queryReference asciiLib all ⟨"disk", ["error"], false, 1, 1⟩)) ∧
    (demoRing.Query asciiLib ⟨"disk", ["error"], false, 1, 1⟩).map
      (fun resp => (resp.Logs.map (fun e => e.ID), resp.Total, resp.HasMore))
        = some ([2], 1, false) ∧
    (demoRing.Query asciiLib ⟨"", [], false, 0, 1⟩).map
      (fun resp => (resp.Logs.map (fun e => e.ID), resp.Total, resp.HasMore))
        = some ([2], 2, true) :=
  ⟨⟨by decide, demoRing_reachable⟩,
    C4_query_is_reference asciiLib 2 demoRing ⟨"disk", ["error"], false, 1, 1⟩ (by decide)
      demoRing_reachable, by decide, by decide⟩

theorem mem_sinceClear (ops : List Op) :
    ∀ (hist : List LogEntry) (n : Nat) (x : LogEntry),
      x ∈ sinceClear hist n ops → x ∈ hist ∨ x ∈ issued n ops := by
  induction ops with
  | nil => intro hist n x hx; exact Or.inl hx
  | cons op ops ih =>
    intro hist n x hx
    cases op with
    | add e =>
      rcases ih _ _ x hx with h | h
      · rcases List.mem_append.mp h with h1 | h1
        · exact Or.inl h1
        · rw [List.mem_singleton] at h1
          exact Or.inr (by rw [h1]; exact List.mem_cons_self _ _)
      · exact Or.inr (List.mem_cons_of_mem _ h)
    | clear =>
      rcases ih _ _ x hx with h | h
      · exact absurd h (List.not_mem_nil _)
      · exact Or.inr h

/-- With fewer than `2 ^ 64` `Add`s every ID issued is positive. -/
theorem issued_id_pos (ops : List Op) (h : numAdds ops < 2 ^ 64) :
    ∀ x ∈ issued 0 ops, 0 < x.ID := by
  intro x hx
  have hmem : x.ID ∈ (issued 0 ops).map (fun x => x.ID) := List.mem_map_of_mem _ hx
  rw [issued_ids ops 0 (by omega), List.mem_range'_1] at hmem
  omega

/-- C5 (as amended): for every run of `Add` and `Clear` on a fresh `New(c)`, `c ≥ 1`, and every
filter with `AfterID = k`, whatever its other settings, no entry in the result of `Query` has
`ID ≤ k`, provided `k ≥ 1` or fewer than `2 ^ 64` entries were added in total. -/
theorem C5_query_after_cursor (L : Lib) (c : Nat) (ops : List Op) (f : LogFilter) (hc : 1 ≤ c)
    (h : numAdds ops < 2 ^ 64 ∨ 0 < f.AfterID) :
    ∃ r out resp, (New c).exec ops = some (r, out) ∧ r.Query L f = some resp ∧
      ∀ e ∈ resp.Logs, f.AfterID < e.ID := by
  obtain ⟨r, hex, hinv⟩ := exec_eq ops (ringInv_new c hc)
  have hget := getAll_eq hinv
  refine ⟨r, _, _, hex, by rw [query_eq_reference, hget]; rfl, ?_⟩
  intro e he
  have he1 := List.mem_of_mem_take he
  rw [List.mem_filter] at he1
  obtain ⟨hall, hpass⟩ := he1
  have hcur : passesCursor f e = true := by
    cases hpc : passesCursor f e
    · rw [hpc] at hpass; simp at hpass
    · rfl
  simp only [passesCursor, Bool.or_eq_true, decide_eq_true_eq] at hcur
  rcases hcur with h0 | hlt
  · rcases h with hN | hk
    · have hmem := List.mem_of_mem_drop hall
      rcases mem_sinceClear ops [] 0 e hmem with h1 | h1
      · exact absurd h1 (List.not_mem_nil _)
      · have := issued_id_pos ops hN e h1
        omega
    · omega
  · exact hlt

/-- C5 at a concrete input: the demo ring, reached by three `Add`s, queried after ID 2. -/
theorem C5_witness :
    (1 ≤ 2 ∧ (numAdds (demoEntries.map Op.add) < 2 ^ 64 ∨ 0 < (2 : Nat))) ∧
    (∃ r out resp, (New 2).exec (demoEntries.map Op.add) = some (r, out) ∧
      r.Query asciiLib ⟨"", [], false, 2, 0⟩ = some resp ∧
      ∀ e ∈ resp.Logs, (2 : Nat) < e.ID) ∧
    (demoRing.Query asciiLib ⟨"", [], false, 2, 0⟩).map
      (fun resp => resp.Logs.map (fun e => e.ID)) = some [3] :=
  ⟨⟨by decide, Or.inr (by decide)⟩,
    C5_query_after_cursor asciiLib 2 (demoEntries.map Op.add) ⟨"", [], false, 2, 0⟩ (by decide)
      (Or.inr (by decide)), by decide⟩

/-- C5 fails as stated once the ID counter wraps: after `2 ^ 64` calls to `Add` on `New(1)` the
held entry has ID 0, and `Query` with `AfterID = 0` returns it. -/
theorem C5_counterexample_id_zero :
    ∃ r out resp,
      (New 1).exec ((List.replicate (2 ^ 64) LogEntry.zero).map Op.add) = some (r, out) ∧
      r.Query asciiLib LogFilter.zero = some resp ∧ resp.Logs = [LogEntry.zero] ∧
      LogEntry.zero.ID ≤ LogFilter.zero.AfterID := by
  obtain ⟨r, out, hex, hget⟩ := getAll_at_wrap (2 ^ 64) (by norm_num) (by norm_num)
  refine ⟨r, out, _, hex, by rw [query_eq_reference, hget]; rfl, rfl, Nat.le_refl _⟩

/-! ## Search and level tests -/

/-- With a pattern that does not compile the search test is the substring test. -/
theorem passesSearch_not_compiling (L : Lib) (f : LogFilter) (e : LogEntry)
    (hbad : L.compile f.Search = none) :
    passesSearch L { f with Regex := true } e = passesSearch L { f with Regex := false } e := by
  simp [passesSearch, hbad]

/-- C6: for every ring state and every filter `f` whose `Search` is non-empty and does not
compile as a regular expression, `Query(f with Regex = true)` returns the same response (`Logs`,
`Total`, `HasMore`) as `Query(f with Regex = false)`; every entry it returns contains `Search`
in its raw text, ignoring case; and it returns a response whenever `GetAll` does, so in every
reachable state: the pattern error is never surfaced. -/
theorem C6_invalid_regex_is_substring_search (L : Lib) (r : Ring) (f : LogFilter)
    (hs : f.Search ≠ "") (hbad : L.compile f.Search = none) :
    r.Query L { f with Regex := true } = r.Query L { f with Regex := false } ∧
    (∀ resp, r.Query L { f with Regex := true } = some resp →
      ∀ e ∈ resp.Logs, contains (toLower L e.Raw) (toLower L f.Search) = true) ∧
    ((r.Query L { f with Regex := true }).isSome = (r.GetAll).isSome) ∧
    (∀ c, 1 ≤ c → Reachable c r → ∃ resp, r.Query L { f with Regex := true } = some resp) := by
  have hfun : (fun e => passesCursor { f with Regex := true } e &&
        passesLevel L { f with Regex := true } e && passesSearch L { f with Regex := true } e)
      = (fun e => passesCursor { f with Regex := false } e &&
        passesLevel L { f with Regex := false } e &&
        passesSearch L { f with Regex := false } e) := by
    funext e
    rw [passesSearch_not_compiling L f e hbad]
    rfl
  have heq : ∀ all, queryReference L all { f with Regex := true }
      = queryReference L all { f with Regex := false } := by
    intro all
    simp only [queryReference, hfun]
  refine ⟨?_, ?_, ?_, ?_⟩
  · rw [query_eq_reference, query_eq_reference]
    cases r.GetAll with
    | none => rfl
    | some all => simp only [Option.map_some', heq]
  · intro resp hresp e he
    rw [query_eq_reference] at hresp
    cases hget : r.GetAll with
    | none => rw [hget] at hresp; exact absurd hresp (by simp)
    | some all =>
      rw [hget, Option.map_some', heq] at hresp
      have hresp1 := Option.some.inj hresp
      rw [← hresp1] at he
      have he1 := List.mem_of_mem_take he
      rw [List.mem_filter] at he1
      have hpass := he1.2
      simp only [Bool.and_eq_true] at hpass
      have hsearch := hpass.2
      simpa [passesSearch, hs] using hsearch
  · rw [query_eq_reference]
    cases r.GetAll <;> rfl
  · intro c hc hr
    obtain ⟨all, hget⟩ := reachable_getAll hc hr
    exact ⟨_, by rw [query_eq_reference, hget]; rfl⟩

/-- C6 at a concrete input: the pattern `(SDA` does not compile, and the query on the demo
ring returns the entry whose raw text contains `(sda`. -/
theorem C6_witness :
    (unclosedGroupFilter.Search ≠ "" ∧ asciiLib.compile unclosedGroupFilter.Search = none) ∧
    (demoRing.Query asciiLib { unclosedGroupFilter with Regex := true }
        = demoRing.Query asciiLib { unclosedGroupFilter with Regex := false } ∧
      (∀ resp, demoRing.Query asciiLib { unclosedGroupFilter with Regex := true } = some resp →
        ∀ e ∈ resp.Logs,
          contains (toLower asciiLib e.Raw) (toLower asciiLib unclosedGroupFilter.Search)
            = true) ∧
      ((demoRing.Query asciiLib { unclosedGroupFilter with Regex := true }).isSome
        = (demoRing.GetAll).isSome) ∧
      (∀ c, 1 ≤ c → Reachable c demoRing →
        ∃ resp, demoRing.Query asciiLib { unclosedGroupFilter with Regex := true }
          = some resp)) ∧
    (demoRing.Query asciiLib unclosedGroupFilter).map
      (fun resp => (resp.Logs.map (fun e => e.ID), resp.Total, resp.HasMore))
        = some ([2], 1, false) :=
  ⟨⟨by decide, rfl⟩,
    C6_invalid_regex_is_substring_search asciiLib demoRing unclosedGroupFilter (by decide) rfl,
    by decide⟩

theorem levelFound_eq_containsLevel (L : Lib) (levels : List String) (level : String) :
    levelFound L levels level = containsLevel L levels level := by
  induction levels with
  | nil => rfl
  | cons l ls ih => simp only [levelFound, containsLevel, ih]

/-- C7 (as amended): for every entry `e` and every filter `f`, `matchesFilter(e, f)` gives the
same answer as the per-entry test that `Ring.Query` applies for `f` with the ID cursor and the
limit ignored and with `Regex` off (the hub always searches by case-insensitive substring),
except that an entry whose level is empty never matches a non-empty `Levels` list. -/
theorem C7_matchesFilter_vs_query_test (L : Lib) (e : LogEntry) (f : LogFilter) :
    matchesFilter L e f =
      (Ring.queryKeeps L { f with Regex := false } e &&
        (f.Levels.isEmpty ||
          match e.Parsed with
          | none => true
          | some p => decide (p.Level ≠ ""))) := by
  unfold matchesFilter Ring.queryKeeps Ring.queryStep
  simp only [levelFound_eq_containsLevel]
  by_cases hlv : f.Levels = []
  · by_cases hs : f.Search = ""
    · simp [hlv, hs]
    · cases hc : contains (toLower L e.Raw) (toLower L f.Search) <;> simp [hlv, hs, hc]
  · have hlen : f.Levels.length > 0 := List.length_pos.mpr hlv
    have hlen0 : ¬ f.Levels.length = 0 := by omega
    have hemp : f.Levels.isEmpty = false := by
      cases hl : f.Levels with
      | nil => exact absurd hl hlv
      | cons a b => rfl
    cases hp : e.Parsed with
    | none => simp [hlen, hlen0, hemp]
    | some p =>
      by_cases hlevel : p.Level = ""
      · simp [hlen, hlen0, hemp, hlevel]
      · cases hcl : containsLevel L f.Levels p.Level
        · simp [hlen, hlen0, hemp, hlevel, hcl]
        · by_cases hs : f.Search = ""
          · simp [hlen, hlen0, hemp, hlevel, hcl, hs]
          · cases hc : contains (toLower L e.Raw) (toLower L f.Search) <;>
              simp [hlen, hlen0, hemp, hlevel, hcl, hs, hc]

/-- C7 fails as stated: with `Levels = [""]` the test of `Query` keeps an entry whose level is
empty and `matchesFilter` rejects it; with `Regex` set and the pattern `a.c` the test of `Query`
keeps the raw text `abc` and `matchesFilter`, which looks for the text `a.c`, rejects it. -/
theorem C7_counterexample_empty_level_and_regex :
    (Ring.queryKeeps asciiLib ⟨"", [""], false, 0, 0⟩ demoC = true ∧
      matchesFilter asciiLib demoC ⟨"", [""], false, 0, 0⟩ = false) ∧
    (Ring.queryKeeps asciiLib ⟨"a.c", [], true, 0, 0⟩ ⟨7, ⟨0⟩, "abc", none⟩ = true ∧
      matchesFilter asciiLib ⟨7, ⟨0⟩, "abc", none⟩ ⟨"a.c", [], true, 0, 0⟩ = false) := by
  decide

/-- C8: a filter with empty `Search` and empty `Levels` matches every entry: `matchesFilter` is
true for every entry whatever `Regex`, `AfterID` and `Limit` are, and `Query` with such a filter
and `AfterID = 0` returns a response exactly when `GetAll` returns a snapshot, with `Total` the
number of entries of the snapshot. -/
theorem C8_empty_filter_matches_all (L : Lib) (e : LogEntry) (r : Ring) (f : LogFilter)
    (hs : f.Search = "") (hl : f.Levels = []) :
    matchesFilter L e f = true ∧
    (r.Query L { f with AfterID := 0 }).map (fun resp => resp.Total)
      = (r.GetAll).map (fun all => all.length) := by
  constructor
  · simp [matchesFilter, hs, hl]
  · rw [query_eq_reference]
    cases r.GetAll with
    | none => rfl
    | some all =>
      have hall : all.filter (fun e => passesCursor { f with AfterID := 0 } e &&
          passesLevel L { f with AfterID := 0 } e &&
          passesSearch L { f with AfterID := 0 } e) = all := by
        rw [List.filter_eq_self]
        intro a _
        simp [passesCursor, passesLevel, passesSearch, hs, hl]
      simp only [Option.map_some', queryReference, hall]

/-- C8 at a concrete input: the empty filter on the demo ring, which holds two entries. -/
theorem C8_witness :
    (LogFilter.zero.Search = "" ∧ LogFilter.zero.Levels = []) ∧
    (matchesFilter asciiLib demoC LogFilter.zero = true ∧
      (demoRing.Query asciiLib { LogFilter.zero with AfterID := 0 }).map (fun resp => resp.Total)
        = (demoRing.GetAll).map (fun all => all.length)) ∧
    (demoRing.Query asciiLib LogFilter.zero).map (fun resp => resp.Total) = some 2 :=
  ⟨⟨rfl, rfl⟩, C8_empty_filter_matches_all asciiLib demoC demoRing LogFilter.zero rfl rfl,
    by decide⟩

/-! ## Levels produced by the parser -/

theorem lookup_priority_pos (level : String)
    (h : 0 < (levelPriority.lookup level).getD 0) : level ∈ vocabulary := by
  by_cases h1 : level = "DEBUG"
  · simp [vocabulary, h1]
  by_cases h2 : level = "INFO"
  · simp [vocabulary, h2]
  by_cases h3 : level = "WARN"
  · simp [vocabulary, h3]
  by_cases h4 : level = "ERROR"
  · simp [vocabulary, h4]
  by_cases h5 : level = "FATAL"
  · simp [vocabulary, h5]
  exfalso
  have hl : levelPriority.lookup level = none := by
    have b1 : (level == "DEBUG") = false := by simpa using h1
    have b2 : (level == "INFO") = false := by simpa using h2
    have b3 : (level == "WARN") = false := by simpa using h3
    have b4 : (level == "ERROR") = false := by simpa using h4
    have b5 : (level == "FATAL") = false := by simpa using h5
    simp only [levelPriority, List.lookup, b1, b2, b3, b4, b5]
  rw [hl] at h
  exact absurd h (by decide)

theorem scanLevels_vocabulary (line : String) (visit : List (String × Regexp)) :
    ∀ st : Nat × String, (st.2 = "" ∨ st.2 ∈ vocabulary) →
      ((scanLevels line visit st).2 = "" ∨ (scanLevels line visit st).2 ∈ vocabulary) := by
  induction visit with
  | nil => intro st h; exact h
  | cons lp visit ih =>
    intro st h
    obtain ⟨level, pattern⟩ := lp
    obtain ⟨highest, parsedLevel⟩ := st
    unfold scanLevels
    by_cases hm : pattern.matchString line = true
    · rw [if_pos hm]
      by_cases hgt : (levelPriority.lookup level).getD 0 > highest
      · simp only [hgt, if_true]
        exact ih _ (Or.inr (lookup_priority_pos level (by omega)))
      · simp only [hgt, if_false]
        exact ih _ h
    · rw [if_neg hm]
      exact ih _ h

/-- The spellings that `normalizeLevel` maps into the vocabulary. -/
theorem normalizeLevel_cases (L : Lib) (s : String) :
    (normalizeLevel L s ∈ vocabulary ∧
      toUpper L (trimSpace L s) ∈ ["DEBUG", "DBG", "TRACE", "INFO", "INF", "INFORMATION",
        "WARN", "WRN", "WARNING", "ERROR", "ERR", "FATAL", "CRIT", "CRITICAL", "PANIC"]) ∨
    (normalizeLevel L s = toUpper L (trimSpace L s) ∧
      toUpper L (trimSpace L s) ∉ ["DEBUG", "DBG", "TRACE", "INFO", "INF", "INFORMATION",
        "WARN", "WRN", "WARNING", "ERROR", "ERR", "FATAL", "CRIT", "CRITICAL", "PANIC"]) := by
  unfold normalizeLevel
  generalize toUpper L (trimSpace L s) = u
  simp only [ite_self]
  by_cases h1 : u = "DBG" ∨ u = "TRACE"
  · left; rw [if_pos h1]; rcases h1 with h | h <;> simp [vocabulary, h]
  rw [if_neg h1]
  by_cases h2 : u = "INF" ∨ u = "INFORMATION"
  · left; rw [if_pos h2]; rcases h2 with h | h <;> simp [vocabulary, h]
  rw [if_neg h2]
  by_cases h3 : u = "WRN" ∨ u = "WARNING"
  · left; rw [if_pos h3]; rcases h3 with h | h <;> simp [vocabulary, h]
  rw [if_neg h3]
  by_cases h4 : u = "ERR"
  · left; rw [if_pos h4]; simp [vocabulary, h4]
  rw [if_neg h4]
  by_cases h5 : u = "CRIT" ∨ u = "CRITICAL" ∨ u = "PANIC"
  · left; rw [if_pos h5]; rcases h5 with h | h | h <;> simp [vocabulary, h]
  rw [if_neg h5]
  by_cases h6 : u ∈ vocabulary
  · left
    refine ⟨h6, ?_⟩
    simp only [vocabulary, List.mem_cons, List.mem_singleton, List.not_mem_nil, or_false] at h6
    rcases h6 with h | h | h | h | h <;> simp [h]
  · right
    refine ⟨rfl, ?_⟩
    simp only [vocabulary, List.mem_cons, List.mem_singleton, List.not_mem_nil, or_false,
      not_or] at h1 h2 h3 h4 h5 h6 ⊢
    tauto

theorem parseFields_level (L : Lib) (data : JMap) :
    (parseFields L data).Level =
      match takeString data ["level", "lvl", "severity", "log.level"] with
      | some (s, _) => normalizeLevel L s
      | none => "" := by
  unfold parseFields
  cases takeString data ["level", "lvl", "severity", "log.level"] with
  | none => rfl
  | some sd => rfl

theorem parseText_level_vocabulary (L : Lib) (visit : List (String × Regexp)) (now : Time)
    (line : String) :
    (parseText L visit now line).Level = "" ∨ (parseText L visit now line).Level ∈ vocabulary :=
  scanLevels_vocabulary line visit (0, "") (Or.inl rfl)

/-- C9 (as amended): for every input line `Parse` returns a parsed record whose level is empty,
or one of DEBUG, INFO, WARN, ERROR, FATAL, or, only when the line decodes as a structured map
with a string under a level key, the trimmed upper-cased form of that string; the text path
gives only an empty level or one of the vocabulary; and for every string `s`,
`normalizeLevel(s)` is in the vocabulary exactly when the trimmed upper-cased `s` is one of the
five names or of their ten synonyms, and is the trimmed upper-cased `s` itself otherwise. -/
theorem C9_parse_level_vocabulary (L : Lib) (visit : List (String × Regexp))
    (now nowText : Time) (line : String) :
    (∃ p, (Parse L visit now nowText line).Parsed = some p ∧
      (p.Level = "" ∨ p.Level ∈ vocabulary ∨
        ∃ data s rest, L.unmarshal (trimSpace L line) = some data ∧
          takeString data ["level", "lvl", "severity", "log.level"] = some (s, rest) ∧
          p.Level = toUpper L (trimSpace L s))) ∧
    ((parseText L visit nowText line).Level = "" ∨
      (parseText L visit nowText line).Level ∈ vocabulary) ∧
    (∀ s, (normalizeLevel L s ∈ vocabulary ↔
        toUpper L (trimSpace L s) ∈ ["DEBUG", "DBG", "TRACE", "INFO", "INF", "INFORMATION",
          "WARN", "WRN", "WARNING", "ERROR", "ERR", "FATAL", "CRIT", "CRITICAL", "PANIC"]) ∧
      (normalizeLevel L s ∈ vocabulary ∨ normalizeLevel L s = toUpper L (trimSpace L s))) := by
  refine ⟨?_, parseText_level_vocabulary L visit nowText line, ?_⟩
  · unfold Parse
    cases hj : parseJSON L line with
    | none =>
      refine ⟨_, rfl, ?_⟩
      rcases parseText_level_vocabulary L visit nowText line with h | h
      · exact Or.inl h
      · exact Or.inr (Or.inl h)
    | some parsed =>
      refine ⟨parsed, rfl, ?_⟩
      unfold parseJSON at hj
      by_cases hpre : hasPrefix (trimSpace L line) "\x7b" = false
      · simp [hpre] at hj
      · cases hd : L.unmarshal (trimSpace L line) with
        | none => simp [hpre, hd] at hj
        | some data =>
          simp only [hpre, hd, if_false] at hj
          have hparsed : parsed = parseFields L data := (Option.some.inj hj).symm
          rw [hparsed, parseFields_level]
          cases ht : takeString data ["level", "lvl", "severity", "log.level"] with
          | none => exact Or.inl rfl
          | some sd =>
            obtain ⟨s, rest⟩ := sd
            rcases normalizeLevel_cases L s with h | h
            · exact Or.inr (Or.inl h.1)
            · exact Or.inr (Or.inr ⟨data, s, rest, rfl, ht, h.1⟩)
  · intro s
    rcases normalizeLevel_cases L s with h | h
    · exact ⟨⟨fun _ => h.2, fun _ => h.1⟩, Or.inl h.1⟩
    · refine ⟨⟨fun hv => ?_, fun hu => absurd hu h.2⟩, Or.inr h.1⟩
      rw [h.1] at hv
      exact absurd (by
        simp only [vocabulary, List.mem_cons, List.mem_singleton, List.not_mem_nil,
          or_false] at hv ⊢
        tauto) h.2

/-- C9 fails as stated: the structured line with level `verbose` is parsed to the level
`VERBOSE`, which is neither empty nor one of DEBUG, INFO, WARN, ERROR, FATAL. -/
theorem C9_counterexample_unknown_level :
    normalizeLevel asciiLib "verbose" = "VERBOSE" ∧
    (Parse asciiLib (levelPatterns asciiLib) ⟨0⟩ ⟨0⟩ "\x7b\"level\":\"verbose\"\x7d").Parsed.map
      (fun p => p.Level) = some "VERBOSE" ∧
    "VERBOSE" ≠ "" ∧ "VERBOSE" ∉ vocabulary := by
  decide

/-- C10: for every string `s`, with `u` the upper-case of `s` with surrounding white space
trimmed: `normalizeLevel(s)` is DEBUG if `u` is DBG or TRACE, INFO if `u` is INF or INFORMATION,
WARN if `u` is WRN or WARNING, ERROR if `u` is ERR, FATAL if `u` is CRIT, CRITICAL or PANIC, and
`u` itself in every other case. -/
theorem C10_normalizeLevel_table (L : Lib) (s : String) :
    (toUpper L (trimSpace L s) = "DBG" ∨ toUpper L (trimSpace L s) = "TRACE" →
      normalizeLevel L s = "DEBUG") ∧
    (toUpper L (trimSpace L s) = "INF" ∨ toUpper L (trimSpace L s) = "INFORMATION" →
      normalizeLevel L s = "INFO") ∧
    (toUpper L (trimSpace L s) = "WRN" ∨ toUpper L (trimSpace L s) = "WARNING" →
      normalizeLevel L s = "WARN") ∧
    (toUpper L (trimSpace L s) = "ERR" → normalizeLevel L s = "ERROR") ∧
    (toUpper L (trimSpace L s) = "CRIT" ∨ toUpper L (trimSpace L s) = "CRITICAL" ∨
      toUpper L (trimSpace L s) = "PANIC" → normalizeLevel L s = "FATAL") ∧
    (toUpper L (trimSpace L s) ∉ ["DBG", "TRACE", "INF", "INFORMATION", "WRN", "WARNING", "ERR",
        "CRIT", "CRITICAL", "PANIC"] →
      normalizeLevel L s = toUpper L (trimSpace L s)) := by
  unfold normalizeLevel
  generalize toUpper L (trimSpace L s) = u
  simp only [ite_self]
  refine ⟨?_, ?_, ?_, ?_, ?_, ?_⟩
  · intro h; rw [if_pos h]
  · intro h; rcases h with h | h <;> subst h <;> decide
  · intro h; rcases h with h | h <;> subst h <;> decide
  · intro h; subst h; decide
  · intro h; rcases h with h | h | h <;> subst h <;> decide
  · intro h
    simp only [List.mem_cons, List.mem_singleton, List.not_mem_nil, or_false, not_or] at h
    obtain ⟨h1, h2, h3, h4, h5, h6, h7, h8, h9, h10⟩ := h
    simp [h1, h2, h3, h4, h5, h6, h7, h8, h9, h10]

/-- C10 at concrete inputs: `err` gives ERROR, ` Warning ` gives WARN, `notice` gives NOTICE. -/
theorem C10_witness :
    normalizeLevel asciiLib "err" = "ERROR" ∧ normalizeLevel asciiLib " Warning " = "WARN" ∧
    normalizeLevel asciiLib "notice" = "NOTICE" :=
  ⟨(C10_normalizeLevel_table asciiLib "err").2.2.2.1 (by decide),
    (C10_normalizeLevel_table asciiLib " Warning ").2.2.1 (Or.inr (by decide)),
    ((C10_normalizeLevel_table asciiLib "notice").2.2.2.2.2 (by decide)).trans (by decide)⟩

/-! ## The text path of the parser -/

/-- The state of the level loop of `parseText` after the patterns `visit`: the priority never
decreases, it bounds the priority of every pattern visited that matches, and either nothing
changed or the state is that of a pattern visited that matches. -/
theorem scanLevels_spec (line : String) (visit : List (String × Regexp)) :
    ∀ st : Nat × String,
      st.1 ≤ (scanLevels line visit st).1 ∧
      (∀ lp ∈ visit, lp.2.matchString line = true →
        priorityOf lp.1 ≤ (scanLevels line visit st).1) ∧
      (scanLevels line visit st = st ∨
        ∃ lp ∈ visit, lp.2.matchString line = true ∧
          priorityOf lp.1 = (scanLevels line visit st).1 ∧
          lp.1 = (scanLevels line visit st).2 ∧ st.1 < (scanLevels line visit st).1) := by
  induction visit with
  | nil => intro st; exact ⟨le_refl _, fun lp h => absurd h (List.not_mem_nil _), Or.inl rfl⟩
  | cons lp0 visit ih =>
    intro st
    obtain ⟨level, pattern⟩ := lp0
    obtain ⟨hp, lv⟩ := st
    by_cases hm : pattern.matchString line = true
    · by_cases hgt : priorityOf level > hp
      · have hstep : scanLevels line ((level, pattern) :: visit) (hp, lv)
            = scanLevels line visit (priorityOf level, level) := by
          simp only [scanLevels, hm, if_true]
          exact if_pos hgt
        rw [hstep]
        obtain ⟨h1, h2, h3⟩ := ih (priorityOf level, level)
        refine ⟨by simp only at h1 ⊢; omega, ?_, Or.inr ?_⟩
        · intro lp hlp hmatch
          rcases List.mem_cons.mp hlp with heq | hin
          · rw [heq]; exact h1
          · exact h2 lp hin hmatch
        · rcases h3 with heq | ⟨lp, hlp, hmatch, hprio, hlevel, hlt⟩
          · refine ⟨(level, pattern), List.mem_cons_self _ _, hm, ?_, ?_, ?_⟩
            · rw [heq]
            · rw [heq]
            · rw [heq]; exact hgt
          · exact ⟨lp, List.mem_cons_of_mem _ hlp, hmatch, hprio, hlevel, by
              simp only at hlt ⊢; omega⟩
      · have hstep : scanLevels line ((level, pattern) :: visit) (hp, lv)
            = scanLevels line visit (hp, lv) := by
          simp only [scanLevels, hm, if_true]
          exact if_neg hgt
        rw [hstep]
        obtain ⟨h1, h2, h3⟩ := ih (hp, lv)
        refine ⟨h1, ?_, ?_⟩
        · intro lp hlp hmatch
          rcases List.mem_cons.mp hlp with heq | hin
          · rw [heq]; simp only at h1 ⊢; omega
          · exact h2 lp hin hmatch
        · rcases h3 with heq | ⟨lp, hlp, hrest⟩
          · exact Or.inl heq
          · exact Or.inr ⟨lp, List.mem_cons_of_mem _ hlp, hrest⟩
    · have hstep : scanLevels line ((level, pattern) :: visit) (hp, lv)
          = scanLevels line visit (hp, lv) := by
        simp only [scanLevels, hm]
        rfl
      rw [hstep]
      obtain ⟨h1, h2, h3⟩ := ih (hp, lv)
      refine ⟨h1, ?_, ?_⟩
      · intro lp hlp hmatch
        rcases List.mem_cons.mp hlp with heq | hin
        · rw [heq] at hmatch; exact absurd hmatch hm
        · exact h2 lp hin hmatch
      · rcases h3 with heq | ⟨lp, hlp, hrest⟩
        · exact Or.inl heq
        · exact Or.inr ⟨lp, List.mem_cons_of_mem _ hlp, hrest⟩

/-- Every level of `levelPatterns` has a positive priority. -/
theorem levelPatterns_priority_pos (L : Lib) :
    ∀ lp ∈ levelPatterns L, 0 < priorityOf lp.1 := by
  intro lp hlp
  simp only [levelPatterns, List.mem_cons, List.mem_singleton, List.not_mem_nil,
    or_false] at hlp
  rcases hlp with h | h | h | h | h <;> rw [h] <;> dsimp only <;> decide

/-- Two levels of `levelPatterns` of the same priority are the same level. -/
theorem levelPatterns_priority_inj (L : Lib) :
    ∀ lp1 ∈ levelPatterns L, ∀ lp2 ∈ levelPatterns L,
      priorityOf lp1.1 = priorityOf lp2.1 → lp1.1 = lp2.1 := by
  intro lp1 h1 lp2 h2
  simp only [levelPatterns, List.mem_cons, List.mem_singleton, List.not_mem_nil,
    or_false] at h1 h2
  rcases h1 with h | h | h | h | h <;> rcases h2 with g | g | g | g | g <;> rw [h, g] <;>
    dsimp only <;> decide

/-- The level chosen by the text path when the patterns are visited in an order `visit` that
is a permutation of `levelPatterns`. -/
theorem scanLevels_most_severe (L : Lib) (visit : List (String × Regexp)) (line : String)
    (hperm : visit.Perm (levelPatterns L)) :
    ((∀ lp ∈ levelPatterns L, lp.2.matchString line = false) →
      (scanLevels line visit (0, "")).2 = "") ∧
    ((∃ lp ∈ levelPatterns L, lp.2.matchString line = true) →
      (∃ lp ∈ levelPatterns L, lp.2.matchString line = true ∧
        lp.1 = (scanLevels line visit (0, "")).2) ∧
      ∀ lp ∈ levelPatterns L, lp.2.matchString line = true →
        priorityOf lp.1 ≤ priorityOf (scanLevels line visit (0, "")).2) := by
  obtain ⟨-, h2, h3⟩ := scanLevels_spec line visit (0, "")
  constructor
  · intro hnone
    rcases h3 with heq | ⟨lp, hlp, hmatch, -⟩
    · rw [heq]
    · rw [hnone lp (hperm.mem_iff.mp hlp)] at hmatch
      exact absurd hmatch (by decide)
  · intro ⟨lp0, hlp0, hmatch0⟩
    have hpos : 0 < (scanLevels line visit (0, "")).1 :=
      lt_of_lt_of_le (levelPatterns_priority_pos L lp0 hlp0)
        (h2 lp0 (hperm.mem_iff.mpr hlp0) hmatch0)
    rcases h3 with heq | ⟨lp, hlp, hmatch, hprio, hlevel, -⟩
    · rw [heq] at hpos; exact absurd hpos (by decide)
    · refine ⟨⟨lp, hperm.mem_iff.mp hlp, hmatch, hlevel⟩, ?_⟩
      intro lp1 hlp1 hmatch1
      rw [← hlevel, hprio]
      exact h2 lp1 (hperm.mem_iff.mpr hlp1) hmatch1

/-- The level chosen does not depend on the order of the visit. -/
theorem scanLevels_order_independent (L : Lib) (visit1 visit2 : List (String × Regexp))
    (line : String) (h1 : visit1.Perm (levelPatterns L)) (h2 : visit2.Perm (levelPatterns L)) :
    (scanLevels line visit1 (0, "")).2 = (scanLevels line visit2 (0, "")).2 := by
  obtain ⟨hn1, hs1⟩ := scanLevels_most_severe L visit1 line h1
  obtain ⟨hn2, hs2⟩ := scanLevels_most_severe L visit2 line h2
  by_cases hex : ∃ lp ∈ levelPatterns L, lp.2.matchString line = true
  · obtain ⟨⟨lp1, hlp1, hm1, hl1⟩, hmax1⟩ := hs1 hex
    obtain ⟨⟨lp2, hlp2, hm2, hl2⟩, hmax2⟩ := hs2 hex
    have hle1 := hmax1 lp2 hlp2 hm2
    have hle2 := hmax2 lp1 hlp1 hm1
    rw [← hl1] at hle1
    rw [← hl2] at hle2
    rw [← hl1, ← hl2]
    exact levelPatterns_priority_inj L lp1 hlp1 lp2 hlp2 (le_antisymm hle2 hle1)
  · have hnone : ∀ lp ∈ levelPatterns L, lp.2.matchString line = false := by
      intro lp hlp
      cases hm : lp.2.matchString line
      · rfl
      · exact absurd ⟨lp, hlp, hm⟩ hex
    rw [hn1 hnone, hn2 hnone]

/-- C11: for every line, when the text path visits the level patterns in any order `visit` (a
permutation of `levelPatterns`), the level chosen by `parseText` is empty when no keyword
pattern matches the line, and otherwise is the level of a pattern that matches whose priority
(DEBUG < INFO < WARN < ERROR < FATAL) is at least that of every level whose pattern matches;
the result is the same for every other order of visit. -/
theorem C11_text_level_is_most_severe (L : Lib) (visit : List (String × Regexp)) (now : Time)
    (line : String) (hperm : visit.Perm (levelPatterns L)) :
    ((∀ lp ∈ levelPatterns L, lp.2.matchString line = false) →
      (parseText L visit now line).Level = "") ∧
    ((∃ lp ∈ levelPatterns L, lp.2.matchString line = true) →
      (∃ lp ∈ levelPatterns L, lp.2.matchString line = true ∧
        lp.1 = (parseText L visit now line).Level) ∧
      ∀ lp ∈ levelPatterns L, lp.2.matchString line = true →
        priorityOf lp.1 ≤ priorityOf (parseText L visit now line).Level) ∧
    (∀ visit2 : List (String × Regexp), visit2.Perm (levelPatterns L) →
      (parseText L visit2 now line).Level = (parseText L visit now line).Level) :=
  ⟨(scanLevels_most_severe L visit line hperm).1, (scanLevels_most_severe L visit line hperm).2,
    fun visit2 h2 => scanLevels_order_independent L visit2 visit line h2 hperm⟩

/-- C11 at a concrete input: the line with a timestamp and the keyword ERROR gives the level
ERROR, with the patterns visited in the order of the source and in the reverse order; a line
with the keywords of three levels gives the most severe of them. -/
theorem C11_witness :
    ((levelPatterns asciiLib).reverse.Perm (levelPatterns asciiLib)) ∧
    (((∀ lp ∈ levelPatterns asciiLib,
          lp.2.matchString "2024-01-15T10:30:00Z ERROR connection refused" = false) →
        (parseText asciiLib (levelPatterns asciiLib).reverse ⟨0⟩
          "2024-01-15T10:30:00Z ERROR connection refused").Level = "") ∧
      ((∃ lp ∈ levelPatterns asciiLib,
          lp.2.matchString "2024-01-15T10:30:00Z ERROR connection refused" = true) →
        (∃ lp ∈ levelPatterns asciiLib,
          lp.2.matchString "2024-01-15T10:30:00Z ERROR connection refused" = true ∧
          lp.1 = (parseText asciiLib (levelPatterns asciiLib).reverse ⟨0⟩
            "2024-01-15T10:30:00Z ERROR connection refused").Level) ∧
        ∀ lp ∈ levelPatterns asciiLib,
          lp.2.matchString "2024-01-15T10:30:00Z ERROR connection refused" = true →
          priorityOf lp.1 ≤ priorityOf (parseText asciiLib (levelPatterns asciiLib).reverse ⟨0⟩
            "2024-01-15T10:30:00Z ERROR connection refused").Level) ∧
      (∀ visit2 : List (String × Regexp), visit2.Perm (levelPatterns asciiLib) →
        (parseText asciiLib visit2 ⟨0⟩
          "2024-01-15T10:30:00Z ERROR connection refused").Level
        = (parseText asciiLib (levelPatterns asciiLib).reverse ⟨0⟩
          "2024-01-15T10:30:00Z ERROR connection refused").Level)) ∧
    (parseText asciiLib (levelPatterns asciiLib) ⟨0⟩
      "2024-01-15T10:30:00Z ERROR connection refused").Level = "ERROR" ∧
    (parseText asciiLib (levelPatterns asciiLib).reverse ⟨0⟩
      "2024-01-15T10:30:00Z ERROR connection refused").Level = "ERROR" ∧
    (parseText asciiLib (levelPatterns asciiLib) ⟨0⟩
      "warning: retry after err, debug info follows").Level = "ERROR" ∧
    (parseText asciiLib (levelPatterns asciiLib).reverse ⟨0⟩
      "warning: retry after err, debug info follows").Level = "ERROR" :=
  ⟨List.reverse_perm _,
    C11_text_level_is_most_severe asciiLib (levelPatterns asciiLib).reverse ⟨0⟩
      "2024-01-15T10:30:00Z ERROR connection refused" (List.reverse_perm _),
    by decide, by decide, by decide, by decide⟩

theorem scanTimestamps_none (L : Lib) (now : Time) (line : String)
    (patterns : List (Regexp × String))
    (h : ∀ tp ∈ patterns, tp.1.findString line = "") :
    scanTimestamps L now line patterns = none := by
  induction patterns with
  | nil => rfl
  | cons tp rest ih =>
    obtain ⟨pattern, layout⟩ := tp
    have h0 : pattern.findString line = "" := h (pattern, layout) (List.mem_cons_self _ _)
    simp only [scanTimestamps, h0, ne_eq, not_true_eq_false, if_false]
    exact ih (fun tp htp => h tp (List.mem_cons_of_mem _ htp))

/-- What `Parse` returns for a line that `parseJSON` does not decode. -/
theorem parse_text_path (L : Lib) (visit : List (String × Regexp)) (now nowText : Time)
    (line : String) (h : parseJSON L line = none) :
    Parse L visit now nowText line
      = { ID := 0, Timestamp := now, Raw := line,
          Parsed := some (parseText L visit nowText line) } := by
  simp only [Parse, h]

theorem parse_raw (L : Lib) (visit : List (String × Regexp)) (now nowText : Time)
    (line : String) : (Parse L visit now nowText line).Raw = line := by
  unfold Parse
  cases parseJSON L line <;> rfl

/-- C12: for every line, `Parse` returns an entry whose raw equals the line and whose parsed
record is present; for every line that is not decoded as a structured map (`parseJSON` gives
nil) the parsed message equals the whole line, and if in addition no level keyword pattern
matches and no timestamp pattern finds a match, the level is empty and the time is absent. -/
theorem C12_parse_plain_line (L : Lib) (visit : List (String × Regexp)) (now nowText : Time)
    (line : String) (hperm : visit.Perm (levelPatterns L)) :
    (Parse L visit now nowText line).Raw = line ∧
    ∃ p, (Parse L visit now nowText line).Parsed = some p ∧
      (parseJSON L line = none →
        p.Message = line ∧
        ((∀ lp ∈ levelPatterns L, lp.2.matchString line = false) →
          (∀ tp ∈ timestampPatterns L, tp.1.findString line = "") →
          p.Level = "" ∧ p.Time = none)) := by
  refine ⟨parse_raw L visit now nowText line, ?_⟩
  cases hj : parseJSON L line with
  | some parsed =>
    refine ⟨parsed, by simp only [Parse, hj], fun h => absurd h (by simp)⟩
  | none =>
    refine ⟨parseText L visit nowText line, by rw [parse_text_path L visit now nowText line hj],
      fun _ => ⟨rfl, fun hlev hts => ⟨?_, ?_⟩⟩⟩
    · exact (scanLevels_most_severe L visit line hperm).1 hlev
    · exact scanTimestamps_none L nowText line (timestampPatterns L) hts

/-- C12 at a concrete input: `just some text` is not structured, matches no keyword and no
timestamp pattern, and is parsed to an empty level, no time and the whole line as message. -/
theorem C12_witness :
    ((levelPatterns asciiLib).Perm (levelPatterns asciiLib)) ∧
    ((Parse asciiLib (levelPatterns asciiLib) ⟨1⟩ ⟨2⟩ "just some text").Raw = "just some text" ∧
      ∃ p, (Parse asciiLib (levelPatterns asciiLib) ⟨1⟩ ⟨2⟩ "just some text").Parsed = some p ∧
        (parseJSON asciiLib "just some text" = none →
          p.Message = "just some text" ∧
          ((∀ lp ∈ levelPatterns asciiLib, lp.2.matchString "just some text" = false) →
            (∀ tp ∈ timestampPatterns asciiLib, tp.1.findString "just some text" = "") →
            p.Level = "" ∧ p.Time = none))) ∧
    (parseJSON asciiLib "just some text").isNone = true ∧
    (∀ lp ∈ levelPatterns asciiLib, lp.2.matchString "just some text" = false) ∧
    (∀ tp ∈ timestampPatterns asciiLib, tp.1.findString "just some text" = "") ∧
    (Parse asciiLib (levelPatterns asciiLib) ⟨1⟩ ⟨2⟩ "just some text").Parsed.map
      (fun p => (p.Level, p.Message, p.Time)) = some ("", "just some text", none) :=
  ⟨List.Perm.refl _,
    C12_parse_plain_line asciiLib (levelPatterns asciiLib) ⟨1⟩ ⟨2⟩ "just some text"
      (List.Perm.refl _),
    by decide, by decide, by decide, by decide⟩

theorem parseJSON_malformed (L : Lib) (line : String)
    (hdec : L.unmarshal (trimSpace L line) = none) : parseJSON L line = none := by
  unfold parseJSON
  simp only [hdec, ite_self]

/-- C13 (as amended): for every malformed input line (one that begins with an open brace after
trimming but fails to decode as a key/value map), `Parse` returns the record of the text path:
the message is the raw line; the level is empty when no level keyword pattern matches the line
and is otherwise the level of a matching pattern; the time is absent when no timestamp pattern
finds a match in the line. -/
theorem C13_malformed_line_takes_text_path (L : Lib) (visit : List (String × Regexp))
    (now nowText : Time) (line : String) (hperm : visit.Perm (levelPatterns L))
    (hpre : hasPrefix (trimSpace L line) "\x7b" = true)
    (hdec : L.unmarshal (trimSpace L line) = none) :
    Parse L visit now nowText line
      = { ID := 0, Timestamp := now, Raw := line,
          Parsed := some (parseText L visit nowText line) } ∧
    (parseText L visit nowText line).Message = line ∧
    ((∀ lp ∈ levelPatterns L, lp.2.matchString line = false) →
      (parseText L visit nowText line).Level = "") ∧
    ((∃ lp ∈ levelPatterns L, lp.2.matchString line = true) →
      ∃ lp ∈ levelPatterns L, lp.2.matchString line = true ∧
        lp.1 = (parseText L visit nowText line).Level) ∧
    ((∀ tp ∈ timestampPatterns L, tp.1.findString line = "") →
      (parseText L visit nowText line).Time = none) := by
  have _ := hpre
  exact ⟨parse_text_path L visit now nowText line (parseJSON_malformed L line hdec), rfl,
    (scanLevels_most_severe L visit line hperm).1,
    fun h => ((scanLevels_most_severe L visit line hperm).2 h).1,
    scanTimestamps_none L nowText line (timestampPatterns L)⟩

/-- C13 at a concrete input: a line with an open brace that is not a map and has no keyword and
no timestamp is parsed to an empty level, no time and the raw line as message. -/
theorem C13_witness :
    ((levelPatterns asciiLib).Perm (levelPatterns asciiLib) ∧
      hasPrefix (trimSpace asciiLib " \x7bnot json") "\x7b" = true ∧
      asciiLib.unmarshal (trimSpace asciiLib " \x7bnot json") = none) ∧
    (Parse asciiLib (levelPatterns asciiLib) ⟨1⟩ ⟨2⟩ " \x7bnot json"
        = { ID := 0, Timestamp := ⟨1⟩, Raw := " \x7bnot json",
            Parsed := some (parseText asciiLib (levelPatterns asciiLib) ⟨2⟩ " \x7bnot json") } ∧
      (parseText asciiLib (levelPatterns asciiLib) ⟨2⟩ " \x7bnot json").Message
        = " \x7bnot json" ∧
      ((∀ lp ∈ levelPatterns asciiLib, lp.2.matchString " \x7bnot json" = false) →
        (parseText asciiLib (levelPatterns asciiLib) ⟨2⟩ " \x7bnot json").Level = "") ∧
      ((∃ lp ∈ levelPatterns asciiLib, lp.2.matchString " \x7bnot json" = true) →
        ∃ lp ∈ levelPatterns asciiLib, lp.2.matchString " \x7bnot json" = true ∧
          lp.1 = (parseText asciiLib (levelPatterns asciiLib) ⟨2⟩ " \x7bnot json").Level) ∧
      ((∀ tp ∈ timestampPatterns asciiLib, tp.1.findString " \x7bnot json" = "") →
        (parseText asciiLib (levelPatterns asciiLib) ⟨2⟩ " \x7bnot json").Time = none)) ∧
    (Parse asciiLib (levelPatterns asciiLib) ⟨1⟩ ⟨2⟩ " \x7bnot json").Parsed.map
      (fun p => (p.Level, p.Message, p.Time)) = some ("", " \x7bnot json", none) :=
  ⟨⟨List.Perm.refl _, by decide, rfl⟩,
    C13_malformed_line_takes_text_path asciiLib (levelPatterns asciiLib) ⟨1⟩ ⟨2⟩
      " \x7bnot json" (List.Perm.refl _) (by decide) rfl,
    by decide⟩

/-- C13 fails as stated: the line `{"msg": ERROR at 2024-01-15T10:30:00Z` begins with an open
brace and does not decode as a map, and `Parse` returns the level ERROR and the time of the
timestamp, not an empty level and an absent time. -/
theorem C13_counterexample_keyword_in_malformed_line :
    hasPrefix (trimSpace asciiLib "\x7b\"msg\": ERROR at 2024-01-15T10:30:00Z") "\x7b" = true ∧
    (asciiLib.unmarshal
      (trimSpace asciiLib "\x7b\"msg\": ERROR at 2024-01-15T10:30:00Z")).isNone = true ∧
    (Parse asciiLib (levelPatterns asciiLib) ⟨1⟩ ⟨2⟩
      "\x7b\"msg\": ERROR at 2024-01-15T10:30:00Z").Parsed.map (fun p => (p.Level, p.Time))
        = some ("ERROR", some ⟨1705314600000000000⟩) := by
  decide

/-! ## The structured path of the parser -/

theorem get_delete_ne (d : JMap) (k k0 : String) (h : k ≠ k0) :
    (d.delete k0).get k = d.get k := by
  unfold JMap.get JMap.delete
  induction d with
  | nil => rfl
  | cons kv d ih =>
    obtain ⟨a, v⟩ := kv
    by_cases ha : a = k0
    · subst ha
      have hk : (k == a) = false := beq_false_of_ne h
      simp only [List.filter_cons, bne_self_eq_false, Bool.false_eq_true, if_false,
        List.lookup_cons, hk]
      exact ih
    · have hne : (a != k0) = true := bne_iff_ne.mpr ha
      simp only [List.filter_cons, hne, if_true, List.lookup_cons]
      cases k == a
      · exact ih
      · rfl

theorem get_delete_self (d : JMap) (k : String) : (d.delete k).get k = none := by
  unfold JMap.get JMap.delete
  induction d with
  | nil => rfl
  | cons kv d ih =>
    obtain ⟨a, v⟩ := kv
    by_cases ha : a = k
    · subst ha
      simp only [List.filter_cons, bne_self_eq_false, Bool.false_eq_true, if_false]
      exact ih
    · have hne : (a != k) = true := bne_iff_ne.mpr ha
      have hk : (k == a) = false := beq_false_of_ne (fun h => ha h.symm)
      simp only [List.filter_cons, hne, if_true, List.lookup_cons, hk]
      exact ih

/-- The map left by a loop over the synonyms of a string field is the map without the first
synonym that holds a string. -/
theorem restOf_takeString (d : JMap) (keys : List String) :
    restOf d (takeString d keys) = dropKey d (firstString d keys) := by
  induction keys with
  | nil => rfl
  | cons key keys ih =>
    unfold takeString firstString
    cases hg : d.get key with
    | none =>
      simp only [List.find?_cons, hg]
      exact ih
    | some v =>
      cases v with
      | str s => simp only [List.find?_cons, hg, JVal.isStr]; rfl
      | null => simp only [List.find?_cons, hg, JVal.isStr]; exact ih
      | bool b => simp only [List.find?_cons, hg, JVal.isStr]; exact ih
      | num q => simp only [List.find?_cons, hg, JVal.isStr]; exact ih
      | arr items => simp only [List.find?_cons, hg, JVal.isStr]; exact ih
      | obj members => simp only [List.find?_cons, hg, JVal.isStr]; exact ih

/-- The map left by the loop over the synonyms of time is the map without the first synonym
that is present. -/
theorem takeTime_rest (L : Lib) (d : JMap) (keys : List String) :
    (takeTime L d keys).2 = dropKey d (firstPresent d keys) := by
  induction keys with
  | nil => rfl
  | cons key keys ih =>
    unfold takeTime firstPresent
    cases hg : d.get key with
    | none =>
      simp only [List.find?_cons, hg, Option.isSome_none]
      exact ih
    | some v => simp only [List.find?_cons, hg, Option.isSome_some]; rfl

/-- The time extracted by the loop over the synonyms of time comes from the value under the
first synonym that is present. -/
theorem takeTime_time (L : Lib) (d : JMap) (keys : List String) :
    (takeTime L d keys).1
      = (firstPresent d keys).bind (fun k => (d.get k).bind (timeOfValue L)) := by
  induction keys with
  | nil => rfl
  | cons key keys ih =>
    unfold takeTime firstPresent
    cases hg : d.get key with
    | none =>
      simp only [List.find?_cons, hg, Option.isSome_none]
      exact ih
    | some v =>
      simp only [List.find?_cons, hg, Option.isSome_some]
      show timeOfValue L v = (d.get key).bind (timeOfValue L)
      rw [hg]
      rfl

/-- A key found by `firstString` or `firstPresent` is one of the synonyms searched. -/
theorem firstString_mem (d : JMap) (keys : List String) (k : String)
    (h : firstString d keys = some k) : k ∈ keys :=
  List.mem_of_find?_eq_some h

theorem firstPresent_mem (d : JMap) (keys : List String) (k : String)
    (h : firstPresent d keys = some k) : k ∈ keys :=
  List.mem_of_find?_eq_some h

theorem find?_congr_mem {α : Type} (p q : α → Bool) (l : List α)
    (h : ∀ a ∈ l, p a = q a) : l.find? p = l.find? q := by
  induction l with
  | nil => rfl
  | cons a l ih =>
    simp only [List.find?_cons, h a (List.mem_cons_self _ _)]
    rw [ih (fun b hb => h b (List.mem_cons_of_mem _ hb))]

/-- Deleting a key that is not among the synonyms searched does not change what is found. -/
theorem firstString_dropKey (d : JMap) (keys : List String) (ok : Option String)
    (h : ∀ k, ok = some k → k ∉ keys) :
    firstString (dropKey d ok) keys = firstString d keys := by
  cases ok with
  | none => rfl
  | some k0 =>
    unfold firstString dropKey
    apply find?_congr_mem
    intro k hk
    have hne : k ≠ k0 := fun heq => h k0 rfl (heq ▸ hk)
    rw [get_delete_ne d k k0 hne]

theorem firstPresent_dropKey (d : JMap) (keys : List String) (ok : Option String)
    (h : ∀ k, ok = some k → k ∉ keys) :
    firstPresent (dropKey d ok) keys = firstPresent d keys := by
  cases ok with
  | none => rfl
  | some k0 =>
    unfold firstPresent dropKey
    apply find?_congr_mem
    intro k hk
    have hne : k ≠ k0 := fun heq => h k0 rfl (heq ▸ hk)
    rw [get_delete_ne d k k0 hne]

/-- The string extracted by a loop over the synonyms of a string field is not changed by
deleting a key that is not among the synonyms. -/
theorem textOf_takeString_delete (d : JMap) (keys : List String) (k0 : String)
    (h : k0 ∉ keys) :
    textOf (takeString (d.delete k0) keys) = textOf (takeString d keys) := by
  induction keys with
  | nil => rfl
  | cons key keys ih =>
    have hne : key ≠ k0 := fun heq => h (heq ▸ List.mem_cons_self _ _)
    have hrest : k0 ∉ keys := fun hin => h (List.mem_cons_of_mem _ hin)
    unfold takeString
    rw [get_delete_ne d key k0 hne]
    cases hg : d.get key with
    | none => exact ih hrest
    | some v =>
      cases v with
      | str s => rfl
      | null => exact ih hrest
      | bool b => exact ih hrest
      | num q => exact ih hrest
      | arr items => exact ih hrest
      | obj members => exact ih hrest

theorem textOf_takeString_dropKey (d : JMap) (keys : List String) (ok : Option String)
    (h : ∀ k, ok = some k → k ∉ keys) :
    textOf (takeString (dropKey d ok) keys) = textOf (takeString d keys) := by
  cases ok with
  | none => rfl
  | some k0 => exact textOf_takeString_delete d keys k0 (h k0 rfl)

/-- The record `parseFields` builds, loop by loop. -/
theorem parseFields_eq (L : Lib) (d : JMap) :
    parseFields L d =
      { Time := (takeTime L (restOf (restOf d (takeString d levelKeys))
            (takeString (restOf d (takeString d levelKeys)) messageKeys)) timeKeys).1
        Level := match takeString d levelKeys with
          | some (s, _) => normalizeLevel L s
          | none => ""
        Message := textOf (takeString (restOf d (takeString d levelKeys)) messageKeys)
        Source := textOf (takeString (takeTime L (restOf (restOf d (takeString d levelKeys))
            (takeString (restOf d (takeString d levelKeys)) messageKeys)) timeKeys).2
              sourceKeys)
        Fields :=
          if (restOf (takeTime L (restOf (restOf d (takeString d levelKeys))
              (takeString (restOf d (takeString d levelKeys)) messageKeys)) timeKeys).2
              (takeString (takeTime L (restOf (restOf d (takeString d levelKeys))
                (takeString (restOf d (takeString d levelKeys)) messageKeys)) timeKeys).2
                sourceKeys)).length > 0
          then restOf (takeTime L (restOf (restOf d (takeString d levelKeys))
              (takeString (restOf d (takeString d levelKeys)) messageKeys)) timeKeys).2
              (takeString (takeTime L (restOf (restOf d (takeString d levelKeys))
                (takeString (restOf d (takeString d levelKeys)) messageKeys)) timeKeys).2
                sourceKeys)
          else [] } := by
  unfold parseFields
  show _ = _
  cases h1 : takeString d levelKeys with
  | none =>
    rw [show takeString d ["level", "lvl", "severity", "log.level"] = none from h1]
    simp only [restOf]
    cases h2 : takeString d messageKeys with
    | none =>
      rw [show takeString d ["msg", "message", "text", "log"] = none from h2]
      simp only [restOf, textOf]
      cases h4 : takeString (takeTime L d timeKeys).2 sourceKeys with
      | none =>
        rw [show takeString (takeTime L d ["time", "timestamp", "ts", "@timestamp",
          "datetime"]).2 ["logger", "source", "name", "caller", "component"] = none from h4]
        rfl
      | some r4 =>
        rw [show takeString (takeTime L d ["time", "timestamp", "ts", "@timestamp",
          "datetime"]).2 ["logger", "source", "name", "caller", "component"] = some r4 from h4]
        rfl
    | some r2 =>
      rw [show takeString d ["msg", "message", "text", "log"] = some r2 from h2]
      obtain ⟨s2, d2⟩ := r2
      simp only [restOf, textOf]
      cases h4 : takeString (takeTime L d2 timeKeys).2 sourceKeys with
      | none =>
        rw [show takeString (takeTime L d2 ["time", "timestamp", "ts", "@timestamp",
          "datetime"]).2 ["logger", "source", "name", "caller", "component"] = none from h4]
        rfl
      | some r4 =>
        rw [show takeString (takeTime L d2 ["time", "timestamp", "ts", "@timestamp",
          "datetime"]).2 ["logger", "source", "name", "caller", "component"] = some r4 from h4]
        rfl
  | some r1 =>
    rw [show takeString d ["level", "lvl", "severity", "log.level"] = some r1 from h1]
    obtain ⟨s1, d1⟩ := r1
    simp only [restOf]
    cases h2 : takeString d1 messageKeys with
    | none =>
      rw [show takeString d1 ["msg", "message", "text", "log"] = none from h2]
      simp only [restOf, textOf]
      cases h4 : takeString (takeTime L d1 timeKeys).2 sourceKeys with
      | none =>
        rw [show takeString (takeTime L d1 ["time", "timestamp", "ts", "@timestamp",
          "datetime"]).2 ["logger", "source", "name", "caller", "component"] = none from h4]
        rfl
      | some r4 =>
        rw [show takeString (takeTime L d1 ["time", "timestamp", "ts", "@timestamp",
          "datetime"]).2 ["logger", "source", "name", "caller", "component"] = some r4 from h4]
        rfl
    | some r2 =>
      rw [show takeString d1 ["msg", "message", "text", "log"] = some r2 from h2]
      obtain ⟨s2, d2⟩ := r2
      simp only [restOf, textOf]
      cases h4 : takeString (takeTime L d2 timeKeys).2 sourceKeys with
      | none =>
        rw [show takeString (takeTime L d2 ["time", "timestamp", "ts", "@timestamp",
          "datetime"]).2 ["logger", "source", "name", "caller", "component"] = none from h4]
        rfl
      | some r4 =>
        rw [show takeString (takeTime L d2 ["time", "timestamp", "ts", "@timestamp",
          "datetime"]).2 ["logger", "source", "name", "caller", "component"] = some r4 from h4]
        rfl

/-- The synonyms of different fields are different keys. -/
theorem keys_disjoint :
    (∀ k ∈ levelKeys, k ∉ messageKeys ∧ k ∉ timeKeys ∧ k ∉ sourceKeys) ∧
    (∀ k ∈ messageKeys, k ∉ levelKeys ∧ k ∉ timeKeys ∧ k ∉ sourceKeys) ∧
    (∀ k ∈ timeKeys, k ∉ levelKeys ∧ k ∉ messageKeys ∧ k ∉ sourceKeys) := by
  decide

theorem dropKey_eq_filter (d : JMap) (ok : Option String) :
    dropKey d ok = d.filter (fun kv => decide (kv.1 ∉ ok.toList)) := by
  cases ok with
  | none =>
    simp only [dropKey, Option.toList, List.not_mem_nil, not_false_eq_true, decide_True,
      List.filter_true]
  | some k =>
    simp only [dropKey, JMap.delete, Option.toList, List.mem_singleton]
    apply List.filter_congr
    intro kv _
    by_cases h : kv.1 = k
    · simp [h]
    · simp [h]

/-- Four loops in a row leave the map without the keys they took. -/
theorem dropKey_four (d : JMap) (a b c e : Option String) :
    dropKey (dropKey (dropKey (dropKey d a) b) c) e
      = d.filter (fun kv => decide (kv.1 ∉ a.toList ++ b.toList ++ c.toList ++ e.toList)) := by
  rw [dropKey_eq_filter, dropKey_eq_filter, dropKey_eq_filter, dropKey_eq_filter,
    List.filter_filter, List.filter_filter, List.filter_filter]
  apply List.filter_congr
  intro kv _
  simp only [List.mem_append, not_or, Bool.decide_and, Bool.and_assoc]
  cases decide (kv.1 ∉ a.toList) <;> cases decide (kv.1 ∉ b.toList) <;>
    cases decide (kv.1 ∉ c.toList) <;> cases decide (kv.1 ∉ e.toList) <;> rfl

/-- Reading a key in a map filtered by a test on the keys. -/
theorem get_filter_key (d : JMap) (p : String → Bool) (k : String) :
    JMap.get (d.filter (fun kv => p kv.1)) k = if p k = true then d.get k else none := by
  unfold JMap.get
  induction d with
  | nil => simp
  | cons kv d ih =>
    obtain ⟨a, v⟩ := kv
    by_cases hka : k = a
    · subst hka
      cases hp : p k
      · simp only [List.filter_cons, hp, Bool.false_eq_true, if_false]
        rw [ih]
        simp [hp]
      · simp only [List.filter_cons, hp, if_true, List.lookup_cons, beq_self_eq_true]
    · have hk : (k == a) = false := beq_false_of_ne hka
      cases hpa : p a
      · simp only [List.filter_cons, hpa, Bool.false_eq_true, if_false, List.lookup_cons, hk]
        exact ih
      · simp only [List.filter_cons, hpa, if_true, List.lookup_cons, hk]
        exact ih

/-- The keys the loops of `parseFields` take are the consumed keys of the decoded map, and the
map left is the decoded map without them. -/
theorem parseFields_rest (L : Lib) (d : JMap) :
    restOf (takeTime L (restOf (restOf d (takeString d levelKeys))
        (takeString (restOf d (takeString d levelKeys)) messageKeys)) timeKeys).2
        (takeString (takeTime L (restOf (restOf d (takeString d levelKeys))
          (takeString (restOf d (takeString d levelKeys)) messageKeys)) timeKeys).2
          sourceKeys)
      = d.filter (fun kv => decide (kv.1 ∉ consumedKeys d)) := by
  obtain ⟨hl, hm, ht⟩ := keys_disjoint
  have e1 : restOf d (takeString d levelKeys) = dropKey d (firstString d levelKeys) :=
    restOf_takeString d levelKeys
  have ka : ∀ k, firstString d levelKeys = some k → k ∈ levelKeys :=
    fun k h => firstString_mem d levelKeys k h
  have f2 : firstString (dropKey d (firstString d levelKeys)) messageKeys
      = firstString d messageKeys :=
    firstString_dropKey d messageKeys _ (fun k h => (hl k (ka k h)).1)
  have kb : ∀ k, firstString d messageKeys = some k → k ∈ messageKeys :=
    fun k h => firstString_mem d messageKeys k h
  have f3 : firstPresent (dropKey (dropKey d (firstString d levelKeys))
      (firstString d messageKeys)) timeKeys = firstPresent d timeKeys := by
    rw [firstPresent_dropKey _ timeKeys _ (fun k h => (hm k (kb k h)).2.1),
      firstPresent_dropKey _ timeKeys _ (fun k h => (hl k (ka k h)).2.1)]
  have kc : ∀ k, firstPresent d timeKeys = some k → k ∈ timeKeys :=
    fun k h => firstPresent_mem d timeKeys k h
  have f4 : firstString (dropKey (dropKey (dropKey d (firstString d levelKeys))
      (firstString d messageKeys)) (firstPresent d timeKeys)) sourceKeys
        = firstString d sourceKeys := by
    rw [firstString_dropKey _ sourceKeys _ (fun k h => (ht k (kc k h)).2.2),
      firstString_dropKey _ sourceKeys _ (fun k h => (hm k (kb k h)).2.2),
      firstString_dropKey _ sourceKeys _ (fun k h => (hl k (ka k h)).2.2)]
  simp only [restOf_takeString, takeTime_rest, f2, f3, f4, dropKey_four]
  rfl

theorem ite_length_pos {α : Type} (l : List α) : (if l.length > 0 then l else []) = l := by
  cases l with
  | nil => rfl
  | cons a l => simp

/-- The fields map `parseFields` stores: the decoded map without the consumed keys. -/
theorem parseFields_fields (L : Lib) (d : JMap) :
    (parseFields L d).Fields = d.filter (fun kv => decide (kv.1 ∉ consumedKeys d)) := by
  rw [parseFields_eq]
  simp only [ite_length_pos]
  exact parseFields_rest L d

/-- What `parseJSON` and `Parse` return for a line that decodes to the map `d`. -/
theorem parseJSON_decoded (L : Lib) (line : String) (d : JMap)
    (hpre : hasPrefix (trimSpace L line) "\x7b" = true)
    (hdec : L.unmarshal (trimSpace L line) = some d) :
    parseJSON L line = some (parseFields L d) := by
  unfold parseJSON
  simp only [hpre, hdec, Bool.true_eq_false, if_false]

theorem parse_decoded (L : Lib) (visit : List (String × Regexp)) (now nowText : Time)
    (line : String) (d : JMap) (hpre : hasPrefix (trimSpace L line) "\x7b" = true)
    (hdec : L.unmarshal (trimSpace L line) = some d) :
    (Parse L visit now nowText line).Parsed = some (parseFields L d) := by
  simp only [Parse, parseJSON_decoded L line d hpre hdec]

/-- C14: for every line that decodes to a key/value map `d`, the fields map of the record
`Parse` returns is `d` with exactly the consumed keys removed, every other key kept with its
value unchanged and in its place, where the consumed keys are, for each of level, message and
source, the first synonym in priority order that holds a string, and for time the first synonym
in priority order that is present; when every key of `d` is consumed the fields map is empty. -/
theorem C14_fields_are_the_unconsumed_keys (L : Lib) (visit : List (String × Regexp))
    (now nowText : Time) (line : String) (d : JMap)
    (hpre : hasPrefix (trimSpace L line) "\x7b" = true)
    (hdec : L.unmarshal (trimSpace L line) = some d) :
    ∃ p, (Parse L visit now nowText line).Parsed = some p ∧
      p.Fields = d.filter (fun kv => decide (kv.1 ∉ consumedKeys d)) ∧
      (∀ k, k ∉ consumedKeys d → p.Fields.get k = d.get k) ∧
      (∀ k, k ∈ consumedKeys d → p.Fields.get k = none) ∧
      ((∀ kv ∈ d, kv.1 ∈ consumedKeys d) → p.Fields = []) := by
  refine ⟨parseFields L d, parse_decoded L visit now nowText line d hpre hdec,
    parseFields_fields L d, ?_, ?_, ?_⟩
  · intro k hk
    rw [parseFields_fields, get_filter_key d (fun key => decide (key ∉ consumedKeys d)) k]
    simp [hk]
  · intro k hk
    rw [parseFields_fields, get_filter_key d (fun key => decide (key ∉ consumedKeys d)) k]
    simp [hk]
  · intro hall
    rw [parseFields_fields, List.filter_eq_nil_iff]
    intro kv hkv
    simp [hall kv hkv]

/-- The map that the line `{"level":"err","msg":"disk full","ts":1700000000}` decodes to. -/
theorem demoLine_decodes :
    asciiLib.unmarshal (trimSpace asciiLib demoLine)
      = some [("level", JVal.str "err"), ("msg", JVal.str "disk full"),
          ("ts", JVal.num 1700000000)] := by
  rfl

/-- C14 at a concrete input: the line `{"level":"err","msg":"disk full","ts":1700000000}` gives
level ERROR, message `disk full` and an empty fields map; with a further key `host` and a
number under `level`, the key `host` and the key `level` stay in the fields map. -/
theorem C14_witness :
    (hasPrefix (trimSpace asciiLib demoLine) "\x7b" = true ∧
      asciiLib.unmarshal (trimSpace asciiLib demoLine)
        = some [("level", JVal.str "err"), ("msg", JVal.str "disk full"),
            ("ts", JVal.num 1700000000)]) ∧
    (∃ p, (Parse asciiLib (levelPatterns asciiLib) ⟨1⟩ ⟨2⟩ demoLine).Parsed = some p ∧
      p.Fields = List.filter (fun kv => decide (kv.1 ∉ consumedKeys
          [("level", JVal.str "err"), ("msg", JVal.str "disk full"),
            ("ts", JVal.num 1700000000)]))
        [("level", JVal.str "err"), ("msg", JVal.str "disk full"),
          ("ts", JVal.num 1700000000)] ∧
      (∀ k, k ∉ consumedKeys [("level", JVal.str "err"), ("msg", JVal.str "disk full"),
          ("ts", JVal.num 1700000000)] →
        p.Fields.get k = JMap.get [("level", JVal.str "err"), ("msg", JVal.str "disk full"),
          ("ts", JVal.num 1700000000)] k) ∧
      (∀ k, k ∈ consumedKeys [("level", JVal.str "err"), ("msg", JVal.str "disk full"),
          ("ts", JVal.num 1700000000)] → p.Fields.get k = none) ∧
      ((∀ kv ∈ ([("level", JVal.str "err"), ("msg", JVal.str "disk full"),
          ("ts", JVal.num 1700000000)] : JMap),
        kv.1 ∈ consumedKeys [("level", JVal.str "err"), ("msg", JVal.str "disk full"),
          ("ts", JVal.num 1700000000)]) → p.Fields = [])) ∧
    (Parse asciiLib (levelPatterns asciiLib) ⟨1⟩ ⟨2⟩ demoLine).Parsed.map
      (fun p => (p.Level, p.Message, p.Time, p.Fields.map (fun kv => kv.1)))
        = some ("ERROR", "disk full", some ⟨1700000000000000000⟩, []) ∧
    (Parse asciiLib (levelPatterns asciiLib) ⟨1⟩ ⟨2⟩
      "\x7b\"level\":3,\"lvl\":\"warning\",\"host\":\"db1\",\"message\":\"slow\"\x7d").Parsed.map
      (fun p => (p.Level, p.Message, p.Time, p.Fields.map (fun kv => kv.1)))
        = some ("WARN", "slow", none, ["level", "host"]) :=
  ⟨⟨by decide, demoLine_decodes⟩,
    C14_fields_are_the_unconsumed_keys asciiLib (levelPatterns asciiLib) ⟨1⟩ ⟨2⟩ demoLine _
      (by decide) demoLine_decodes,
    by rfl, by rfl⟩

/-! ## The time of the structured path -/

theorem get_dropKey (d : JMap) (ok : Option String) (k : String)
    (h : ∀ k0, ok = some k0 → k ≠ k0) : (dropKey d ok).get k = d.get k := by
  cases ok with
  | none => rfl
  | some k0 => exact get_delete_ne d k k0 (h k0 rfl)

/-- The map in which `parseFields` looks for the time is the decoded map without the keys taken
for level and message; the first time synonym present in it is that of the decoded map. -/
theorem firstPresent_time (d : JMap) :
    firstPresent (dropKey (dropKey d (firstString d levelKeys))
      (firstString (dropKey d (firstString d levelKeys)) messageKeys)) timeKeys
        = firstPresent d timeKeys := by
  obtain ⟨hl, hm, -⟩ := keys_disjoint
  rw [firstPresent_dropKey _ timeKeys _
      (fun k h => (hm k (firstString_mem _ messageKeys k h)).2.1),
    firstPresent_dropKey _ timeKeys _
      (fun k h => (hl k (firstString_mem _ levelKeys k h)).2.1)]

/-- The time `parseFields` extracts comes from the value of the decoded map under the first
time synonym that is present. -/
theorem parseFields_time (L : Lib) (d : JMap) :
    (parseFields L d).Time
      = (firstPresent d timeKeys).bind (fun k => (d.get k).bind (timeOfValue L)) := by
  obtain ⟨hl, hm, ht⟩ := keys_disjoint
  rw [parseFields_eq]
  simp only [restOf_takeString, takeTime_time, firstPresent_time]
  cases hk : firstPresent d timeKeys with
  | none => rfl
  | some k =>
    have hkm : k ∈ timeKeys := firstPresent_mem d timeKeys k hk
    simp only [Option.some_bind]
    rw [get_dropKey _ _ k (fun k0 h0 heq =>
        (hm k0 (firstString_mem _ messageKeys k0 h0)).2.1 (heq ▸ hkm)),
      get_dropKey _ _ k (fun k0 h0 heq =>
        (hl k0 (firstString_mem _ levelKeys k0 h0)).2.1 (heq ▸ hkm))]

theorem truncate_le (v : ℚ) (h : v ≤ 1000000000000) : truncate v ≤ 1000000000000 := by
  unfold truncate
  rcases le_or_lt 0 v.num with hn | hn
  · rw [Int.tdiv_eq_ediv hn (Int.ofNat_nonneg _), ← Rat.floor_def]
    have h1 : ((⌊v⌋ : Int) : ℚ) ≤ v := Int.floor_le v
    have h2 : ((⌊v⌋ : Int) : ℚ) ≤ ((1000000000000 : Int) : ℚ) := by
      push_cast; exact le_trans h1 h
    exact_mod_cast h2
  · have h1 : 0 ≤ (-v.num).tdiv v.den := Int.tdiv_nonneg (by omega) (Int.ofNat_nonneg _)
    rw [Int.neg_tdiv] at h1
    omega

theorem truncate_ge (v : ℚ) (h : v > 1000000000000) : 1000000000000 ≤ truncate v := by
  unfold truncate
  have hpos : 0 < v := lt_trans (by norm_num) h
  have hn : 0 ≤ v.num := le_of_lt (Rat.num_pos.mpr hpos)
  rw [Int.tdiv_eq_ediv hn (Int.ofNat_nonneg _), ← Rat.floor_def]
  rw [Int.le_floor]
  push_cast
  exact le_of_lt h

theorem wrapInt64_of_range (z : Int) (h1 : -(2 ^ 63) ≤ z) (h2 : z < 2 ^ 63) :
    wrapInt64 z = z := by
  unfold wrapInt64
  norm_num at h1 h2 ⊢
  omega

/-- `time.Unix(t, 0)` is the instant `t` seconds after the epoch for `t` up to `10 ^ 12`. -/
theorem timeUnix_seconds (t : Int) (h1 : -(2 ^ 63) ≤ t) (h2 : t ≤ 1000000000000) :
    timeUnix t 0 = ⟨t * 1000000000⟩ := by
  unfold timeUnix
  have e1 : Int.fdiv 0 1000000000 = 0 := by decide
  have e2 : Int.fmod 0 1000000000 = 0 := by decide
  norm_num at h1
  simp only [e1, e2, add_zero]
  rw [wrapInt64_of_range t (by norm_num; omega) (by norm_num; omega),
    wrapInt64_of_range (t + 62135596800) (by norm_num; omega) (by norm_num; omega)]
  congr 1
  omega

/-- `time.UnixMilli(t)` is the instant `t` milliseconds after the epoch for `t` not negative. -/
theorem timeUnixMilli_millis (t : Int) (h1 : 0 ≤ t) (h2 : t < 2 ^ 63) :
    timeUnixMilli t = ⟨t * 1000000⟩ := by
  unfold timeUnixMilli timeUnix
  norm_num at h2
  have e0 : Int.tdiv t 1000 = t / 1000 := Int.tdiv_eq_ediv h1 (by decide)
  have e00 : Int.tmod t 1000 = t % 1000 := Int.tmod_eq_emod h1 (by decide)
  have e1 : Int.fdiv (t % 1000 * 1000000) 1000000000 = 0 := by
    rw [Int.fdiv_eq_ediv _ (by decide)]; omega
  have e2 : Int.fmod (t % 1000 * 1000000) 1000000000 = t % 1000 * 1000000 := by
    rw [Int.fmod_eq_emod _ (by decide)]; omega
  simp only [e0, e00, e1, e2, add_zero]
  rw [wrapInt64_of_range (t / 1000) (by norm_num; omega) (by norm_num; omega),
    wrapInt64_of_range (t / 1000 + 62135596800) (by norm_num; omega) (by norm_num; omega)]
  congr 1
  omega

theorem int64OfFloat_of_range (L : Lib) (v : ℚ)
    (h : -(2 ^ 63) ≤ truncate v ∧ truncate v < 2 ^ 63) : int64OfFloat L v = truncate v := by
  unfold int64OfFloat
  exact if_pos h

/-- C15 (as amended): for every structured input whose first present time key holds a number
`v` whose truncation to an integer fits a signed 64-bit integer: if `v ≤ 10 ^ 12` the parsed
time is the instant `v` (truncated) seconds after the Unix epoch, and if `v > 10 ^ 12` it is the
instant `v` (truncated) milliseconds after the Unix epoch. -/
theorem C15_numeric_time (L : Lib) (visit : List (String × Regexp)) (now nowText : Time)
    (line : String) (d : JMap) (k : String) (v : ℚ)
    (hpre : hasPrefix (trimSpace L line) "\x7b" = true)
    (hdec : L.unmarshal (trimSpace L line) = some d)
    (hkey : firstPresent d timeKeys = some k) (hval : d.get k = some (JVal.num v))
    (hrange : -(2 ^ 63) ≤ truncate v ∧ truncate v < 2 ^ 63) :
    ∃ p, (Parse L visit now nowText line).Parsed = some p ∧
      (v ≤ 1000000000000 → p.Time = some ⟨truncate v * 1000000000⟩) ∧
      (v > 1000000000000 → p.Time = some ⟨truncate v * 1000000⟩) := by
  refine ⟨parseFields L d, parse_decoded L visit now nowText line d hpre hdec, ?_, ?_⟩
  · intro hle
    have hnot : ¬ v > 1000000000000 := not_lt.mpr hle
    rw [parseFields_time, hkey, Option.some_bind, hval, Option.some_bind]
    simp only [timeOfValue, hnot, if_false, int64OfFloat_of_range L v hrange]
    rw [timeUnix_seconds (truncate v) hrange.1 (truncate_le v hle)]
  · intro hgt
    rw [parseFields_time, hkey, Option.some_bind, hval, Option.some_bind]
    simp only [timeOfValue, hgt, if_true, int64OfFloat_of_range L v hrange]
    rw [timeUnixMilli_millis (truncate v)
      (le_trans (by decide) (truncate_ge v hgt)) hrange.2]

/-- C15 at concrete inputs: `ts = 1700000000` is read as seconds, the boundary value `10 ^ 12`
is read as seconds, and `10 ^ 12 + 1` is read as milliseconds. -/
theorem C15_witness :
    (hasPrefix (trimSpace asciiLib demoLine) "\x7b" = true ∧
      asciiLib.unmarshal (trimSpace asciiLib demoLine)
        = some [("level", JVal.str "err"), ("msg", JVal.str "disk full"),
            ("ts", JVal.num 1700000000)] ∧
      firstPresent [("level", JVal.str "err"), ("msg", JVal.str "disk full"),
        ("ts", JVal.num 1700000000)] timeKeys = some "ts" ∧
      JMap.get [("level", JVal.str "err"), ("msg", JVal.str "disk full"),
        ("ts", JVal.num 1700000000)] "ts" = some (JVal.num 1700000000) ∧
      (-(2 ^ 63) ≤ truncate 1700000000 ∧ truncate 1700000000 < 2 ^ 63)) ∧
    (∃ p, (Parse asciiLib (levelPatterns asciiLib) ⟨1⟩ ⟨2⟩ demoLine).Parsed = some p ∧
      ((1700000000 : ℚ) ≤ 1000000000000 →
        p.Time = some ⟨truncate 1700000000 * 1000000000⟩) ∧
      ((1700000000 : ℚ) > 1000000000000 →
        p.Time = some ⟨truncate 1700000000 * 1000000⟩)) ∧
    (Parse asciiLib (levelPatterns asciiLib) ⟨1⟩ ⟨2⟩ demoLine).Parsed.map (fun p => p.Time)
      = some (some ⟨1700000000 * 1000000000⟩) ∧
    (Parse asciiLib (levelPatterns asciiLib) ⟨1⟩ ⟨2⟩
      "\x7b\"ts\":1000000000000\x7d").Parsed.map (fun p => p.Time)
      = some (some ⟨1000000000000 * 1000000000⟩) ∧
    (Parse asciiLib (levelPatterns asciiLib) ⟨1⟩ ⟨2⟩
      "\x7b\"ts\":1000000000001\x7d").Parsed.map (fun p => p.Time)
      = some (some ⟨1000000000001 * 1000000⟩) :=
  ⟨⟨by decide, demoLine_decodes, by decide, rfl, by decide, by decide⟩,
    C15_numeric_time asciiLib (levelPatterns asciiLib) ⟨1⟩ ⟨2⟩ demoLine _ "ts" 1700000000
      (by decide) demoLine_decodes (by decide) rfl ⟨by decide, by decide⟩,
    by rfl, by rfl, by rfl⟩

/-- C15 fails as stated for a number outside the range of a signed 64-bit integer: for
`ts = 2 ^ 100 = 1267650600228229401496703205376`, a value of `float64`, the conversion `int64(tv)`
is left to the implementation (it gives `-2 ^ 63` here, as on amd64) and the parsed time is the
instant `-2 ^ 63` milliseconds from the epoch, not `2 ^ 100` milliseconds after it. -/
theorem C15_counterexample_out_of_int64_range :
    hasPrefix (trimSpace asciiLib "\x7b\"ts\":1267650600228229401496703205376\x7d") "\x7b"
      = true ∧
    (asciiLib.unmarshal
      (trimSpace asciiLib "\x7b\"ts\":1267650600228229401496703205376\x7d")).map
        (fun d => d.map (fun kv => kv.1)) = some ["ts"] ∧
    (1267650600228229401496703205376 : ℚ) > 1000000000000 ∧
    truncate 1267650600228229401496703205376 = 1267650600228229401496703205376 ∧
    (Parse asciiLib (levelPatterns asciiLib) ⟨1⟩ ⟨2⟩
      "\x7b\"ts\":1267650600228229401496703205376\x7d").Parsed.map (fun p => p.Time)
      = some (some ⟨-9223372036854775808 * 1000000⟩) ∧
    (⟨-9223372036854775808 * 1000000⟩ : Time)
      ≠ ⟨truncate 1267650600228229401496703205376 * 1000000⟩ := by
  refine ⟨by decide, by rfl, by decide, by decide, by rfl, by decide⟩

/-! ## Fields untouched by the time key -/

theorem takeString_fst_delete (d : JMap) (keys : List String) (k0 : String) (h : k0 ∉ keys) :
    (takeString (d.delete k0) keys).map Prod.fst = (takeString d keys).map Prod.fst := by
  induction keys with
  | nil => rfl
  | cons key keys ih =>
    have hne : key ≠ k0 := fun heq => h (heq ▸ List.mem_cons_self _ _)
    have hrest : k0 ∉ keys := fun hin => h (List.mem_cons_of_mem _ hin)
    unfold takeString
    rw [get_delete_ne d key k0 hne]
    cases hg : d.get key with
    | none => exact ih hrest
    | some v =>
      cases v with
      | str s => rfl
      | null => exact ih hrest
      | bool b => exact ih hrest
      | num q => exact ih hrest
      | arr items => exact ih hrest
      | obj members => exact ih hrest

/-- The level `parseFields` extracts, from the string found under a level key. -/
theorem parseFields_level_of_fst (L : Lib) (d : JMap) :
    (parseFields L d).Level =
      match (takeString d levelKeys).map Prod.fst with
      | some s => normalizeLevel L s
      | none => "" := by
  rw [parseFields_eq]
  cases takeString d levelKeys with
  | none => rfl
  | some r => rfl

/-- The message `parseFields` extracts is the string under the first message key of the
decoded map that holds a string. -/
theorem parseFields_message (L : Lib) (d : JMap) :
    (parseFields L d).Message = textOf (takeString d messageKeys) := by
  obtain ⟨hl, -, -⟩ := keys_disjoint
  rw [parseFields_eq]
  simp only [restOf_takeString]
  exact textOf_takeString_dropKey d messageKeys _
    (fun k h => (hl k (firstString_mem _ levelKeys k h)).1)

/-- The source `parseFields` extracts is the string under the first source key of the decoded
map that holds a string. -/
theorem parseFields_source (L : Lib) (d : JMap) :
    (parseFields L d).Source = textOf (takeString d sourceKeys) := by
  obtain ⟨hl, hm, ht⟩ := keys_disjoint
  rw [parseFields_eq]
  simp only [restOf_takeString, takeTime_rest]
  rw [textOf_takeString_dropKey _ sourceKeys _
      (fun k h => (ht k (firstPresent_mem _ timeKeys k h)).2.2),
    textOf_takeString_dropKey _ sourceKeys _
      (fun k h => (hm k (firstString_mem _ messageKeys k h)).2.2),
    textOf_takeString_dropKey _ sourceKeys _
      (fun k h => (hl k (firstString_mem _ levelKeys k h)).2.2)]

/-- Deleting a time key changes neither the level, nor the message, nor the source. -/
theorem parseFields_delete_time_key (L : Lib) (d : JMap) (k : String) (hk : k ∈ timeKeys) :
    (parseFields L (d.delete k)).Level = (parseFields L d).Level ∧
    (parseFields L (d.delete k)).Message = (parseFields L d).Message ∧
    (parseFields L (d.delete k)).Source = (parseFields L d).Source := by
  obtain ⟨-, -, ht⟩ := keys_disjoint
  refine ⟨?_, ?_, ?_⟩
  · rw [parseFields_level_of_fst, parseFields_level_of_fst,
      takeString_fst_delete d levelKeys k (ht k hk).1]
  · rw [parseFields_message, parseFields_message,
      textOf_takeString_delete d messageKeys k (ht k hk).2.1]
  · rw [parseFields_source, parseFields_source,
      textOf_takeString_delete d sourceKeys k (ht k hk).2.2]

/-- A value that is no timestamp: a string that neither RFC 3339 layout parses, or a value that
is neither a string nor a number. -/
theorem timeOfValue_invalid (L : Lib) (v : JVal)
    (hbad : (∃ s, v = JVal.str s ∧ L.parseTime layoutRFC3339 s = none ∧
        L.parseTime layoutRFC3339Nano s = none) ∨
      ((∀ s, v ≠ JVal.str s) ∧ ∀ q, v ≠ JVal.num q)) :
    timeOfValue L v = none := by
  rcases hbad with ⟨s, hv, h1, h2⟩ | ⟨hs, hq⟩
  · rw [hv]
    simp only [timeOfValue, h1, h2]
  · cases v with
    | str s => exact absurd rfl (hs s)
    | num q => exact absurd rfl (hq q)
    | null => rfl
    | bool b => rfl
    | arr items => rfl
    | obj members => rfl

/-- C16: for every line that decodes to a map `d` whose first present time key `k` holds a
value that cannot be interpreted as a timestamp (a string that neither RFC 3339 layout parses,
or a value that is neither a string nor a number), the parsed time is left unset and the
extracted level, message and source are exactly those obtained from `d` without the key `k`. -/
theorem C16_invalid_time_is_skipped (L : Lib) (visit : List (String × Regexp))
    (now nowText : Time) (line : String) (d : JMap) (k : String) (v : JVal)
    (hpre : hasPrefix (trimSpace L line) "\x7b" = true)
    (hdec : L.unmarshal (trimSpace L line) = some d)
    (hkey : firstPresent d timeKeys = some k) (hval : d.get k = some v)
    (hbad : (∃ s, v = JVal.str s ∧ L.parseTime layoutRFC3339 s = none ∧
        L.parseTime layoutRFC3339Nano s = none) ∨
      ((∀ s, v ≠ JVal.str s) ∧ ∀ q, v ≠ JVal.num q)) :
    ∃ p, (Parse L visit now nowText line).Parsed = some p ∧ p.Time = none ∧
      p.Level = (parseFields L (d.delete k)).Level ∧
      p.Message = (parseFields L (d.delete k)).Message ∧
      p.Source = (parseFields L (d.delete k)).Source := by
  obtain ⟨h1, h2, h3⟩ :=
    parseFields_delete_time_key L d k (firstPresent_mem d timeKeys k hkey)
  refine ⟨parseFields L d, parse_decoded L visit now nowText line d hpre hdec, ?_,
    h1.symm, h2.symm, h3.symm⟩
  rw [parseFields_time, hkey, Option.some_bind, hval, Option.some_bind]
  exact timeOfValue_invalid L v hbad

/-- The map that `demoBadTimeLine` decodes to. -/
theorem demoBadTimeLine_decodes :
    asciiLib.unmarshal (trimSpace asciiLib demoBadTimeLine)
      = some [("level", JVal.str "err"), ("time", JVal.str "yesterday"),
          ("ts", JVal.num 1700000000), ("logger", JVal.str "db"),
          ("msg", JVal.str "disk full")] := by
  rfl

/-- C16 at a concrete input: in
`{"level":"err","time":"yesterday","ts":1700000000,"logger":"db","msg":"disk full"}` the first
present time key `time` holds a string that is no timestamp; the time is unset although `ts`
holds a number, and level, message and source are ERROR, `disk full` and `db`. -/
theorem C16_witness :
    (hasPrefix (trimSpace asciiLib demoBadTimeLine) "\x7b" = true ∧
      firstPresent [("level", JVal.str "err"), ("time", JVal.str "yesterday"),
        ("ts", JVal.num 1700000000), ("logger", JVal.str "db"),
        ("msg", JVal.str "disk full")] timeKeys = some "time" ∧
      asciiLib.parseTime layoutRFC3339 "yesterday" = none ∧
      asciiLib.parseTime layoutRFC3339Nano "yesterday" = none) ∧
    (∃ p, (Parse asciiLib (levelPatterns asciiLib) ⟨1⟩ ⟨2⟩ demoBadTimeLine).Parsed = some p ∧
      p.Time = none ∧
      p.Level = (parseFields asciiLib (JMap.delete [("level", JVal.str "err"),
        ("time", JVal.str "yesterday"), ("ts", JVal.num 1700000000),
        ("logger", JVal.str "db"), ("msg", JVal.str "disk full")] "time")).Level ∧
      p.Message = (parseFields asciiLib (JMap.delete [("level", JVal.str "err"),
        ("time", JVal.str "yesterday"), ("ts", JVal.num 1700000000),
        ("logger", JVal.str "db"), ("msg", JVal.str "disk full")] "time")).Message ∧
      p.Source = (parseFields asciiLib (JMap.delete [("level", JVal.str "err"),
        ("time", JVal.str "yesterday"), ("ts", JVal.num 1700000000),
        ("logger", JVal.str "db"), ("msg", JVal.str "disk full")] "time")).Source) ∧
    (Parse asciiLib (levelPatterns asciiLib) ⟨1⟩ ⟨2⟩ demoBadTimeLine).Parsed.map
      (fun p => (p.Time, p.Level, p.Message, p.Source, p.Fields.map (fun kv => kv.1)))
        = some (none, "ERROR", "disk full", "db", ["ts"]) :=
  ⟨⟨by decide, by decide, by decide, by decide⟩,
    C16_invalid_time_is_skipped asciiLib (levelPatterns asciiLib) ⟨1⟩ ⟨2⟩ demoBadTimeLine _
      "time" (JVal.str "yesterday") (by decide) demoBadTimeLine_decodes (by decide) rfl
      (Or.inl ⟨"yesterday", rfl, by decide, by decide⟩),
    by rfl⟩

/-! ## The broadcast hub -/

/-- The loop of a broadcast over clients visited once each, all with an open channel: no send
panics, and each client visited is left as `Client.deliver` specifies, the others untouched. -/
theorem broadcastLoop_eq (L : Lib) (entry : LogEntry) (visit : List ClientId) :
    ∀ heap : ClientId → Client, visit.Nodup → (∀ c ∈ visit, (heap c).closed = false) →
      broadcastLoop L entry visit heap
        = some (fun c => if c ∈ visit then (heap c).deliver L entry else heap c) := by
  induction visit with
  | nil =>
    intro heap _ _
    simp only [broadcastLoop, List.not_mem_nil, if_false]
  | cons c visit ih =>
    intro heap hnodup hopen
    have hc : c ∉ visit := (List.nodup_cons.mp hnodup).1
    have hnd : visit.Nodup := (List.nodup_cons.mp hnodup).2
    have hcopen : (heap c).closed = false := hopen c (List.mem_cons_self _ _)
    by_cases hm : matchesFilter L entry (heap c).filter = true
    · have hsend : (heap c).trySend (marshalled L (WSMessage.log entry))
          = some ((heap c).deliver L entry) := by
        unfold Client.trySend Client.deliver
        simp only [hcopen, hm, true_and, Bool.false_eq_true, if_false]
        by_cases hfull : (heap c).send.length < sendCapacity
        · simp only [hfull, if_true]
        · simp only [hfull, if_false]
      simp only [broadcastLoop, hm, if_true, hsend]
      rw [ih (Function.update heap c ((heap c).deliver L entry)) hnd]
      · congr 1
        funext x
        by_cases hx : x = c
        · subst hx
          simp only [hc, if_false, Function.update_same, List.mem_cons_self, if_true]
        · simp only [Function.update_noteq hx, List.mem_cons, hx, false_or]
      · intro x hxv
        have hx : x ≠ c := fun heq => hc (heq ▸ hxv)
        rw [Function.update_noteq hx]
        exact hopen x (List.mem_cons_of_mem _ hxv)
    · simp only [broadcastLoop, hm, Bool.false_eq_true, if_false]
      rw [ih heap hnd (fun x hxv => hopen x (List.mem_cons_of_mem _ hxv))]
      congr 1
      funext x
      by_cases hx : x = c
      · subst hx
        have hd : (heap x).deliver L entry = heap x := by
          unfold Client.deliver
          exact if_neg (fun h => hm h.1)
        simp only [hc, if_false, List.mem_cons_self, if_true, hd]
      · simp only [List.mem_cons, hx, false_or]

theorem logsOf_append (a b : List Payload) : logsOf (a ++ b) = logsOf a ++ logsOf b := by
  induction a with
  | nil => rfl
  | cons p a ih =>
    obtain ⟨data, msg⟩ := p
    cases data with
    | none => exact ih
    | some bytes =>
      cases msg with
      | log entry => exact congrArg (fun l => entry :: l) ih
      | status o => exact ih
      | pong => exact ih

/-- The payload of a log message carries its entry exactly when the message was marshalled. -/
theorem logsOf_marshalled_log (L : Lib) (entry : LogEntry) :
    logsOf [marshalled L (WSMessage.log entry)]
      = if (L.marshal (WSMessage.log entry)).isSome = true then [entry] else [] := by
  cases h : L.marshal (WSMessage.log entry) with
  | none => simp [logsOf, marshalled, h]
  | some bytes => simp [logsOf, marshalled, h]

theorem logsOf_marshalled_pong (L : Lib) : logsOf [marshalled L WSMessage.pong] = [] := by
  cases h : L.marshal WSMessage.pong with
  | none => simp [logsOf, marshalled, h]
  | some bytes => simp [logsOf, marshalled, h]

/-- What `Client.deliver` does to the entries enqueued: nothing, or the entry at the end. -/
theorem deliver_enqueued (L : Lib) (entry : LogEntry) (cl : Client) :
    ((cl.deliver L entry).enqueued = cl.enqueued ∨
      (cl.deliver L entry).enqueued = cl.enqueued ++ [entry]) ∧
    (cl.deliver L entry).closed = cl.closed := by
  unfold Client.deliver
  by_cases h : matchesFilter L entry cl.filter = true ∧ cl.send.length < sendCapacity
  · rw [if_pos h]
    have henq : logsOf (cl.written ++ (cl.send ++ [marshalled L (WSMessage.log entry)]))
        = logsOf (cl.written ++ cl.send) ++ logsOf [marshalled L (WSMessage.log entry)] := by
      rw [← List.append_assoc, logsOf_append (cl.written ++ cl.send)]
    refine ⟨?_, rfl⟩
    show logsOf (cl.written ++ (cl.send ++ [marshalled L (WSMessage.log entry)])) = _ ∨
      logsOf (cl.written ++ (cl.send ++ [marshalled L (WSMessage.log entry)])) = _
    rw [henq, logsOf_marshalled_log]
    by_cases hm : (L.marshal (WSMessage.log entry)).isSome = true
    · rw [if_pos hm]; exact Or.inr rfl
    · rw [if_neg hm, List.append_nil]; exact Or.inl rfl
  · rw [if_neg h]
    exact ⟨Or.inl rfl, rfl⟩

/-- A broadcast iteration in a state where every registered channel is open, with the map
ranged over once per key: every registered client is left as `Client.deliver` specifies. -/
theorem step_broadcast (L : Lib) (h : Hub) (entry : LogEntry) (visit : List ClientId)
    (hwf : h.WF) (hnodup : visit.Nodup) (hvisit : ∀ c, c ∈ visit ↔ h.clients c = true) :
    h.step L (HubEvent.broadcast entry visit) = some (h.delivered L entry) := by
  have hloop := broadcastLoop_eq L entry visit h.client hnodup
    (fun c hc => hwf c ((hvisit c).mp hc))
  have hfun : (fun c => if c ∈ visit then (h.client c).deliver L entry else h.client c)
      = (fun c => if h.clients c = true then (h.client c).deliver L entry else h.client c) := by
    funext c
    by_cases hc : c ∈ visit
    · rw [if_pos hc, if_pos ((hvisit c).mp hc)]
    · rw [if_neg hc, if_neg (fun hh => hc ((hvisit c).mpr hh))]
  simp only [Hub.step, hloop, hfun]
  rfl

/-- An unregister iteration in a state where every registered channel is open. -/
theorem step_unregister (L : Lib) (h : Hub) (c : ClientId) (hwf : h.WF) :
    h.step L (HubEvent.unregister c)
      = some (if h.clients c = true then
          { clients := Function.update h.clients c false
            client := Function.update h.client c { (h.client c) with closed := true } }
        else h) := by
  by_cases hc : h.clients c = true
  · have hopen : (h.client c).closed = false := hwf c hc
    simp only [Hub.step, hc, if_true, Client.close, hopen, Bool.false_eq_true, if_false]
  · simp only [Hub.step, hc, Bool.false_eq_true, if_false]

theorem broadcastsOf_cons_sublist (ev : Event) (evs : List Event) :
    (broadcastsOf evs).Sublist (broadcastsOf (ev :: evs)) := by
  cases ev with
  | hub hev =>
    cases hev with
    | register c => exact List.Sublist.refl _
    | unregister c => exact List.Sublist.refl _
    | broadcast entry visit => exact List.Sublist.cons _ (List.Sublist.refl _)
  | subscribe c f => exact List.Sublist.refl _
  | unsubscribe c => exact List.Sublist.refl _
  | ping c => exact List.Sublist.refl _
  | receive c => exact List.Sublist.refl _

/-- An action the program can take, in a state where every registered channel is open, does not
panic, keeps every registered channel open, and enqueues on each client nothing, or, when it is
a broadcast, at most the entry broadcast. -/
theorem apply_admitted (L : Lib) (h : Hub) (ev : Event) (hwf : h.WF) (hadm : h.admits ev) :
    ∃ h1, h.apply L ev = some h1 ∧ h1.WF ∧
      ∀ c, (h1.client c).enqueued = (h.client c).enqueued ∨
        ∃ entry visit, ev = Event.hub (HubEvent.broadcast entry visit) ∧
          (h1.client c).enqueued = (h.client c).enqueued ++ [entry] := by
  cases ev with
  | hub hev =>
    cases hev with
    | register c =>
      refine ⟨_, rfl, ?_, fun x => Or.inl rfl⟩
      intro x hx
      by_cases hxc : x = c
      · subst hxc; exact hadm
      · simp only [Function.update_noteq hxc] at hx
        exact hwf x hx
    | unregister c =>
      refine ⟨_, step_unregister L h c hwf, ?_, ?_⟩
      · by_cases hc : h.clients c = true
        · rw [if_pos hc]
          intro x hx
          by_cases hxc : x = c
          · subst hxc
            simp only [Function.update_same] at hx
            exact absurd hx (by decide)
          · simp only [Function.update_noteq hxc] at hx ⊢
            exact hwf x hx
        · rw [if_neg hc]; exact hwf
      · intro x
        left
        by_cases hc : h.clients c = true
        · rw [if_pos hc]
          by_cases hxc : x = c
          · subst hxc
            simp only [Function.update_same]
            rfl
          · simp only [Function.update_noteq hxc]
        · rw [if_neg hc]
    | broadcast entry visit =>
      obtain ⟨hnodup, hvisit⟩ := hadm
      refine ⟨_, step_broadcast L h entry visit hwf hnodup hvisit, ?_, ?_⟩
      · intro x hx
        have hx1 : h.clients x = true := hx
        have hcx : (h.delivered L entry).client x
            = if h.clients x = true then (h.client x).deliver L entry else h.client x := rfl
        rw [hcx, if_pos hx1, (deliver_enqueued L entry (h.client x)).2]
        exact hwf x hx1
      · intro x
        have hcx : (h.delivered L entry).client x
            = if h.clients x = true then (h.client x).deliver L entry else h.client x := rfl
        by_cases hx : h.clients x = true
        · rcases (deliver_enqueued L entry (h.client x)).1 with hsame | hadd
          · exact Or.inl (by rw [hcx, if_pos hx]; exact hsame)
          · exact Or.inr ⟨entry, visit, rfl, by rw [hcx, if_pos hx]; exact hadd⟩
        · exact Or.inl (by rw [hcx, if_neg hx])
  | subscribe c f =>
    refine ⟨_, rfl, ?_, ?_⟩
    · intro x hx
      have hx1 : h.clients x = true := hx
      by_cases hxc : x = c
      · subst hxc
        simp only [Function.update_same]
        exact hwf x hx1
      · simp only [Function.update_noteq hxc]
        exact hwf x hx1
    · intro x
      left
      by_cases hxc : x = c
      · subst hxc
        simp only [Function.update_same]
        rfl
      · simp only [Function.update_noteq hxc]
  | unsubscribe c =>
    refine ⟨_, rfl, ?_, ?_⟩
    · intro x hx
      have hx1 : h.clients x = true := hx
      by_cases hxc : x = c
      · subst hxc
        simp only [Function.update_same]
        exact hwf x hx1
      · simp only [Function.update_noteq hxc]
        exact hwf x hx1
    · intro x
      left
      by_cases hxc : x = c
      · subst hxc
        simp only [Function.update_same]
        rfl
      · simp only [Function.update_noteq hxc]
  | ping c =>
    have hopen : (h.client c).closed = false := hadm
    by_cases hfull : (h.client c).send.length < sendCapacity
    · have hsend : (h.client c).trySend (marshalled L WSMessage.pong)
          = some { (h.client c) with
              send := (h.client c).send ++ [marshalled L WSMessage.pong] } := by
        simp only [Client.trySend, hopen, Bool.false_eq_true, if_false, hfull, if_true]
      refine ⟨_, by simp only [Hub.apply, hsend]; rfl, ?_, ?_⟩
      · intro x hx
        have hx1 : h.clients x = true := hx
        by_cases hxc : x = c
        · subst hxc
          simp only [Function.update_same]
          exact hopen
        · simp only [Function.update_noteq hxc]
          exact hwf x hx1
      · intro x
        left
        by_cases hxc : x = c
        · subst hxc
          simp only [Function.update_same, Client.enqueued, ← List.append_assoc,
            logsOf_append ((h.client x).written ++ (h.client x).send), logsOf_marshalled_pong,
            List.append_nil]
        · simp only [Function.update_noteq hxc]
    · have hsend : (h.client c).trySend (marshalled L WSMessage.pong) = some (h.client c) := by
        simp only [Client.trySend, hopen, Bool.false_eq_true, if_false, hfull]
      refine ⟨_, by simp only [Hub.apply, hsend]; rfl, ?_, ?_⟩
      · intro x hx
        have hx1 : h.clients x = true := hx
        by_cases hxc : x = c
        · subst hxc
          simp only [Function.update_same]
          exact hopen
        · simp only [Function.update_noteq hxc]
          exact hwf x hx1
      · intro x
        left
        by_cases hxc : x = c
        · subst hxc
          simp only [Function.update_same]
        · simp only [Function.update_noteq hxc]
  | receive c =>
    cases hs : (h.client c).send with
    | nil =>
      exact ⟨h, by simp only [Hub.apply, hs], hwf, fun x => Or.inl rfl⟩
    | cons message rest =>
      refine ⟨_, by simp only [Hub.apply, hs]; rfl, ?_, ?_⟩
      · intro x hx
        have hx1 : h.clients x = true := hx
        by_cases hxc : x = c
        · subst hxc
          simp only [Function.update_same]
          exact hwf x hx1
        · simp only [Function.update_noteq hxc]
          exact hwf x hx1
      · intro x
        left
        by_cases hxc : x = c
        · subst hxc
          simp only [Function.update_same, Client.enqueued, hs, List.append_assoc,
            List.singleton_append]
        · simp only [Function.update_noteq hxc]

/-- A sequence of actions the program can take, from a state where every registered channel is
open, does not panic, keeps every registered channel open, and enqueues on each client a
subsequence of the entries broadcast, in their order. -/
theorem run_admissible (L : Lib) (evs : List Event) :
    ∀ h : Hub, h.WF → h.Admissible L evs →
      ∃ h1, h.run L evs = some h1 ∧ h1.WF ∧
        ∀ c, ∃ added, (h1.client c).enqueued = (h.client c).enqueued ++ added ∧
          added.Sublist (broadcastsOf evs) := by
  induction evs with
  | nil =>
    intro h hwf _
    exact ⟨h, rfl, hwf, fun c => ⟨[], (List.append_nil _).symm, List.Sublist.refl _⟩⟩
  | cons ev evs ih =>
    intro h hwf hadm
    obtain ⟨hadm0, hrest⟩ := hadm
    obtain ⟨h1, happ, hwf1, henq⟩ := apply_admitted L h ev hwf hadm0
    simp only [happ] at hrest
    obtain ⟨h2, hrun, hwf2, henq2⟩ := ih h1 hwf1 hrest
    refine ⟨h2, by simp only [Hub.run, happ, hrun], hwf2, ?_⟩
    intro c
    obtain ⟨added, hadded, hsub⟩ := henq2 c
    rcases henq c with hsame | ⟨entry, visit, hev, hadd⟩
    · exact ⟨added, by rw [hadded, hsame],
        List.Sublist.trans hsub (broadcastsOf_cons_sublist ev evs)⟩
    · refine ⟨entry :: added, by rw [hadded, hadd, List.append_assoc, List.singleton_append],
        ?_⟩
      rw [hev]
      exact List.Sublist.cons₂ entry hsub

theorem demoHub_wf : demoHub.WF := by
  intro c _
  show (if c = 2 then _ else if c = 3 then _ else Client.fresh : Client).closed = false
  by_cases h2 : c = 2
  · rw [if_pos h2]; rfl
  · rw [if_neg h2]
    by_cases h3 : c = 3
    · rw [if_pos h3]; rfl
    · rw [if_neg h3]; rfl

theorem demoHub_visit : ∀ c, c ∈ [3, 1, 2] ↔ demoHub.clients c = true := by
  intro c
  simp only [demoHub, List.mem_cons, List.mem_singleton, List.not_mem_nil, or_false,
    Bool.or_eq_true, beq_iff_eq]
  tauto

/-- C17: in the loop of `Hub.Run` as a step function on the client set and the clients, an
unregister for a client that is not in the client set leaves the whole state unchanged (and so
closes nothing); after an unregister of `c`, `c` is not in the client set and a second
unregister of `c` changes nothing, so unregister twice equals unregister once; and from a state
in which every registered channel is open, no sequence of actions the program can take panics:
no channel is closed a second time, and every registered channel stays open. -/
theorem C17_unregister_is_idempotent (L : Lib) (h : Hub) (c : ClientId) :
    (h.clients c = false → h.step L (HubEvent.unregister c) = some h) ∧
    (∀ h1, h.step L (HubEvent.unregister c) = some h1 →
      h1.clients c = false ∧ h1.step L (HubEvent.unregister c) = some h1) ∧
    ((h.step L (HubEvent.unregister c)).bind (fun h1 => h1.step L (HubEvent.unregister c))
      = h.step L (HubEvent.unregister c)) ∧
    (∀ evs, h.WF → h.Admissible L evs → ∃ h1, h.run L evs = some h1 ∧ h1.WF) := by
  have hnot : h.clients c = false → h.step L (HubEvent.unregister c) = some h := by
    intro hc
    simp only [Hub.step, hc, Bool.false_eq_true, if_false]
  have hafter : ∀ h1, h.step L (HubEvent.unregister c) = some h1 →
      h1.clients c = false ∧ h1.step L (HubEvent.unregister c) = some h1 := by
    intro h1 hstep
    have hc1 : h1.clients c = false := by
      by_cases hc : h.clients c = true
      · simp only [Hub.step, hc, if_true] at hstep
        cases hcl : (h.client c).close with
        | none => rw [hcl] at hstep; exact absurd hstep (by simp)
        | some cl =>
          rw [hcl] at hstep
          have := Option.some.inj hstep
          rw [← this]
          simp only [Function.update_same]
      · have hcf : h.clients c = false := by
          cases hv : h.clients c
          · rfl
          · exact absurd hv hc
        rw [hnot hcf] at hstep
        rw [← Option.some.inj hstep]
        exact hcf
    exact ⟨hc1, by simp only [Hub.step, hc1, Bool.false_eq_true, if_false]⟩
  refine ⟨hnot, hafter, ?_, ?_⟩
  · cases hstep : h.step L (HubEvent.unregister c) with
    | none => rfl
    | some h1 =>
      rw [Option.some_bind]
      exact (hafter h1 hstep).2
  · intro evs hwf hadm
    obtain ⟨h1, hrun, hwf1, -⟩ := run_admissible L evs h hwf hadm
    exact ⟨h1, hrun, hwf1⟩

/-- C17 at a concrete input: on the demo hub, unregister of client 2 twice, and of client 9,
which is not registered. -/
theorem C17_witness :
    ((demoHub.clients 9 = false → demoHub.step asciiLib (HubEvent.unregister 9) = some demoHub) ∧
      (∀ h1, demoHub.step asciiLib (HubEvent.unregister 9) = some h1 →
        h1.clients 9 = false ∧ h1.step asciiLib (HubEvent.unregister 9) = some h1) ∧
      ((demoHub.step asciiLib (HubEvent.unregister 9)).bind
          (fun h1 => h1.step asciiLib (HubEvent.unregister 9))
        = demoHub.step asciiLib (HubEvent.unregister 9)) ∧
      (∀ evs, demoHub.WF → demoHub.Admissible asciiLib evs →
        ∃ h1, demoHub.run asciiLib evs = some h1 ∧ h1.WF)) ∧
    (demoHub.run asciiLib [Event.hub (HubEvent.unregister 2),
        Event.hub (HubEvent.unregister 2)]).map
      (fun h1 => (h1.clients 1, h1.clients 2, (h1.client 1).closed, (h1.client 2).closed))
        = some (true, false, false, true) ∧
    (demoHub.run asciiLib [Event.hub (HubEvent.unregister 2)]).map
      (fun h1 => (h1.clients 1, h1.clients 2, (h1.client 1).closed, (h1.client 2).closed))
        = some (true, false, false, true) :=
  ⟨C17_unregister_is_idempotent asciiLib demoHub 9, by decide, by decide⟩

/-- C18 (as amended): in a broadcast iteration over the registered clients, each with an open
channel of capacity 256, visited once each in any order, no send blocks or panics, the client
set is unchanged, and for every client: its queue after the step is its queue before with one
payload appended, the bytes `json.Marshal` returned for the log message of the entry, if it is
registered, its filter matches and its queue was not full, and is unchanged otherwise; nothing
else of the client changes; when `json.Marshal` returns the bytes `data` without an error, the
payload appended is `data`, the message of the entry; and the client is left the same in any
other hub state in which it is registered likewise with the same queue and filter. -/
theorem C18_broadcast_drops_only_for_full_queue (L : Lib) (h : Hub) (entry : LogEntry)
    (visit : List ClientId) (hwf : h.WF) (hnodup : visit.Nodup)
    (hvisit : ∀ c, c ∈ visit ↔ h.clients c = true) :
    ∃ h1, h.step L (HubEvent.broadcast entry visit) = some h1 ∧ h1.clients = h.clients ∧
      (∀ c, (h1.client c).send
          = (if h.clients c = true ∧ matchesFilter L entry (h.client c).filter = true ∧
                (h.client c).send.length < 256
             then (h.client c).send ++ [marshalled L (WSMessage.log entry)]
             else (h.client c).send) ∧
        (h1.client c).closed = (h.client c).closed ∧
        (h1.client c).filter = (h.client c).filter ∧
        (h1.client c).written = (h.client c).written) ∧
      (∀ data, L.marshal (WSMessage.log entry) = some data →
        ∀ c, h.clients c = true → matchesFilter L entry (h.client c).filter = true →
          (h.client c).send.length < 256 →
          (h1.client c).send = (h.client c).send ++ [⟨some data, WSMessage.log entry⟩]) ∧
      (∀ (h2 : Hub) (visit2 : List ClientId) (c : ClientId), h2.WF → visit2.Nodup →
        (∀ x, x ∈ visit2 ↔ h2.clients x = true) → h2.clients c = h.clients c →
        h2.client c = h.client c →
        ∃ h3, h2.step L (HubEvent.broadcast entry visit2) = some h3 ∧
          h3.client c = h1.client c) := by
  have hsend : ∀ c, ((h.delivered L entry).client c).send
      = (if h.clients c = true ∧ matchesFilter L entry (h.client c).filter = true ∧
            (h.client c).send.length < 256
         then (h.client c).send ++ [marshalled L (WSMessage.log entry)]
         else (h.client c).send) ∧
      ((h.delivered L entry).client c).closed = (h.client c).closed ∧
      ((h.delivered L entry).client c).filter = (h.client c).filter ∧
      ((h.delivered L entry).client c).written = (h.client c).written := by
    intro c
    have hcx : (h.delivered L entry).client c
        = if h.clients c = true then (h.client c).deliver L entry else h.client c := rfl
    rw [hcx]
    by_cases hc : h.clients c = true
    · rw [if_pos hc]
      unfold Client.deliver
      by_cases hd : matchesFilter L entry (h.client c).filter = true ∧
          (h.client c).send.length < sendCapacity
      · rw [if_pos hd, if_pos ⟨hc, hd.1, hd.2⟩]
        exact ⟨rfl, rfl, rfl, rfl⟩
      · rw [if_neg hd, if_neg (fun hh => hd ⟨hh.2.1, hh.2.2⟩)]
        exact ⟨rfl, rfl, rfl, rfl⟩
    · rw [if_neg hc, if_neg (fun hh => hc hh.1)]
      exact ⟨rfl, rfl, rfl, rfl⟩
  refine ⟨h.delivered L entry, step_broadcast L h entry visit hwf hnodup hvisit, rfl, hsend,
    ?_, ?_⟩
  · intro data hdata c hc hm hroom
    rw [(hsend c).1, if_pos ⟨hc, hm, hroom⟩]
    unfold marshalled
    rw [hdata]
  · intro h2 visit2 c hwf2 hnodup2 hvisit2 hclients hclient
    refine ⟨h2.delivered L entry, step_broadcast L h2 entry visit2 hwf2 hnodup2 hvisit2, ?_⟩
    show (if h2.clients c = true then (h2.client c).deliver L entry else h2.client c)
      = (if h.clients c = true then (h.client c).deliver L entry else h.client c)
    rw [hclients, hclient]

set_option maxRecDepth 100000 in
/-- C18 at a concrete input: the WARN entry broadcast on the demo hub, the clients visited in
the order 3, 1, 2, is appended to the queue of client 1, not to the queue of client 2, whose
filter is `levels = [ERROR]`, and not to the full queue of client 3. -/
theorem C18_witness :
    (demoHub.WF ∧ [3, 1, 2].Nodup ∧ ∀ c, c ∈ [3, 1, 2] ↔ demoHub.clients c = true) ∧
    (∃ h1, demoHub.step asciiLib (HubEvent.broadcast demoWarn [3, 1, 2]) = some h1 ∧
      h1.clients = demoHub.clients ∧
      (∀ c, (h1.client c).send
          = (if demoHub.clients c = true ∧
                matchesFilter asciiLib demoWarn (demoHub.client c).filter = true ∧
                (demoHub.client c).send.length < 256
             then (demoHub.client c).send ++ [marshalled asciiLib (WSMessage.log demoWarn)]
             else (demoHub.client c).send) ∧
        (h1.client c).closed = (demoHub.client c).closed ∧
        (h1.client c).filter = (demoHub.client c).filter ∧
        (h1.client c).written = (demoHub.client c).written) ∧
      (∀ data, asciiLib.marshal (WSMessage.log demoWarn) = some data →
        ∀ c, demoHub.clients c = true →
          matchesFilter asciiLib demoWarn (demoHub.client c).filter = true →
          (demoHub.client c).send.length < 256 →
          (h1.client c).send = (demoHub.client c).send ++ [⟨some data, WSMessage.log demoWarn⟩]) ∧
      (∀ (h2 : Hub) (visit2 : List ClientId) (c : ClientId), h2.WF → visit2.Nodup →
        (∀ x, x ∈ visit2 ↔ h2.clients x = true) → h2.clients c = demoHub.clients c →
        h2.client c = demoHub.client c →
        ∃ h3, h2.step asciiLib (HubEvent.broadcast demoWarn visit2) = some h3 ∧
          h3.client c = h1.client c)) ∧
    (demoHub.step asciiLib (HubEvent.broadcast demoWarn [3, 1, 2])).map
      (fun h1 => ((h1.client 1).send.length, (h1.client 2).send.length,
        (h1.client 3).send.length)) = some (1, 0, 256) ∧
    (demoHub.step asciiLib (HubEvent.broadcast demoWarn [3, 1, 2])).map
      (fun h1 => (h1.client 1).send.map (fun p => p.data))
        = some [some ("\x7b\"type\":\"log\",\"data\":\x7b\"id\":7," ++
            "\"timestamp\":\"1970-01-01T00:00:00.000000009Z\"," ++
            "\"raw\":\"WARN disk almost full\"," ++
            "\"parsed\":\x7b\"level\":\"WARN\",\"message\":\"WARN disk almost full\"\x7d\x7d\x7d")] :=
  ⟨⟨demoHub_wf, by decide, demoHub_visit⟩,
    C18_broadcast_drops_only_for_full_queue asciiLib demoHub demoWarn [3, 1, 2] demoHub_wf
      (by decide) demoHub_visit,
    by decide, by decide⟩

set_option maxRecDepth 100000 in
/-- C18 fails as stated for an entry whose message cannot be marshalled: the line
`{"level":"warn","ts":1000000000000}` is parsed to an entry whose time is in the year 33658,
`json.Marshal` returns an error for it, and the broadcast appends a nil payload, not the message
of the entry, to the queue of client 1, which is registered, has no filter and an empty queue. -/
theorem C18_counterexample_entry_not_marshalled :
    demoHub.clients 1 = true ∧ matchesFilter asciiLib demoFar (demoHub.client 1).filter = true ∧
    (demoHub.client 1).send.length < 256 ∧
    demoFar.Parsed.map (fun p => p.Time) = some (some ⟨1000000000000 * 1000000000⟩) ∧
    asciiLib.year ⟨1000000000000 * 1000000000⟩ = 33658 ∧
    asciiLib.marshal (WSMessage.log demoFar) = none ∧
    (demoHub.step asciiLib (HubEvent.broadcast demoFar [3, 1, 2])).map
      (fun h1 => (h1.client 1).send.map (fun p => p.data)) = some [none] := by
  decide

/-- Strings that `strings.EqualFold` accepts have the same number of runes. -/
theorem equalFoldList_length (L : Lib) :
    ∀ s t : List Char, equalFoldList L s t = true → s.length = t.length := by
  intro s
  induction s with
  | nil =>
    intro t h
    cases t with
    | nil => rfl
    | cons b t => simp [equalFoldList] at h
  | cons a s ih =>
    intro t h
    cases t with
    | nil => simp [equalFoldList] at h
    | cons b t =>
      simp only [equalFoldList, Bool.and_eq_true] at h
      simp only [List.length_cons, ih t h.2]

/-- What a match of a filter with a non-empty `Levels` list implies. -/
theorem matchesFilter_levels (L : Lib) (e : LogEntry) (f : LogFilter) (hl : f.Levels ≠ [])
    (hm : matchesFilter L e f = true) :
    ∃ q, e.Parsed = some q ∧ q.Level ≠ "" ∧ ∃ l ∈ f.Levels, equalFold L l q.Level = true := by
  have hlen : f.Levels.length > 0 := List.length_pos.mpr hl
  have hlen0 : ¬ f.Levels.length = 0 := by omega
  unfold matchesFilter at hm
  simp only [hlen0, false_and, if_false, hlen, if_true] at hm
  cases hp : e.Parsed with
  | none => simp [hp] at hm
  | some q =>
    simp only [hp] at hm
    by_cases hq : q.Level = ""
    · simp [hq] at hm
    · simp only [hq, if_false] at hm
      cases hf : levelFound L f.Levels q.Level with
      | false => simp [hf] at hm
      | true =>
        rw [levelFound_eq_containsLevel, containsLevel_eq_any, List.any_eq_true] at hf
        obtain ⟨l, hin, heq⟩ := hf
        exact ⟨q, rfl, hq, l, hin, heq⟩

/-- C19 (as amended): for every entry `e` and every filter `f` with a non-empty `Levels` list,
`matchesFilter(e, f)` is true only if `e` has a parsed record whose level is non-empty and
equals, ignoring case, some element of `f.Levels`; so in a broadcast iteration an entry of level
WARN is not enqueued for a registered client whose filter has `Levels = [ERROR]`, and for a
registered client with no filter whose queue is not full the payload `json.Marshal` returned
for the message of the entry is enqueued: the message of the entry, carrying the entry, when
`json.Marshal` returns its bytes without an error. -/
theorem C19_level_filter_on_broadcast (L : Lib) (h : Hub) (entry : LogEntry)
    (visit : List ClientId) (a b : ClientId) (p : ParsedLog) (hwf : h.WF)
    (hnodup : visit.Nodup) (hvisit : ∀ c, c ∈ visit ↔ h.clients c = true)
    (hp : entry.Parsed = some p) (hlevel : p.Level = "WARN")
    (ha : h.clients a = true) (hb : h.clients b = true)
    (hfa : (h.client a).filter.Levels = [] ∧ (h.client a).filter.Search = "")
    (hfb : (h.client b).filter.Levels = ["ERROR"])
    (hroom : (h.client a).send.length < 256) :
    (∀ (e : LogEntry) (f : LogFilter), f.Levels ≠ [] → matchesFilter L e f = true →
      ∃ q, e.Parsed = some q ∧ q.Level ≠ "" ∧
        ∃ l ∈ f.Levels, equalFold L l q.Level = true) ∧
    ∃ h1, h.step L (HubEvent.broadcast entry visit) = some h1 ∧
      (h1.client a).send = (h.client a).send ++ [marshalled L (WSMessage.log entry)] ∧
      (∀ data, L.marshal (WSMessage.log entry) = some data →
        (h1.client a).send = (h.client a).send ++ [⟨some data, WSMessage.log entry⟩] ∧
        logsOf (h1.client a).send = logsOf (h.client a).send ++ [entry]) ∧
      (h1.client b).send = (h.client b).send := by
  have hma : matchesFilter L entry (h.client a).filter = true := by
    simp [matchesFilter, hfa.1, hfa.2]
  have hsa : ((h.delivered L entry).client a).send
      = (h.client a).send ++ [marshalled L (WSMessage.log entry)] := by
    show (if h.clients a = true then (h.client a).deliver L entry else h.client a).send = _
    rw [if_pos ha]
    unfold Client.deliver
    rw [if_pos ⟨hma, hroom⟩]
  refine ⟨fun e f hl hm => matchesFilter_levels L e f hl hm, h.delivered L entry,
    step_broadcast L h entry visit hwf hnodup hvisit, hsa, ?_, ?_⟩
  · intro data hdata
    have hpay : marshalled L (WSMessage.log entry) = ⟨some data, WSMessage.log entry⟩ := by
      unfold marshalled
      rw [hdata]
    refine ⟨by rw [hsa, hpay], ?_⟩
    rw [hsa, logsOf_append, logsOf_marshalled_log, hdata]
    rfl
  · have hmb : ¬ matchesFilter L entry (h.client b).filter = true := by
      intro hm
      obtain ⟨q, hq, -, l, hin, heq⟩ :=
        matchesFilter_levels L entry (h.client b).filter (by rw [hfb]; simp) hm
      rw [hp] at hq
      have hqp : p = q := Option.some.inj hq
      rw [hfb, List.mem_singleton] at hin
      rw [hin, ← hqp, hlevel] at heq
      have hlen := equalFoldList_length L _ _ heq
      exact absurd hlen (by decide)
    show (if h.clients b = true then (h.client b).deliver L entry else h.client b).send = _
    rw [if_pos hb]
    unfold Client.deliver
    rw [if_neg (fun hh => hmb hh.1)]

set_option maxRecDepth 100000 in
/-- C19 at a concrete input: the WARN entry on the demo hub, client 1 without filter and
client 2 with the filter `levels = [ERROR]`. -/
theorem C19_witness :
    (demoHub.WF ∧ [3, 1, 2].Nodup ∧ (∀ c, c ∈ [3, 1, 2] ↔ demoHub.clients c = true) ∧
      demoWarn.Parsed = some ⟨none, "WARN", "WARN disk almost full", "", []⟩ ∧
      demoHub.clients 1 = true ∧ demoHub.clients 2 = true ∧
      ((demoHub.client 1).filter.Levels = [] ∧ (demoHub.client 1).filter.Search = "") ∧
      (demoHub.client 2).filter.Levels = ["ERROR"] ∧ (demoHub.client 1).send.length < 256) ∧
    ((∀ (e : LogEntry) (f : LogFilter), f.Levels ≠ [] → matchesFilter asciiLib e f = true →
        ∃ q, e.Parsed = some q ∧ q.Level ≠ "" ∧
          ∃ l ∈ f.Levels, equalFold asciiLib l q.Level = true) ∧
      ∃ h1, demoHub.step asciiLib (HubEvent.broadcast demoWarn [3, 1, 2]) = some h1 ∧
        (h1.client 1).send
          = (demoHub.client 1).send ++ [marshalled asciiLib (WSMessage.log demoWarn)] ∧
        (∀ data, asciiLib.marshal (WSMessage.log demoWarn) = some data →
          (h1.client 1).send = (demoHub.client 1).send ++ [⟨some data, WSMessage.log demoWarn⟩] ∧
          logsOf (h1.client 1).send = logsOf (demoHub.client 1).send ++ [demoWarn]) ∧
        (h1.client 2).send = (demoHub.client 2).send) ∧
    (matchesFilter asciiLib demoWarn LogFilter.zero = true ∧
      matchesFilter asciiLib demoWarn ⟨"", ["ERROR"], false, 0, 0⟩ = false ∧
      matchesFilter asciiLib demoWarn ⟨"", ["error", "warn"], false, 0, 0⟩ = true) ∧
    (asciiLib.marshal (WSMessage.log demoWarn)).isSome = true ∧
    (demoHub.step asciiLib (HubEvent.broadcast demoWarn [3, 1, 2])).map
      (fun h1 => ((logsOf (h1.client 1).send).map (fun e => e.ID),
        (logsOf (h1.client 2).send).map (fun e => e.ID))) = some ([7], []) :=
  ⟨⟨demoHub_wf, by decide, demoHub_visit, rfl, rfl, rfl, ⟨rfl, rfl⟩, rfl, by decide⟩,
    C19_level_filter_on_broadcast asciiLib demoHub demoWarn [3, 1, 2] 1 2
      ⟨none, "WARN", "WARN disk almost full", "", []⟩ demoHub_wf (by decide) demoHub_visit
      rfl rfl rfl rfl ⟨rfl, rfl⟩ rfl (by decide),
    by decide, by decide, by decide⟩

set_option maxRecDepth 100000 in
/-- C19 fails as stated for a WARN entry whose message cannot be marshalled: the entry parsed
from `{"level":"warn","ts":1000000000000}` has level WARN and a time in the year 33658, client 1
of the demo hub is registered with no filter and an empty queue, and after the broadcast its
queue holds one nil payload and no log entry: the entry is not enqueued for it. -/
theorem C19_counterexample_warn_entry_not_marshalled :
    demoFar.Parsed.map (fun p => (p.Level, p.Time))
      = some ("WARN", some ⟨1000000000000 * 1000000000⟩) ∧
    demoHub.clients 1 = true ∧
    ((demoHub.client 1).filter.Levels = [] ∧ (demoHub.client 1).filter.Search = "") ∧
    (demoHub.client 1).send = [] ∧
    asciiLib.marshal (WSMessage.log demoFar) = none ∧
    (demoHub.step asciiLib (HubEvent.broadcast demoFar [3, 1, 2])).map
      (fun h1 => ((h1.client 1).send.map (fun p => p.data),
        (logsOf (h1.client 1).send).map (fun e => e.ID))) = some ([none], []) := by
  refine ⟨by decide, by decide, ⟨by decide, by decide⟩, rfl, by decide, by decide⟩

theorem newHub_wf : NewHub.WF := by
  intro c hc
  exact absurd hc (by simp [NewHub])

theorem demoEvents_visit :
    ∀ c, c ∈ [1] ↔ Function.update (fun _ : ClientId => false) 1 true c = true := by
  intro c
  by_cases hc : c = 1
  · subst hc; simp
  · simp [Function.update_noteq hc, hc]

theorem demoEvents_admissible : NewHub.Admissible asciiLib demoEvents :=
  ⟨rfl, ⟨by decide, demoEvents_visit⟩, trivial, ⟨by decide, demoEvents_visit⟩,
    ⟨by decide, demoEvents_visit⟩, trivial, trivial, trivial⟩

/-- C20: for every sequence of actions the program can take (register, unregister, broadcast,
changes of filter, pings and receives in any order) from a state in which every registered
channel is open, and every client: no action panics, and the log entries enqueued on the send
channel of the client during the sequence are a subsequence of the entries broadcast, in the
order of the broadcasts; for a client on which nothing was enqueued before, all the entries
ever enqueued, received or still queued, are such a subsequence. -/
theorem C20_enqueued_is_subsequence_of_broadcasts (L : Lib) (h : Hub) (evs : List Event)
    (c : ClientId) (hwf : h.WF) (hadm : h.Admissible L evs) :
    ∃ h1, h.run L evs = some h1 ∧
      (∃ added, (h1.client c).enqueued = (h.client c).enqueued ++ added ∧
        added.Sublist (broadcastsOf evs)) ∧
      ((h.client c).enqueued = [] → (h1.client c).enqueued.Sublist (broadcastsOf evs)) := by
  obtain ⟨h1, hrun, -, henq⟩ := run_admissible L evs h hwf hadm
  obtain ⟨added, hadded, hsub⟩ := henq c
  refine ⟨h1, hrun, ⟨added, hadded, hsub⟩, ?_⟩
  intro hempty
  rw [hadded, hempty, List.nil_append]
  exact hsub

/-- C20 at a concrete input: in the demo run the entries 7 (WARN), 8 (INFO) and 9 (ERROR) are
broadcast in this order; client 1 is sent 7 before it subscribes to `levels = [ERROR]`, then 9
and not 8; `writePump` has received 7 and 9 is still queued. -/
theorem C20_witness :
    (NewHub.WF ∧ NewHub.Admissible asciiLib demoEvents) ∧
    (∃ h1, NewHub.run asciiLib demoEvents = some h1 ∧
      (∃ added, (h1.client 1).enqueued = (NewHub.client 1).enqueued ++ added ∧
        added.Sublist (broadcastsOf demoEvents)) ∧
      ((NewHub.client 1).enqueued = [] →
        (h1.client 1).enqueued.Sublist (broadcastsOf demoEvents))) ∧
    (broadcastsOf demoEvents).map (fun e => e.ID) = [7, 8, 9] ∧
    (NewHub.run asciiLib demoEvents).map
      (fun h1 => ((h1.client 1).enqueued.map (fun e => e.ID),
        (logsOf (h1.client 1).written).map (fun e => e.ID),
        (logsOf (h1.client 1).send).map (fun e => e.ID), h1.clients 1, (h1.client 1).closed))
      = some ([7, 9], [7], [9], false, true) :=
  ⟨⟨newHub_wf, demoEvents_admissible⟩,
    C20_enqueued_is_subsequence_of_broadcasts asciiLib NewHub demoEvents 1 newHub_wf
      demoEvents_admissible,
    by decide, by decide⟩

/-! ## `Clear` and the entries added after it -/

/-- C21: in every state `r` reachable from `New(c)`, `c ≥ 1`, by `Add` and `Clear`, `Clear`
leaves `capacity` and `totalReceived` unchanged and makes `GetAll` empty and `Stats` used 0; and
when the entries `es` are then added (any number `k` of them, in particular `k ≥ 1`), no call
panics, the `i`-th `Add` returns the `i`-th entry with the next ID, and `GetAll` returns exactly
the last `min(k, c)` of the entries these `Add`s returned, in insertion order: nothing stored
before the `Clear` is in the result. -/
theorem C21_clear_hides_earlier_entries (c : Nat) (r : Ring) (es : List LogEntry) (hc : 1 ≤ c)
    (hr : Reachable c r) :
    (r.Clear.capacity = r.capacity ∧ r.Clear.totalReceived = r.totalReceived ∧
      r.Clear.GetAll = some [] ∧ r.Clear.Stats.2.1 = 0) ∧
    ∃ r1 out l, r.Clear.exec (es.map Op.add) = some (r1, out) ∧ r1.GetAll = some l ∧
      out.length = es.length ∧
      (∀ i : Nat, out[i]? = (es[i]?).map
        (fun e : LogEntry => { e with ID := (r.totalReceived + i + 1) % 2 ^ 64 })) ∧
      l = out.drop (es.length - min es.length c) ∧ l.length = min es.length c := by
  obtain ⟨hist, n, hinv⟩ := reachable_inv hc hr
  have hcl := ringInv_clear hinv
  obtain ⟨r1, hex, hinv1⟩ := exec_eq (es.map Op.add) hcl
  rw [issued_map_add] at hex
  rw [sinceClear_map_add, List.nil_append] at hinv1
  refine ⟨⟨rfl, rfl, rfl, rfl⟩, r1, _, _, hex, getAll_eq hinv1, stampAll_length es n, ?_, ?_, ?_⟩
  · intro i
    have hid : (r.totalReceived + i + 1) % 2 ^ 64 = (n + 1 + i) % 2 ^ 64 := by
      rw [hinv.total]; omega
    rw [stampAll_getElem?, hid]
    rfl
  · have e1 : es.length - min es.length c = es.length - c := by omega
    rw [e1, stampAll_length]
  · rw [List.length_drop, stampAll_length]; omega

/-- C21 at a concrete input: the demo ring (capacity 2, holding IDs 2 and 3) is cleared; after
one `Add` only the new entry, with ID 4, is returned although the old entry with ID 2 is still in
the slice, and after three `Add`s the last two, with IDs 5 and 6. -/
theorem C21_witness :
    (1 ≤ 2 ∧ Reachable 2 demoRing) ∧
    ((demoRing.Clear.capacity = demoRing.capacity ∧
        demoRing.Clear.totalReceived = demoRing.totalReceived ∧
        demoRing.Clear.GetAll = some [] ∧ demoRing.Clear.Stats.2.1 = 0) ∧
      ∃ r1 out l, demoRing.Clear.exec (demoEntries.map Op.add) = some (r1, out) ∧
        r1.GetAll = some l ∧ out.length = demoEntries.length ∧
        (∀ i : Nat, out[i]? = (demoEntries[i]?).map
          (fun e : LogEntry => { e with ID := (demoRing.totalReceived + i + 1) % 2 ^ 64 })) ∧
        l = out.drop (demoEntries.length - min demoEntries.length 2) ∧
        l.length = min demoEntries.length 2) ∧
    (demoRing.Clear.exec (demoEntries.map Op.add)).bind (fun p => p.1.GetAll)
      = some [{ demoB with ID := 5 }, { demoC with ID := 6 }] ∧
    (demoRing.Clear.exec [Op.add demoA]).bind (fun p => p.1.GetAll)
      = some [{ demoA with ID := 4 }] ∧
    (demoRing.Clear.exec [Op.add demoA]).map (fun p => p.1.entries.map (fun e => e.ID))
      = some [4, 2] :=
  ⟨⟨by decide, demoRing_reachable⟩,
    C21_clear_hides_earlier_entries 2 demoRing demoEntries (by decide) demoRing_reachable,
    rfl, rfl, rfl⟩

/-! ## The invariant in every reachable state -/

theorem sinceClear_length_le (ops : List Op) :
    ∀ (hist : List LogEntry) (n : Nat),
      (sinceClear hist n ops).length ≤ hist.length + numAdds ops := by
  induction ops with
  | nil => intro hist n; exact Nat.le_add_right _ _
  | cons op ops ih =>
    intro hist n
    cases op with
    | add e =>
      have h := ih (hist ++ [stamp (n + 1) e]) (n + 1)
      rw [List.length_append, List.length_singleton] at h
      simp only [sinceClear, numAdds]
      omega
    | clear =>
      have h := ih [] n
      simp only [sinceClear, numAdds]
      simp only [List.length_nil] at h
      omega

/-- With fewer than `2 ^ 64` `Add`s the entries added since the last `Clear` carry strictly
increasing IDs. -/
theorem sinceClear_ids_increasing (ops : List Op) :
    ∀ (hist : List LogEntry) (n : Nat), n + numAdds ops < 2 ^ 64 →
      (hist.map (fun x => x.ID)).Pairwise (fun a b => a < b) →
      (∀ x ∈ hist, x.ID ≤ n) →
      ((sinceClear hist n ops).map (fun x => x.ID)).Pairwise (fun a b => a < b) := by
  induction ops with
  | nil => intro hist n _ hp _; exact hp
  | cons op ops ih =>
    intro hist n hn hp hle
    cases op with
    | add e =>
      simp only [numAdds] at hn
      have hmod : (n + 1) % 2 ^ 64 = n + 1 := by omega
      have hid : (stamp (n + 1) e).ID = n + 1 := hmod
      refine ih (hist ++ [stamp (n + 1) e]) (n + 1) (by omega) ?_ ?_
      · rw [List.map_append, List.pairwise_append]
        refine ⟨hp, List.pairwise_singleton _ _, ?_⟩
        intro a ha b hb
        rw [List.map_singleton, List.mem_singleton] at hb
        obtain ⟨x, hx, hxa⟩ := List.mem_map.mp ha
        have := hle x hx
        rw [hb, hid, ← hxa]
        omega
      · intro x hx
        rcases List.mem_append.mp hx with h1 | h1
        · have := hle x h1; omega
        · rw [List.mem_singleton] at h1
          rw [h1, hid]
    | clear =>
      simp only [numAdds] at hn
      exact ih [] n hn List.Pairwise.nil (fun x hx => absurd hx (List.not_mem_nil _))

/-- A fresh ring of capacity 2 after `N ≥ 2` zero entries were added, `N` a multiple of
`2 ^ 64`: the counter has wrapped to 0 while two entries are held, the older with ID
`2 ^ 64 - 1` and the newer with ID 0. -/
theorem state_at_wrap (N : Nat) (hN : 2 ≤ N) (hmod : N % 2 ^ 64 = 0) :
    ∃ r out, (New 2).exec ((List.replicate N LogEntry.zero).map Op.add) = some (r, out) ∧
      r.count = 2 ∧ r.totalReceived = 0 ∧
      r.GetAll = some [{ LogEntry.zero with ID := 2 ^ 64 - 1 }, LogEntry.zero] := by
  obtain ⟨r, hex, hinv⟩ :=
    exec_eq ((List.replicate N LogEntry.zero).map Op.add) (ringInv_new 2 (by omega))
  rw [sinceClear_map_add, List.nil_append, numAdds_map_add, List.length_replicate] at hinv
  have hlen : (stampAll 0 (List.replicate N LogEntry.zero)).length = N := by
    rw [stampAll_length, List.length_replicate]
  refine ⟨r, _, hex, ?_, ?_, ?_⟩
  · rw [hinv.count, hlen]; omega
  · rw [hinv.total, Nat.zero_add, hmod]
  · rw [getAll_eq hinv, hlen]
    congr 1
    apply List.ext_getElem?
    intro i
    rw [List.getElem?_drop, stampAll_getElem?, List.getElem?_replicate]
    cases i with
    | zero =>
      have h1 : N - 2 + 0 < N := by omega
      have h2 : (0 + 1 + (N - 2 + 0)) % 2 ^ 64 = 2 ^ 64 - 1 := by omega
      rw [if_pos h1]
      simp only [stamp, h2, Option.map_some', List.getElem?_cons_zero]
    | succ i =>
      cases i with
      | zero =>
        have h1 : N - 2 + (0 + 1) < N := by omega
        have h2 : 0 + 1 + (N - 2 + (0 + 1)) = N := by omega
        rw [if_pos h1, h2]
        simp only [stamp, hmod, Option.map_some', LogEntry.zero, List.getElem?_cons_succ,
          List.getElem?_cons_zero]
      | succ i =>
        have h1 : ¬ (N - 2 + (i + 1 + 1) < N) := by omega
        rw [if_neg h1]
        rfl

/-- C22 (as amended): for every capacity `c ≥ 1` and every run `ops` of `Add` and `Clear` on a
fresh `New(c)`, no call panics and the state reached has `capacity = c`, a slice of length `c`,
`head < c`, `count ≤ c`, `count < c → head = count` and `Stats` used `= count`; so the capacity
is not zero, the write index of `Add` is inside the slice and every further `Add` returns, every
read index of `GetAll` is inside the slice and `GetAll` returns.  When fewer than `2 ^ 64`
entries were added in total, moreover `count ≤ totalReceived` and the entries `GetAll` returns
have strictly increasing IDs. -/
theorem C22_reachable_state_invariant (c : Nat) (ops : List Op) (hc : 1 ≤ c) :
    ∃ r out, (New c).exec ops = some (r, out) ∧
      (r.capacity = c ∧ r.entries.length = c) ∧
      (r.head < c ∧ r.count ≤ c ∧ (r.count < c → r.head = r.count) ∧
        r.Stats.2.1 = r.count) ∧
      (r.capacity ≠ 0 ∧ r.head < r.entries.length ∧ ∀ e, (r.Add e).isSome = true) ∧
      (∀ i, i < r.count →
        ((if r.count = r.capacity then r.head else 0) + i) % r.capacity < r.entries.length) ∧
      (numAdds ops < 2 ^ 64 → r.Stats.2.1 ≤ r.Stats.2.2) ∧
      ∃ l, r.GetAll = some l ∧
        (numAdds ops < 2 ^ 64 → (l.map (fun x => x.ID)).Pairwise (fun a b => a < b)) := by
  obtain ⟨r, hex, hinv⟩ := exec_eq ops (ringInv_new c hc)
  have hhead : r.head < c := by rw [hinv.head]; exact Nat.mod_lt _ hc
  have hcount := hinv.count
  have hlen := sinceClear_length_le ops [] 0
  rw [List.length_nil] at hlen
  refine ⟨r, _, hex, ⟨hinv.cap, hinv.len⟩, ⟨hhead, by omega, ?_, rfl⟩, ⟨?_, ?_, ?_⟩, ?_, ?_,
    _, getAll_eq hinv, ?_⟩
  · intro hlt
    have h1 : (sinceClear [] 0 ops).length < c := by omega
    rw [hinv.head, Nat.mod_eq_of_lt h1]
    omega
  · rw [hinv.cap]; omega
  · rw [hinv.len]; exact hhead
  · intro e
    obtain ⟨r1, hadd, -⟩ := ringInv_add hinv e
    rw [hadd]; rfl
  · intro i _
    rw [hinv.len, hinv.cap]
    exact Nat.mod_lt _ hc
  · intro hN
    show r.count ≤ r.totalReceived
    have hmod : (0 + numAdds ops) % 2 ^ 64 = 0 + numAdds ops := by omega
    rw [hinv.total, hmod]
    omega
  · intro hN
    have hp := sinceClear_ids_increasing ops [] 0 (by omega) List.Pairwise.nil
      (fun x hx => absurd hx (List.not_mem_nil _))
    exact hp.sublist ((List.drop_sublist _ _).map _)

/-- C22 at a concrete input: add, add, add, clear, add on a ring of capacity 2 reaches a state
with head 1, count 1 and totalReceived 4, whose `GetAll` returns the one entry with ID 4; before
the `Clear` the state has head 1, count 2 and `GetAll` returns the IDs 2, 3. -/
theorem C22_witness :
    (1 ≤ 2) ∧
    (∃ r out, (New 2).exec (demoEntries.map Op.add ++ [Op.clear, Op.add demoA])
        = some (r, out) ∧
      (r.capacity = 2 ∧ r.entries.length = 2) ∧
      (r.head < 2 ∧ r.count ≤ 2 ∧ (r.count < 2 → r.head = r.count) ∧
        r.Stats.2.1 = r.count) ∧
      (r.capacity ≠ 0 ∧ r.head < r.entries.length ∧ ∀ e, (r.Add e).isSome = true) ∧
      (∀ i, i < r.count →
        ((if r.count = r.capacity then r.head else 0) + i) % r.capacity < r.entries.length) ∧
      (numAdds (demoEntries.map Op.add ++ [Op.clear, Op.add demoA]) < 2 ^ 64 →
        r.Stats.2.1 ≤ r.Stats.2.2) ∧
      ∃ l, r.GetAll = some l ∧
        (numAdds (demoEntries.map Op.add ++ [Op.clear, Op.add demoA]) < 2 ^ 64 →
          (l.map (fun x => x.ID)).Pairwise (fun a b => a < b))) ∧
    ((New 2).exec (demoEntries.map Op.add ++ [Op.clear, Op.add demoA])).map
      (fun p => (p.1.head, p.1.count, p.1.totalReceived)) = some (1, 1, 4) ∧
    (((New 2).exec (demoEntries.map Op.add ++ [Op.clear, Op.add demoA])).bind
      (fun p => p.1.GetAll)).map (fun l => l.map (fun x => x.ID)) = some [4] ∧
    ((New 2).exec (demoEntries.map Op.add)).map
      (fun p => (p.1.head, p.1.count, p.1.totalReceived)) = some (1, 2, 3) ∧
    (((New 2).exec (demoEntries.map Op.add)).bind
      (fun p => p.1.GetAll)).map (fun l => l.map (fun x => x.ID)) = some [2, 3] :=
  ⟨by decide,
    C22_reachable_state_invariant 2 (demoEntries.map Op.add ++ [Op.clear, Op.add demoA])
      (by decide),
    rfl, rfl, rfl, rfl⟩

/-- C22 fails as stated once the ID counter wraps: after `2 ^ 64` calls to `Add` on `New(2)` the
state has `count = 2` and `totalReceived = 0`, so `count ≤ totalReceived` does not hold, and
`GetAll` returns the IDs `2 ^ 64 - 1, 0`, which are not increasing. -/
theorem C22_counterexample_counter_wraps :
    ∃ r out l, (New 2).exec ((List.replicate (2 ^ 64) LogEntry.zero).map Op.add)
        = some (r, out) ∧
      r.GetAll = some l ∧
      r.Stats.2.1 = 2 ∧ r.Stats.2.2 = 0 ∧ ¬ (r.Stats.2.1 ≤ r.Stats.2.2) ∧
      l.map (fun x => x.ID) = [2 ^ 64 - 1, 0] ∧
      ¬ (l.map (fun x => x.ID)).Pairwise (fun a b => a < b) := by
  obtain ⟨r, out, hex, hcount, htotal, hget⟩ := state_at_wrap (2 ^ 64) (by norm_num) (by norm_num)
  have hc : r.Stats.2.1 = 2 := hcount
  have ht : r.Stats.2.2 = 0 := htotal
  have hids : ([{ LogEntry.zero with ID := 2 ^ 64 - 1 }, LogEntry.zero] : List LogEntry).map
      (fun x => x.ID) = [2 ^ 64 - 1, 0] := rfl
  refine ⟨r, out, _, hex, hget, hc, ht, ?_, hids, ?_⟩
  · rw [hc, ht]; omega
  · rw [hids]
    intro hp
    have h := List.rel_of_pairwise_cons hp (List.mem_singleton.mpr rfl)
    omega

end Logbro
